import Mathlib

/-!
Shallow embedding of the chic-rust chess engine core
(`src/chess_boards/chess_board/*`, `src/engines/engine_alpha_beta.rs`)
together with theorems settling the specification claims.

Machine integers are modelled as `Nat` / `Int`; `u8` counters take an
explicit `% 256` where the source increments them.  Out-of-range board
reads (which would panic in Rust) return `Square.Empty`; all reachable
executions stay in range, so the two semantics agree on every claim.
-/

namespace Chic

/-- `Color` from `model.rs`. -/
inductive Color where
  | White
  | Black
deriving DecidableEq, Repr

/-- `Color::opposite`. -/
def Color.opposite : Color → Color
  | Color.White => Color.Black
  | Color.Black => Color.White

/-- `PieceType` from `model.rs` (declaration order matters for `Ord`). -/
inductive PieceType where
  | Pawn
  | Knight
  | Bishop
  | Rook
  | Queen
  | King
deriving DecidableEq, Repr

/-- `Piece` from `model.rs`. -/
structure Piece where
  color : Color
  kind : PieceType
deriving DecidableEq, Repr

/-- `Square` from `model.rs`. -/
inductive Square where
  | Occupied (p : Piece)
  | Empty
deriving DecidableEq, Repr

/-- `ChessField` from `model.rs`; `row`/`col` are `u8` values. -/
structure ChessField where
  row : Nat
  col : Nat
deriving DecidableEq, Repr

/-- The sentinel coordinate `(99, 99)` denoting "absent". -/
def sentinelField : ChessField := ⟨99, 99⟩

/-- `Move` from `model.rs`.  The Rust fields are named `from`/`to`;
`from` is a Lean keyword, hence `fromSq`/`toSq`. -/
structure Move where
  fromSq : ChessField
  toSq : ChessField
  promotion : Option PieceType
deriving DecidableEq, Repr

/-- `Move::new`. -/
def Move.new (fromRow fromCol toRow toCol : Nat) : Move :=
  ⟨⟨fromRow, fromCol⟩, ⟨toRow, toCol⟩, none⟩

/-- `Move::with_promotion`. -/
def Move.with_promotion (m : Move) (p : PieceType) : Move :=
  { m with promotion := some p }

/-- Numeric rank of a `PieceType` in declaration order, realising the
derived Rust `Ord`. -/
def PieceType.ordIdx : PieceType → Nat
  | PieceType.Pawn => 0
  | PieceType.Knight => 1
  | PieceType.Bishop => 2
  | PieceType.Rook => 3
  | PieceType.Queen => 4
  | PieceType.King => 5

/-- Derived Rust `Ord` on `ChessField`: lexicographic on `(row, col)`. -/
def ChessField.le (a b : ChessField) : Prop :=
  a.row < b.row ∨ (a.row = b.row ∧ a.col ≤ b.col)

/-- Derived Rust `Ord` on `Option<PieceType>`: `None` is least. -/
def promoRank : Option PieceType → Nat
  | none => 0
  | some p => p.ordIdx + 1

/-- Encode a `ChessField` injectively into `Nat` (for comparisons). -/
def ChessField.key (f : ChessField) : Nat := f.row * 1000 + f.col

/-- Encode a `Move` injectively into `Nat`, ordered like the derived
Rust `Ord` on `Move` for in-range coordinates. -/
def Move.key (m : Move) : Nat :=
  ((m.fromSq.key * 1000000 + m.toSq.key) * 10 + promoRank m.promotion)

/-- `get_piece_type_index` from `chess_board.rs`. -/
def get_piece_type_index : PieceType → Nat
  | PieceType.Pawn => 5
  | PieceType.Knight => 4
  | PieceType.Bishop => 3
  | PieceType.Rook => 2
  | PieceType.Queen => 1
  | PieceType.King => 0

/-- `get_piece_value` from `move_generation.rs`. -/
def get_piece_value : PieceType → Int
  | PieceType.Pawn => 1
  | PieceType.Knight => 3
  | PieceType.Bishop => 3
  | PieceType.Rook => 5
  | PieceType.Queen => 9
  | PieceType.King => 15

/-- `ChessBoard` from `chess_board.rs`.  The 8×8 grid is a total
function on `Fin 8 × Fin 8`; the fixed-size arrays are lists of length
16 (positions) and 7 (prefix-sum indexes). -/
structure ChessBoard where
  squares : Fin 8 → Fin 8 → Square
  active_color : Color
  castling_rights : Fin 4 → Bool
  en_passant : Option ChessField
  halfmove_clock : Nat
  fullmove_number : Nat
  hash : Nat
  last_capture : ChessField
  black_pieces_positions : List ChessField
  white_pieces_positions : List ChessField
  black_pieces : List Nat
  white_pieces : List Nat

instance : DecidableEq ChessBoard := fun a b =>
  decidable_of_iff
    (a.squares = b.squares ∧ a.active_color = b.active_color ∧
     a.castling_rights = b.castling_rights ∧ a.en_passant = b.en_passant ∧
     a.halfmove_clock = b.halfmove_clock ∧ a.fullmove_number = b.fullmove_number ∧
     a.hash = b.hash ∧ a.last_capture = b.last_capture ∧
     a.black_pieces_positions = b.black_pieces_positions ∧
     a.white_pieces_positions = b.white_pieces_positions ∧
     a.black_pieces = b.black_pieces ∧ a.white_pieces = b.white_pieces)
    (by cases a; cases b; simp)

instance {ε α : Type} [DecidableEq ε] [DecidableEq α] : DecidableEq (Except ε α)
  | .error e, .error f => decidable_of_iff (e = f) (by simp)
  | .error _, .ok _ => isFalse (by intro h; cases h)
  | .ok _, .error _ => isFalse (by intro h; cases h)
  | .ok a, .ok b => decidable_of_iff (a = b) (by simp)

/-- `ChessBoard::new`. -/
def ChessBoard.new : ChessBoard where
  squares := fun _ _ => Square.Empty
  active_color := Color.White
  castling_rights := fun _ => false
  en_passant := none
  halfmove_clock := 0
  fullmove_number := 1
  hash := 0
  last_capture := sentinelField
  black_pieces := List.replicate 7 0
  white_pieces := List.replicate 7 0
  black_pieces_positions := List.replicate 16 sentinelField
  white_pieces_positions := List.replicate 16 sentinelField

/-- Read `squares[r][c]` with `usize` indices; an out-of-range read
(a panic in Rust, unreachable on the inputs of every claim) yields
`Empty`. -/
def sqN (b : ChessBoard) (r c : Nat) : Square :=
  if h : r < 8 ∧ c < 8 then b.squares ⟨r, h.1⟩ ⟨c, h.2⟩ else Square.Empty

/-- Read `squares[r][c]` with `isize` indices. -/
def sqI (b : ChessBoard) (r c : Int) : Square :=
  if 0 ≤ r ∧ 0 ≤ c then sqN b r.toNat c.toNat else Square.Empty

/-- Functional write of one grid square. -/
def setGrid (g : Fin 8 → Fin 8 → Square) (r c : Fin 8) (v : Square) :
    Fin 8 → Fin 8 → Square :=
  fun r' c' => if r' = r ∧ c' = c then v else g r' c'

/-- Write `squares[r][c] = v` with `usize` indices (no-op out of range,
where Rust would panic; unreachable on the inputs of every claim). -/
def setSqN (b : ChessBoard) (r c : Nat) (v : Square) : ChessBoard :=
  if h : r < 8 ∧ c < 8 then
    { b with squares := setGrid b.squares ⟨r, h.1⟩ ⟨c, h.2⟩ v }
  else b

/-! ## Zobrist hashing

The keyset is process-wide random data in the source
(`ZobristHash::new(42)`); every theorem is parametric in the keys, so
it holds in particular for the concrete seeded keyset. -/

/-- The Zobrist keyset: piece-square keys, one side-to-move key, four
castling keys and eight en-passant file keys (total functions; only
indices below 64 resp. 8 are ever used on reachable inputs). -/
structure ZobristKeys where
  pieceKeys : Color → PieceType → Nat → Nat
  sideToMoveKey : Nat
  castlingKeys : Fin 4 → Nat
  enPassantKeys : Nat → Nat

/-- The key contributed by one square's content at `(r, c)`. -/
def squareKey (z : ZobristKeys) (s : Square) (r c : Nat) : Nat :=
  match s with
  | Square.Empty => 0
  | Square.Occupied p => z.pieceKeys p.color p.kind (r * 8 + c)

/-- XOR of a list of words. -/
def xorAll (l : List Nat) : Nat := l.foldr (· ^^^ ·) 0

/-- XOR contribution of one grid row (cols ascending, as in
`calculate_hash`). -/
def rowContrib (z : ZobristKeys) (g : Fin 8 → Fin 8 → Square) (r : Fin 8) : Nat :=
  xorAll ((List.finRange 8).map fun c => squareKey z (g r c) r.val c.val)

/-- XOR contribution of the whole grid (rows ascending). -/
def gridContrib (z : ZobristKeys) (g : Fin 8 → Fin 8 → Square) : Nat :=
  xorAll ((List.finRange 8).map fun r => rowContrib z g r)

/-- XOR contribution of the castling-rights flags. -/
def castContrib (z : ZobristKeys) (rights : Fin 4 → Bool) : Nat :=
  xorAll ((List.finRange 4).map fun i => if rights i then z.castlingKeys i else 0)

/-- XOR contribution of the en-passant square (file key only). -/
def epContrib (z : ZobristKeys) (ep : Option ChessField) : Nat :=
  match ep with
  | none => 0
  | some f => z.enPassantKeys f.col

/-- `ZobristHash::calculate_hash` from `zobrist_hash.rs`: XOR of the
piece-square keys of all occupied squares, the side-to-move key when
Black is to move, the keys of the set castling rights, and the
en-passant file key. -/
def calculate_hash (z : ZobristKeys) (b : ChessBoard) : Nat :=
  let h := gridContrib z b.squares
  let h := if b.active_color = Color.Black then h ^^^ z.sideToMoveKey else h
  let h := h ^^^ castContrib z b.castling_rights
  h ^^^ epContrib z b.en_passant

/-- Modelled from the spec: `ZobristHash::update_piece` of the missing
file `chess_boards/chess_board/zobrist_hash.rs` — "placing/removing a
piece on a square … is XOR-composed from a fixed keyset" (§4.1). -/
def update_piece (z : ZobristKeys) (h : Nat) (p : Piece) (r c : Nat) : Nat :=
  h ^^^ z.pieceKeys p.color p.kind (r * 8 + c)

/-- Modelled from the spec: `ZobristHash::update_square` of the missing
file `chess_boards/chess_board/zobrist_hash.rs` — XOR-toggle the key of
the square's content, nothing for an empty square. -/
def update_square (z : ZobristKeys) (h : Nat) (s : Square) (r c : Nat) : Nat :=
  match s with
  | Square.Empty => h
  | Square.Occupied p => update_piece z h p r c

/-- Modelled from the spec: `ZobristHash::update_castling` of the
missing file `chess_boards/chess_board/zobrist_hash.rs` — "toggling a
castling right" XORs its key; called once with the old and once with
the new rights by `make_move`. -/
def update_castling (z : ZobristKeys) (h : Nat) (rights : Fin 4 → Bool) : Nat :=
  h ^^^ castContrib z rights

/-- Modelled from the spec: `ZobristHash::update_enpassing` of the
missing file `chess_boards/chess_board/zobrist_hash.rs` — toggles the
en-passant file key (8 keys "indexed by column only", §4.1). -/
def update_enpassing (z : ZobristKeys) (h : Nat) (ep : Option ChessField) : Nat :=
  h ^^^ epContrib z ep

/-- Modelled from the spec: `ZobristHash::update_active_side` of the
missing file `chess_boards/chess_board/zobrist_hash.rs` — toggles the
side-to-move key. -/
def update_active_side (z : ZobristKeys) (h : Nat) : Nat :=
  h ^^^ z.sideToMoveKey

/-! ### XOR algebra -/

theorem xor_left_comm (a b c : Nat) : a ^^^ (b ^^^ c) = b ^^^ (a ^^^ c) := by
  rw [← Nat.xor_assoc, Nat.xor_comm a b, Nat.xor_assoc]

theorem xor_cancel_left (a b : Nat) : a ^^^ (a ^^^ b) = b := by
  rw [← Nat.xor_assoc, Nat.xor_self, Nat.zero_xor]

theorem xorAll_cons (a : Nat) (l : List Nat) : xorAll (a :: l) = a ^^^ xorAll l := rfl

/-- Updating the function at one element of a duplicate-free list
changes the XOR of the mapped list by the old and new values. -/
theorem xorAll_map_pointwise {α : Type} [DecidableEq α] (l : List α)
    (f : α → Nat) (a : α) (v : Nat) (hnd : l.Nodup) (ha : a ∈ l) :
    xorAll (l.map fun x => if x = a then v else f x) =
      xorAll (l.map f) ^^^ f a ^^^ v := by
  induction l with
  | nil => cases ha
  | cons hd tl ih =>
    rcases List.nodup_cons.mp hnd with ⟨hhd, htl⟩
    rcases List.mem_cons.mp ha with heq | hmem
    · subst heq
      simp only [List.map_cons, xorAll_cons, if_pos rfl]
      have hmap : (tl.map fun x => if x = a then v else f x) = tl.map f := by
        apply List.map_congr_left
        intro x hx
        have hxa : x ≠ a := fun h => hhd (h ▸ hx)
        simp [hxa]
      rw [hmap, Nat.xor_assoc (f a), Nat.xor_comm (xorAll (tl.map f)) (f a),
        ← Nat.xor_assoc (f a), Nat.xor_self, Nat.zero_xor, Nat.xor_comm]
      simp
    · have hne : hd ≠ a := fun h => hhd (h ▸ hmem)
      simp only [List.map_cons, xorAll_cons, if_neg hne]
      rw [ih htl hmem, ← Nat.xor_assoc, ← Nat.xor_assoc]

theorem xor_shuffle₁ (X R o n : Nat) :
    (X ^^^ R) ^^^ ((R ^^^ o) ^^^ n) = (X ^^^ o) ^^^ n := by
  rw [Nat.xor_assoc X R, ← Nat.xor_assoc R (R ^^^ o) n, ← Nat.xor_assoc R R o,
    Nat.xor_self, Nat.zero_xor, ← Nat.xor_assoc]

/-- Writing one square changes the grid contribution by the keys of the
old and the new content. -/
theorem rowContrib_setGrid_same (z : ZobristKeys) (g : Fin 8 → Fin 8 → Square)
    (r c : Fin 8) (v : Square) :
    rowContrib z (setGrid g r c v) r =
      rowContrib z g r ^^^ squareKey z (g r c) r.val c.val ^^^ squareKey z v r.val c.val := by
  unfold rowContrib
  have hmap : ((List.finRange 8).map fun c' => squareKey z (setGrid g r c v r c') r.val c'.val)
      = (List.finRange 8).map fun c' =>
          if c' = c then squareKey z v r.val c.val else squareKey z (g r c') r.val c'.val := by
    apply List.map_congr_left
    intro x _
    by_cases hxc : x = c
    · subst hxc; simp [setGrid]
    · simp [setGrid, hxc]
  rw [hmap,
    xorAll_map_pointwise (List.finRange 8) (fun c' => squareKey z (g r c') r.val c'.val) c
      (squareKey z v r.val c.val) (List.nodup_finRange 8) (List.mem_finRange c)]

theorem gridContrib_setGrid (z : ZobristKeys) (g : Fin 8 → Fin 8 → Square)
    (r c : Fin 8) (v : Square) :
    gridContrib z (setGrid g r c v) =
      gridContrib z g ^^^ squareKey z (g r c) r.val c.val ^^^ squareKey z v r.val c.val := by
  unfold gridContrib
  have hmap : ((List.finRange 8).map fun r' => rowContrib z (setGrid g r c v) r')
      = (List.finRange 8).map fun r' =>
          if r' = r then
            rowContrib z g r ^^^ squareKey z (g r c) r.val c.val ^^^ squareKey z v r.val c.val
          else rowContrib z g r' := by
    apply List.map_congr_left
    intro x _
    by_cases hxr : x = r
    · subst hxr; simp only [if_pos rfl]; exact rowContrib_setGrid_same z g x c v
    · simp only [if_neg hxr]
      unfold rowContrib
      congr 1
      apply List.map_congr_left
      intro y _
      have : ¬(x = r ∧ y = c) := fun h => hxr h.1
      simp [setGrid, this]
  rw [hmap,
    xorAll_map_pointwise (List.finRange 8) (fun r' => rowContrib z g r') r
      (rowContrib z g r ^^^ squareKey z (g r c) r.val c.val ^^^ squareKey z v r.val c.val)
      (List.nodup_finRange 8) (List.mem_finRange r),
    xor_shuffle₁]

/-! ## Piece-list maintenance (`chess_board.rs`) -/

/-- `Square::Occupied` test (the `matches!` in `make_move`). -/
def Square.isOccupied : Square → Bool
  | Square.Occupied _ => true
  | Square.Empty => false

/-- Clear one castling-right flag. -/
def clearRight (b : ChessBoard) (i : Fin 4) : ChessBoard :=
  { b with castling_rights := fun j => if j = i then false else b.castling_rights j }

/-- `ChessBoard::update_piece_position`: rewrite every entry equal to
`mv.from` inside the mover's slice of the given piece type. -/
def update_piece_position (b : ChessBoard) (mv : Move) (piece : Piece) : ChessBoard :=
  let pi := get_piece_type_index piece.kind
  if b.active_color = Color.White then
    let lo := b.white_pieces.getD pi 0
    let hi := b.white_pieces.getD (pi + 1) 0
    { b with white_pieces_positions := b.white_pieces_positions.mapIdx fun i x =>
        if lo ≤ i ∧ i < hi ∧ x = mv.fromSq then mv.toSq else x }
  else
    let lo := b.black_pieces.getD pi 0
    let hi := b.black_pieces.getD (pi + 1) 0
    { b with black_pieces_positions := b.black_pieces_positions.mapIdx fun i x =>
        if lo ≤ i ∧ i < hi ∧ x = mv.fromSq then mv.toSq else x }

/-- `ChessBoard::insert_pieces_array_and_positions`: shift the range
`[pieces[pi], pieces[6])` right by one, write `field` at `pieces[pi]`,
and bump the prefix sums from `pi` on (u8 arithmetic). -/
def insert_pieces_array_and_positions (field : ChessField) (piece_index : Nat)
    (pieces : List Nat) (piece_position : List ChessField) :
    List Nat × List ChessField :=
  let a := pieces.getD piece_index 0
  let e := pieces.getD 6 0
  let pos := piece_position.mapIdx fun i x =>
    if i = a then field
    else if a < i ∧ i ≤ e then piece_position.getD (i - 1) sentinelField
    else x
  let pcs := pieces.mapIdx fun i x => if piece_index ≤ i then (x + 1) % 256 else x
  (pcs, pos)

/-- `ChessBoard::insert_piece_from_piece_position` (note the source's
`piece_index = get_piece_type_index + 1`). -/
def insert_piece_from_piece_position (b : ChessBoard) (field : ChessField)
    (piece : Piece) : ChessBoard :=
  let piece_index := get_piece_type_index piece.kind + 1
  if b.active_color = Color.White then
    let (pcs, pos) :=
      insert_pieces_array_and_positions field piece_index b.white_pieces b.white_pieces_positions
    { b with white_pieces := pcs, white_pieces_positions := pos }
  else
    let (pcs, pos) :=
      insert_pieces_array_and_positions field piece_index b.black_pieces b.black_pieces_positions
    { b with black_pieces := pcs, black_pieces_positions := pos }

/-- `ChessBoard::remove_pieces_array_and_positions`: shift left from the
first occurrence of `field` in `[pieces[pi], pieces[6]-1)`, blank the
last slot when it holds `field`, and decrement the prefix sums from
`pi+1` on when something was found (u8 arithmetic). -/
def remove_pieces_array_and_positions (field : ChessField) (piece_index : Nat)
    (pieces : List Nat) (piece_position : List ChessField) :
    List Nat × List ChessField :=
  let a := pieces.getD piece_index 0
  let e := pieces.getD 6 0
  let foundIdx := (List.range' a (e - 1 - a)).find? fun i =>
    piece_position.getD i sentinelField = field
  let pos1 := match foundIdx with
    | some j => piece_position.mapIdx fun i x =>
        if j ≤ i ∧ i < e - 1 then piece_position.getD (i + 1) sentinelField else x
    | none => piece_position
  let lastMatches := piece_position.getD (e - 1) sentinelField = field
  let pos2 := if lastMatches then pos1.set (e - 1) sentinelField else pos1
  let found := foundIdx.isSome ∨ lastMatches
  let pcs := if found then
      pieces.mapIdx fun i x => if piece_index + 1 ≤ i then (x + 255) % 256 else x
    else pieces
  (pcs, pos2)

/-- `ChessBoard::remove_piece_from_piece_position` (selects the list by
the removed piece's colour). -/
def remove_piece_from_piece_position (b : ChessBoard) (field : ChessField)
    (piece : Piece) : ChessBoard :=
  let piece_index := get_piece_type_index piece.kind
  if piece.color = Color.White then
    let (pcs, pos) :=
      remove_pieces_array_and_positions field piece_index b.white_pieces b.white_pieces_positions
    { b with white_pieces := pcs, white_pieces_positions := pos }
  else
    let (pcs, pos) :=
      remove_pieces_array_and_positions field piece_index b.black_pieces b.black_pieces_positions
    { b with black_pieces := pcs, black_pieces_positions := pos }

/-- `ChessBoard::find_king_position`: slot 0 of the colour's position
array, `None` when it holds the sentinel. -/
def find_king_position (b : ChessBoard) (color : Color) : Option ChessField :=
  let king := match color with
    | Color.White => some (b.white_pieces_positions.getD 0 sentinelField)
    | Color.Black => some (b.black_pieces_positions.getD 0 sentinelField)
  if king = some sentinelField then none else king

/-! ## `ChessBoard::make_move` (`chess_board.rs`) -/

/-- Code after the `match` in `make_move`: flip the side, bump the
fullmove number after a Black move, XOR in the new castling, side and
en-passant contributions, store the hash. -/
def make_move_tail (z : ZobristKeys) (b : ChessBoard) (hash : Nat) : ChessBoard :=
  let b := { b with active_color := b.active_color.opposite }
  let b := if b.active_color = Color.White then
      { b with fullmove_number := (b.fullmove_number + 1) % 256 }
    else b
  let hash := update_castling z hash b.castling_rights
  let hash := update_active_side z hash
  let hash := update_enpassing z hash b.en_passant
  { b with hash := hash }

/-- `make_move`, capture block: remove a piece sitting on the
destination (hash, `last_capture`, piece list). -/
def mm_capture (z : ZobristKeys) (b : ChessBoard) (hash : Nat) (mv : Move) :
    ChessBoard × Nat :=
  match sqN b mv.toSq.row mv.toSq.col with
  | Square.Occupied q =>
      let hash := update_piece z hash q mv.toSq.row mv.toSq.col
      let b := { b with last_capture := mv.toSq }
      let b := remove_piece_from_piece_position b mv.toSq q
      (b, hash)
  | Square.Empty => ({ b with last_capture := sentinelField }, hash)

/-- `make_move`, en-passant capture block: clear the square
`(from.row, to.col)` when the move is a pawn arriving on the ghost
square. -/
def mm_ep_capture (z : ZobristKeys) (b : ChessBoard) (hash : Nat) (mv : Move)
    (p : Piece) : ChessBoard × Nat :=
  match b.en_passant with
  | some ep =>
      if mv.toSq = ep ∧ p.kind = PieceType.Pawn then
        let hash := update_square z hash (sqN b mv.fromSq.row mv.toSq.col)
          mv.fromSq.row mv.toSq.col
        let b := setSqN b mv.fromSq.row mv.toSq.col Square.Empty
        let b := remove_piece_from_piece_position b ⟨mv.fromSq.row, mv.toSq.col⟩
          ⟨p.color.opposite, PieceType.Pawn⟩
        (b, hash)
      else (b, hash)
  | none => (b, hash)

/-- `make_move`, castling block: relocate the rook on a two-file king
move with the matching right set. -/
def mm_castle (z : ZobristKeys) (b : ChessBoard) (hash : Nat) (mv : Move)
    (p : Piece) : ChessBoard × Nat :=
  if p.kind = PieceType.King then
    if mv.fromSq.col = 4 ∧ mv.toSq.col = 6 ∧ mv.fromSq.row = mv.toSq.row then
      if b.castling_rights (if b.active_color = Color.White then 0 else 2) then
        let b := setSqN b mv.fromSq.row 5 (sqN b mv.fromSq.row 7)
        let hash := update_square z hash (sqN b mv.fromSq.row 5) mv.fromSq.row 5
        let hash := update_square z hash (sqN b mv.fromSq.row 7) mv.fromSq.row 7
        let b := setSqN b mv.fromSq.row 7 Square.Empty
        let rookMv : Move := ⟨⟨mv.fromSq.row, 7⟩, ⟨mv.fromSq.row, 5⟩, none⟩
        let b := update_piece_position b rookMv ⟨p.color, PieceType.Rook⟩
        (b, hash)
      else (b, hash)
    else if mv.fromSq.col = 4 ∧ mv.toSq.col = 2 ∧ mv.fromSq.row = mv.toSq.row then
      if b.castling_rights (if b.active_color = Color.White then 1 else 3) then
        let b := setSqN b mv.fromSq.row 3 (sqN b mv.fromSq.row 0)
        let hash := update_square z hash (sqN b mv.fromSq.row 3) mv.fromSq.row 3
        let hash := update_square z hash (sqN b mv.fromSq.row 0) mv.fromSq.row 0
        let b := setSqN b mv.fromSq.row 0 Square.Empty
        let rookMv : Move := ⟨⟨mv.fromSq.row, 0⟩, ⟨mv.fromSq.row, 3⟩, none⟩
        let b := update_piece_position b rookMv ⟨p.color, PieceType.Rook⟩
        let b := update_piece_position b mv p
        (b, hash)
      else (b, hash)
    else (b, hash)
  else (b, hash)

/-- `make_move`, castling-rights clearing keyed on the from-square. -/
def mm_rights_from (b : ChessBoard) (mv : Move) : ChessBoard :=
  if mv.fromSq.row = 0 ∧ mv.fromSq.col = 0 then clearRight b 1
  else if mv.fromSq.row = 7 ∧ mv.fromSq.col = 0 then clearRight b 3
  else if mv.fromSq.row = 0 ∧ mv.fromSq.col = 7 then clearRight b 0
  else if mv.fromSq.row = 7 ∧ mv.fromSq.col = 7 then clearRight b 2
  else if mv.fromSq.row = 0 ∧ mv.fromSq.col = 4 then clearRight (clearRight b 0) 1
  else if mv.fromSq.row = 7 ∧ mv.fromSq.col = 4 then clearRight (clearRight b 2) 3
  else b

/-- `make_move`, castling-rights clearing keyed on the to-square (rook
captured on its home square). -/
def mm_rights_to (b : ChessBoard) (mv : Move) : ChessBoard :=
  if mv.toSq.row = 0 ∧ mv.toSq.col = 0 then clearRight b 1
  else if mv.toSq.row = 7 ∧ mv.toSq.col = 0 then clearRight b 3
  else if mv.toSq.row = 0 ∧ mv.toSq.col = 7 then clearRight b 0
  else if mv.toSq.row = 7 ∧ mv.toSq.col = 7 then clearRight b 2
  else b

/-- `make_move`, pawn block: set the en-passant square on a double
push, or replace the pawn on a promotion. -/
def mm_pawn (z : ZobristKeys) (b : ChessBoard) (hash : Nat) (mv : Move)
    (p : Piece) : ChessBoard × Nat :=
  if p.kind = PieceType.Pawn then
    if p.color = Color.White ∧ mv.fromSq.row = 1 ∧ mv.toSq.row = 3 then
      ({ b with en_passant := some ⟨2, mv.fromSq.col⟩ }, hash)
    else if p.color = Color.Black ∧ mv.fromSq.row = 6 ∧ mv.toSq.row = 4 then
      ({ b with en_passant := some ⟨5, mv.fromSq.col⟩ }, hash)
    else
      match mv.promotion with
      | some promoKind =>
          let promotion_piece : Piece := ⟨p.color, promoKind⟩
          let b := setSqN b mv.toSq.row mv.toSq.col (Square.Occupied promotion_piece)
          let hash := update_piece z hash p mv.toSq.row mv.toSq.col
          let hash := update_piece z hash promotion_piece mv.toSq.row mv.toSq.col
          let b := remove_piece_from_piece_position b mv.toSq p
          let b := insert_piece_from_piece_position b mv.toSq promotion_piece
          (b, hash)
      | none => (b, hash)
  else (b, hash)

/-- `ChessBoard::make_move`, translated statement by statement; the
source's contiguous blocks are the `mm_*` stages above, chained in
source order with the board and the local `hash` variable threaded
through. -/
def make_move (z : ZobristKeys) (b : ChessBoard) (mv : Move) : ChessBoard :=
  let piece := sqN b mv.fromSq.row mv.fromSq.col
  let hash := update_castling z b.hash b.castling_rights
  match piece with
  | Square.Empty =>
      let hash := update_enpassing z hash b.en_passant
      let b := { b with en_passant := none }
      make_move_tail z b hash
  | Square.Occupied p =>
      let b :=
        if p.kind = PieceType.Pawn ∨ (sqN b mv.toSq.row mv.toSq.col).isOccupied then
          { b with halfmove_clock := 0 }
        else { b with halfmove_clock := (b.halfmove_clock + 1) % 256 }
      let hash := update_piece z hash p mv.fromSq.row mv.fromSq.col
      let b := setSqN b mv.fromSq.row mv.fromSq.col Square.Empty
      let st := mm_capture z b hash mv
      let hash := update_piece z st.2 p mv.toSq.row mv.toSq.col
      let b := setSqN st.1 mv.toSq.row mv.toSq.col (Square.Occupied p)
      let b := update_piece_position b mv p
      let st := mm_ep_capture z b hash mv p
      let hash := update_enpassing z st.2 st.1.en_passant
      let b := { st.1 with en_passant := none }
      let st := mm_castle z b hash mv p
      let b := mm_rights_from st.1 mv
      let b := mm_rights_to b mv
      let st := mm_pawn z b st.2 mv p
      make_move_tail z st.1 st.2

/-! ## Move generation (`move_generation.rs`) -/

def NO_CAPTURE : Int := 0
def CAPTURE : Int := 10000
def CAPTURE_BASE : Int := CAPTURE + 10
def CASTLING_SCORE : Int := 50
def BEST_MOVE : Int := 1000000

/-- `pieces_with_coordinates`: the active colour's position-array
prefix, keeping entries whose square is occupied. -/
def pieces_with_coordinates (b : ChessBoard) : List (ChessField × Piece) :=
  let pp := if b.active_color = Color.White then
      b.white_pieces_positions.take (b.white_pieces.getD 6 0)
    else b.black_pieces_positions.take (b.black_pieces.getD 6 0)
  pp.filterMap fun f =>
    match sqN b f.row f.col with
    | Square.Occupied p => some (f, p)
    | Square.Empty => none

/-- `compute_capture_score`: the MVV-LVA capture score (the source's
two `last_capture` branches carry the same expression). -/
def compute_capture_score (b : ChessBoard) (mv : Move) : Int :=
  match sqN b mv.fromSq.row mv.fromSq.col with
  | Square.Empty => NO_CAPTURE
  | Square.Occupied moving_piece =>
      match sqN b mv.toSq.row mv.toSq.col with
      | Square.Empty => NO_CAPTURE
      | Square.Occupied captured_piece =>
          if mv.toSq = b.last_capture then
            CAPTURE_BASE
              + 1000 * (get_piece_value captured_piece.kind - get_piece_value moving_piece.kind)
              + 10 * get_piece_value captured_piece.kind
              - get_piece_value captured_piece.kind
          else
            CAPTURE_BASE
              + 1000 * (get_piece_value captured_piece.kind - get_piece_value moving_piece.kind)
              + 10 * get_piece_value captured_piece.kind
              - get_piece_value captured_piece.kind

/-- `add_pawn_moves_with_and_without_promotion`. -/
def add_pawn_moves_with_and_without_promotion (mv : Move) (promotion_row : Nat)
    (score : Int) : List (Int × Move) :=
  if mv.toSq.row = promotion_row then
    [PieceType.Queen, PieceType.Rook, PieceType.Bishop, PieceType.Knight].map
      fun pp => (score + 1, mv.with_promotion pp)
  else [(score, mv)]

/-- `generate_pawn_moves`. -/
def generate_pawn_moves (b : ChessBoard) (row col : Nat) : List (Int × Move) :=
  let forward : Int := match b.active_color with
    | Color.White => 1
    | Color.Black => -1
  let start_row : Nat := match b.active_color with
    | Color.White => 1
    | Color.Black => 6
  let promotion_row : Nat := match b.active_color with
    | Color.White => 7
    | Color.Black => 0
  let nr : Int := (row : Int) + forward
  let forwardMoves :=
    if sqI b nr col = Square.Empty then
      add_pawn_moves_with_and_without_promotion
        (Move.new row col nr.toNat col) promotion_row NO_CAPTURE ++
      (if row = start_row then
        let two : Int := (row : Int) + 2 * forward
        if sqI b two col = Square.Empty then
          [(NO_CAPTURE, Move.new row col two.toNat col)]
        else []
      else [])
    else []
  let diagMoves := [(-1 : Int), 1].foldr (fun dx acc =>
    (if 0 ≤ (col : Int) + dx ∧ (col : Int) + dx < 8 then
      match sqI b nr ((col : Int) + dx) with
      | Square.Occupied opponent_piece =>
          if opponent_piece.color ≠ b.active_color then
            let mv := Move.new row col nr.toNat ((col : Int) + dx).toNat
            add_pawn_moves_with_and_without_promotion mv promotion_row
              (compute_capture_score b mv)
          else []
      | Square.Empty => []
    else []) ++ acc) []
  let epMoves := match b.en_passant with
    | some ep =>
        if nr = (ep.row : Int) ∧ ((col : Int) - (ep.col : Int)).natAbs = 1 then
          let mv := Move.new row col ep.row ep.col
          [(compute_capture_score b mv, mv)]
        else []
    | none => []
  forwardMoves ++ diagMoves ++ epMoves

/-- One sliding ray of `generate_sliding_moves`; any ray leaves the
board within 8 steps, so fuel 8 realises the source's `loop`. -/
def slideRay (b : ChessBoard) (row col : Nat) (dx dy : Int) :
    Nat → Int → Int → List (Int × Move)
  | 0, _, _ => []
  | fuel + 1, r, c =>
      let r' := r + dx
      let c' := c + dy
      if 0 ≤ c' ∧ c' < 8 ∧ 0 ≤ r' ∧ r' < 8 then
        match sqI b r' c' with
        | Square.Empty =>
            (NO_CAPTURE, Move.new row col r'.toNat c'.toNat) ::
              slideRay b row col dx dy fuel r' c'
        | Square.Occupied p =>
            if p.color ≠ b.active_color then
              let mv := Move.new row col r'.toNat c'.toNat
              [(compute_capture_score b mv, mv)]
            else []
      else []

/-- `generate_sliding_moves`. -/
def generate_sliding_moves (b : ChessBoard) (row col : Nat)
    (directions : List (Int × Int)) : List (Int × Move) :=
  match sqN b row col with
  | Square.Empty => []
  | Square.Occupied _ =>
      directions.foldr (fun d acc => slideRay b row col d.1 d.2 8 (row : Int) (col : Int) ++ acc) []

/-- `generate_moves_from_directions` (knight and king steps). -/
def generate_moves_from_directions (b : ChessBoard) (row col : Nat)
    (directions : List (Int × Int)) : List (Int × Move) :=
  match sqN b row col with
  | Square.Empty => []
  | Square.Occupied _ =>
      directions.foldr (fun d acc =>
        (let r' := (row : Int) + d.1
         let c' := (col : Int) + d.2
         if 0 ≤ r' ∧ r' < 8 ∧ 0 ≤ c' ∧ c' < 8 then
           match sqI b r' c' with
           | Square.Empty => [(NO_CAPTURE, Move.new row col r'.toNat c'.toNat)]
           | Square.Occupied p =>
               if p.color ≠ b.active_color then
                 let mv := Move.new row col r'.toNat c'.toNat
                 [(compute_capture_score b mv, mv)]
               else []
         else []) ++ acc) []

def KNIGHT_MOVES : List (Int × Int) :=
  [(-2, -1), (-1, -2), (1, -2), (2, -1), (2, 1), (1, 2), (-1, 2), (-2, 1)]

def BISHOP_DIRECTIONS : List (Int × Int) := [(-1, -1), (-1, 1), (1, -1), (1, 1)]

def ROOK_DIRECTIONS : List (Int × Int) := [(0, -1), (0, 1), (-1, 0), (1, 0)]

def QUEEN_DIRECTIONS : List (Int × Int) :=
  [(-1, -1), (-1, 1), (1, -1), (1, 1), (0, -1), (0, 1), (-1, 0), (1, 0)]

def KING_MOVES : List (Int × Int) :=
  [(-1, -1), (-1, 0), (-1, 1), (0, -1), (0, 1), (1, -1), (1, 0), (1, 1)]

def generate_knight_moves (b : ChessBoard) (row col : Nat) : List (Int × Move) :=
  generate_moves_from_directions b row col KNIGHT_MOVES

def generate_bishop_moves (b : ChessBoard) (row col : Nat) : List (Int × Move) :=
  generate_sliding_moves b row col BISHOP_DIRECTIONS

def generate_rook_moves (b : ChessBoard) (row col : Nat) : List (Int × Move) :=
  generate_sliding_moves b row col ROOK_DIRECTIONS

def generate_queen_moves (b : ChessBoard) (row col : Nat) : List (Int × Move) :=
  generate_sliding_moves b row col QUEEN_DIRECTIONS

/-- One sliding ray of `is_square_attacked_by_color` (fuel 8 realises
the source's `loop`). -/
def attackRay (b : ChessBoard) (opp : Color) (isDiag isOrth : Bool) (dx dy : Int) :
    Nat → Int → Int → Bool
  | 0, _, _ => false
  | fuel + 1, r, c =>
      let r' := r + dx
      let c' := c + dy
      if 0 ≤ c' ∧ c' < 8 ∧ 0 ≤ r' ∧ r' < 8 then
        match sqI b r' c' with
        | Square.Empty => attackRay b opp isDiag isOrth dx dy fuel r' c'
        | Square.Occupied piece =>
            if piece.color = opp then
              match piece.kind with
              | PieceType.Rook => isOrth
              | PieceType.Bishop => isDiag
              | PieceType.Queen => true
              | _ => false
            else false
      else false

/-- `check_attack`: one-step attack test for a given piece type. -/
def check_attack (b : ChessBoard) (row col : Nat) (opp : Color)
    (directions : List (Int × Int)) (pt : PieceType) : Bool :=
  directions.any fun d =>
    let r' := (row : Int) + d.1
    let c' := (col : Int) + d.2
    if 0 ≤ c' ∧ c' < 8 ∧ 0 ≤ r' ∧ r' < 8 then
      match sqI b r' c' with
      | Square.Occupied piece => piece.color = opp ∧ piece.kind = pt
      | Square.Empty => false
    else false

def ATTACK_DIRECTIONS : List (Int × Int) :=
  [(-1, 0), (1, 0), (0, -1), (0, 1), (-1, -1), (-1, 1), (1, -1), (1, 1)]

/-- `is_square_attacked_by_color` from `chess_board.rs`: sliding rays,
then pawn steps, then the opponent's knight list, then the opponent's
king. -/
def is_square_attacked_by_color (b : ChessBoard) (row col : Nat) (opp : Color) : Bool :=
  let sliding := ATTACK_DIRECTIONS.any fun d =>
    let isDiag := d.1 ≠ 0 ∧ d.2 ≠ 0
    let isOrth := d.1 = 0 ∨ d.2 = 0
    attackRay b opp isDiag isOrth d.1 d.2 8 (row : Int) (col : Int)
  if sliding then true
  else
    let pawn_attacks : List (Int × Int) := match opp with
      | Color.Black => [(1, -1), (1, 1)]
      | Color.White => [(-1, -1), (-1, 1)]
    if check_attack b row col opp pawn_attacks PieceType.Pawn then true
    else
      let indexes := if opp = Color.White then b.white_pieces else b.black_pieces
      let position := if opp = Color.White then b.white_pieces_positions
        else b.black_pieces_positions
      let lo := indexes.getD (get_piece_type_index PieceType.Knight) 0
      let hi := indexes.getD (get_piece_type_index PieceType.Knight + 1) 0
      let knight := ((position.take hi).drop lo).any fun i =>
        let d0 := (i.row : Int) - (row : Int)
        let d1 := (i.col : Int) - (col : Int)
        d0 * d0 + d1 * d1 = 5
      if knight then true
      else
        match find_king_position b opp with
        | some king =>
            let d0 := (king.row : Int) - (row : Int)
            let d1 := (king.col : Int) - (col : Int)
            decide ((-2 < d0 ∧ d0 < 2) ∧ (-2 < d1 ∧ d1 < 2))
        | none => false

/-- `is_square_attacked`. -/
def is_square_attacked (b : ChessBoard) (row col : Nat) : Bool :=
  is_square_attacked_by_color b row col b.active_color.opposite

/-- `generate_king_moves` (steps plus castling). -/
def generate_king_moves (b : ChessBoard) (row col : Nat) : List (Int × Move) :=
  let moves := generate_moves_from_directions b row col KING_MOVES
  let castling_rank : Nat := match b.active_color with
    | Color.White => 0
    | Color.Black => 7
  if row = castling_rank ∧ col = 4 then
    let kingside :=
      if b.castling_rights (if b.active_color = Color.White then 0 else 2)
          ∧ sqN b row 5 = Square.Empty
          ∧ sqN b row 6 = Square.Empty
          ∧ ¬ is_square_attacked b row 4
          ∧ ¬ is_square_attacked b row 5
          ∧ ¬ is_square_attacked b row 6 then
        [(CASTLING_SCORE, Move.new row 4 row 6)]
      else []
    let queenside :=
      if b.castling_rights (if b.active_color = Color.White then 1 else 3)
          ∧ sqN b row 3 = Square.Empty
          ∧ sqN b row 2 = Square.Empty
          ∧ sqN b row 1 = Square.Empty
          ∧ ¬ is_square_attacked b row 4
          ∧ ¬ is_square_attacked b row 3
          ∧ ¬ is_square_attacked b row 2 then
        [(CASTLING_SCORE, Move.new row 4 row 2)]
      else []
    moves ++ kingside ++ queenside
  else moves

/-- `generate_pseudo_moves_from_position`. -/
def generate_pseudo_moves_from_position (b : ChessBoard) (row col : Nat) :
    List (Int × Move) :=
  match sqN b row col with
  | Square.Occupied piece =>
      if piece.color = b.active_color then
        match piece.kind with
        | PieceType.Pawn => generate_pawn_moves b row col
        | PieceType.Knight => generate_knight_moves b row col
        | PieceType.Bishop => generate_bishop_moves b row col
        | PieceType.Rook => generate_rook_moves b row col
        | PieceType.Queen => generate_queen_moves b row col
        | PieceType.King => generate_king_moves b row col
      else []
  | Square.Empty => []

/-- `generate_pseudo_moves`. -/
def generate_pseudo_moves (b : ChessBoard) : List (Int × Move) :=
  (pieces_with_coordinates b).foldr
    (fun fp acc => generate_pseudo_moves_from_position b fp.1.row fp.1.col ++ acc) []

/-- `compute_move_weights`: lift the guessed best move to `BEST_MOVE`. -/
def compute_move_weights (moves : List (Int × Move)) (guess : Option Move) :
    List (Int × Move) :=
  moves.map fun sm =>
    match guess with
    | some g => if sm.2 = g then (BEST_MOVE, sm.2) else sm
    | none => sm

/-- The descending order used by `sort_unstable_by(|a, b| b.cmp(a))` on
`(i32, Move)` pairs: score first, then the derived `Move` order. -/
def scoredDesc (x y : Int × Move) : Prop :=
  y.1 < x.1 ∨ (y.1 = x.1 ∧ y.2.key ≤ x.2.key)

instance : DecidableRel scoredDesc := fun x y => by
  unfold scoredDesc; infer_instance

/-- The king-safety test of the legal-move filter. -/
def legalPred (z : ZobristKeys) (b : ChessBoard) (m : Move) : Bool :=
  let bc := make_move z b m
  match find_king_position bc b.active_color with
  | some kp => ! is_square_attacked_by_color bc kp.row kp.col bc.active_color
  | none => false

/-- `generate_legal_moves`: pseudo-legal moves filtered by king safety,
re-weighted by the guess, sorted descending, scores dropped. -/
def generate_legal_moves (z : ZobristKeys) (b : ChessBoard) (guess : Option Move) :
    List Move :=
  let pseudo := generate_pseudo_moves b
  let legal := pseudo.filter fun sm => legalPred z b sm.2
  let legal := compute_move_weights legal guess
  (legal.insertionSort scoredDesc).map (·.2)

/-- `is_stalemate`. -/
def is_stalemate (z : ZobristKeys) (b : ChessBoard) : Bool :=
  match find_king_position b b.active_color with
  | some kp =>
      if is_square_attacked b kp.row kp.col then false
      else (generate_legal_moves z b none).length = 0
  | none => false

/-- `is_checkmate`. -/
def is_checkmate (z : ZobristKeys) (b : ChessBoard) : Bool :=
  match find_king_position b b.active_color with
  | some kp =>
      if ¬ is_square_attacked b kp.row kp.col then false
      else (generate_legal_moves z b none).length = 0
  | none => false

/-- `is_draw_by_fifty_move_rule`. -/
def is_draw_by_fifty_move_rule (b : ChessBoard) : Bool :=
  100 ≤ b.halfmove_clock

/-- Score-only descending order used by `generate_capture_moves`. -/
def scoreDesc (x y : Int × Move) : Prop := y.1 ≤ x.1

instance : DecidableRel scoreDesc := fun x y => by
  unfold scoreDesc; infer_instance

/-- `generate_capture_moves`. -/
def generate_capture_moves (b : ChessBoard) : List Move :=
  let capture_moves := (pieces_with_coordinates b).foldr
    (fun fp acc =>
      (match sqN b fp.1.row fp.1.col with
       | Square.Occupied piece =>
           if piece.color = b.active_color then
             (generate_pseudo_moves_from_position b fp.1.row fp.1.col).filter fun sm =>
               match sqN b sm.2.toSq.row sm.2.toSq.col with
               | Square.Occupied target => target.color ≠ b.active_color
               | Square.Empty => false
           else []
       | Square.Empty => []) ++ acc) []
  (capture_moves.insertionSort scoreDesc).map (·.2)

/-- `generate_legal_capture_moves`. -/
def generate_legal_capture_moves (z : ZobristKeys) (b : ChessBoard) : List Move :=
  (generate_capture_moves b).filter fun m => legalPred z b m

/-- `perft` from `perft.rs`. -/
def perft (z : ZobristKeys) (b : ChessBoard) : Nat → Nat
  | 0 => 1
  | depth + 1 =>
      (generate_legal_moves z b none).foldl
        (fun acc mv => acc + perft z (make_move z b mv) depth) 0

/-! ## FEN codec (`fen.rs`), over `List Char` -/

/-- Rust `str::split(sep)`: split at every separator, keeping empty
fragments. -/
def splitOnChar (sep : Char) : List Char → List (List Char)
  | [] => [[]]
  | c :: rest =>
      match splitOnChar sep rest with
      | [] => [[c]]
      | h :: t => if c = sep then [] :: h :: t else (c :: h) :: t

/-- Join fragments with a separator (Rust's `format!`/`push` builds). -/
def joinChar (sep : Char) : List (List Char) → List Char
  | [] => []
  | [h] => h
  | h :: t => h ++ sep :: joinChar sep t

/-- Decimal digit to character. -/
def digitChar (n : Nat) : Char := Char.ofNat ('0'.toNat + n)

/-- Decimal digits, fuel-based: any fuel above the number itself covers
every decimal length. -/
def natToDecAux : Nat → Nat → List Char
  | 0, _ => []
  | fuel + 1, n =>
      if n < 10 then [digitChar n]
      else natToDecAux fuel (n / 10) ++ [digitChar (n % 10)]

/-- Rust `usize::to_string` (decimal). -/
def natToDec (n : Nat) : List Char := natToDecAux (n + 1) n

/-- Strip an optional leading `+` (Rust's integer parsing accepts it). -/
def stripPlus (s : List Char) : List Char :=
  match s with
  | c :: rest => if c = '+' then rest else c :: rest
  | [] => []

/-- Decimal value of a digit string. -/
def decimalValue (l : List Char) : Nat :=
  l.foldl (fun acc c => acc * 10 + (c.toNat - '0'.toNat)) 0

/-- Rust `str::parse::<u8>`: optional `+`, one or more ASCII digits,
value at most 255. -/
def parse_u8 (s : List Char) : Option Nat :=
  let s' := stripPlus s
  if s'.isEmpty then none
  else if s'.all Char.isDigit then
    if decimalValue s' ≤ 255 then some (decimalValue s') else none
  else none

/-- The piece-letter table of `from_fen`. -/
def charPiece (c : Char) : Option Piece :=
  if c = 'p' then some ⟨Color.Black, PieceType.Pawn⟩
  else if c = 'r' then some ⟨Color.Black, PieceType.Rook⟩
  else if c = 'n' then some ⟨Color.Black, PieceType.Knight⟩
  else if c = 'b' then some ⟨Color.Black, PieceType.Bishop⟩
  else if c = 'q' then some ⟨Color.Black, PieceType.Queen⟩
  else if c = 'k' then some ⟨Color.Black, PieceType.King⟩
  else if c = 'P' then some ⟨Color.White, PieceType.Pawn⟩
  else if c = 'R' then some ⟨Color.White, PieceType.Rook⟩
  else if c = 'N' then some ⟨Color.White, PieceType.Knight⟩
  else if c = 'B' then some ⟨Color.White, PieceType.Bishop⟩
  else if c = 'Q' then some ⟨Color.White, PieceType.Queen⟩
  else if c = 'K' then some ⟨Color.White, PieceType.King⟩
  else none

/-- `Piece::to_char` from `model.rs`. -/
def Piece.to_char (p : Piece) : Char :=
  match p.kind, p.color with
  | PieceType.Pawn, Color.White => 'P'
  | PieceType.Pawn, Color.Black => 'p'
  | PieceType.Knight, Color.White => 'N'
  | PieceType.Knight, Color.Black => 'n'
  | PieceType.Bishop, Color.White => 'B'
  | PieceType.Bishop, Color.Black => 'b'
  | PieceType.Rook, Color.White => 'R'
  | PieceType.Rook, Color.Black => 'r'
  | PieceType.Queen, Color.White => 'Q'
  | PieceType.Queen, Color.Black => 'q'
  | PieceType.King, Color.White => 'K'
  | PieceType.King, Color.Black => 'k'

/-- `fen::parse_square`. -/
def parse_square (s : List Char) : Except String ChessField :=
  match s with
  | [file, rank] =>
      if 'a' ≤ file ∧ file ≤ 'h' ∧ '1' ≤ rank ∧ rank ≤ '8' then
        Except.ok ⟨rank.toNat - '1'.toNat, file.toNat - 'a'.toNat⟩
      else Except.error "Invalid square"
  | _ => Except.error "Invalid square"

/-- One placement row of `from_fen` (writes go to rank `7 - row_index`). -/
def parse_row (b : ChessBoard) (row_index : Nat) : List Char → Nat → Except String ChessBoard
  | [], col =>
      if col > 8 then Except.error "Too many squares in row when parsing FEN"
      else Except.ok b
  | c :: cs, col =>
      if col > 7 then Except.error "Invalid FEN string: too many columns"
      else if c.isDigit then parse_row b row_index cs (col + (c.toNat - '0'.toNat))
      else match charPiece c with
        | some piece =>
            parse_row (setSqN b (7 - row_index) col (Square.Occupied piece)) row_index cs (col + 1)
        | none => Except.error "Invalid piece character in FEN string"

/-- All eight placement rows. -/
def parse_board_rows (b : ChessBoard) : List (List Char) → Nat → Except String ChessBoard
  | [], _ => Except.ok b
  | r :: rest, idx => do
      let b ← parse_row b idx r 0
      parse_board_rows b rest (idx + 1)

/-- The active-color field of `from_fen`. -/
def parse_active (p : List Char) : Except String Color :=
  if p = ['w'] then Except.ok Color.White
  else if p = ['b'] then Except.ok Color.Black
  else Except.error "Invalid FEN string: invalid active color."

/-- The castling field of `from_fen` (`contains` checks). -/
def parse_castling (p : List Char) : Fin 4 → Bool := fun i =>
  if i.val = 0 then p.elem 'K'
  else if i.val = 1 then p.elem 'Q'
  else if i.val = 2 then p.elem 'k'
  else p.elem 'q'

/-- The en-passant field of `from_fen`. -/
def parse_ep (p : List Char) : Except String (Option ChessField) :=
  if p = ['-'] then Except.ok none
  else (parse_square p).map some

/-- `fen::from_fen` on the space-split fields, with each `?`-style
early return written as an explicit `match`. -/
def from_fen_fields (parts : List (List Char)) : Except String ChessBoard :=
  if parts.length ≠ 6 then Except.error "Invalid FEN string: must have 6 parts."
  else
    if (splitOnChar '/' (parts.getD 0 [])).length ≠ 8 then
      Except.error "Invalid FEN string: expected 8 rows"
    else
      match parse_board_rows ChessBoard.new (splitOnChar '/' (parts.getD 0 [])) 0 with
      | Except.error e => Except.error e
      | Except.ok b =>
        match parse_active (parts.getD 1 []) with
        | Except.error e => Except.error e
        | Except.ok active =>
          match parse_ep (parts.getD 3 []) with
          | Except.error e => Except.error e
          | Except.ok ep =>
            match parse_u8 (parts.getD 4 []) with
            | none => Except.error "Invalid FEN string: halfmove clock is not a valid number"
            | some hm =>
              match parse_u8 (parts.getD 5 []) with
              | none => Except.error "Invalid FEN string: fullmove number is not a valid number"
              | some fm =>
                Except.ok { b with active_color := active,
                                   castling_rights := parse_castling (parts.getD 2 []),
                                   en_passant := ep, halfmove_clock := hm,
                                   fullmove_number := fm }

/-- `fen::from_fen`: the six-field FEN parser (no hash, no piece lists —
those are added by `ChessBoard::from_fen`). -/
def from_fen (s : List Char) : Except String ChessBoard :=
  from_fen_fields (splitOnChar ' ' s)

/-- `find_piece_position_position_by_scanning` (row-major scan). -/
def find_piece_position_position_by_scanning (b : ChessBoard) (piece : Piece) :
    List ChessField :=
  (List.range 8).foldr (fun r acc =>
    ((List.range 8).filterMap fun c =>
      if sqN b r c = Square.Occupied piece then some ⟨r, c⟩ else none) ++ acc) []

/-- `get_piece_position_data_structure`: positions grouped King, Queen,
Rook, Bishop, Knight, Pawn with 7 prefix sums. -/
def get_piece_position_data_structure (b : ChessBoard) (color : Color) :
    List ChessField × List Nat :=
  [PieceType.King, PieceType.Queen, PieceType.Rook, PieceType.Bishop,
   PieceType.Knight, PieceType.Pawn].foldl
    (fun acc p =>
      let newPos := acc.1 ++ find_piece_position_position_by_scanning b ⟨color, p⟩
      (newPos, acc.2 ++ [newPos.length]))
    ([], [0])

/-- Overwrite the first `new.length` slots of a fixed array. -/
def overwritePrefix {α : Type} (base new : List α) : List α :=
  new ++ base.drop new.length

/-- `ChessBoard::from_fen`: parse, then fill in the Zobrist hash and
both piece-position structures. -/
def ChessBoard.from_fen (z : ZobristKeys) (s : List Char) : Except String ChessBoard :=
  (Chic.from_fen s).map fun b0 =>
    let b1 := { b0 with hash := calculate_hash z b0 }
    let w := get_piece_position_data_structure b1 Color.White
    let b2 := { b1 with white_pieces_positions := overwritePrefix b1.white_pieces_positions w.1,
                        white_pieces := overwritePrefix b1.white_pieces w.2 }
    let bl := get_piece_position_data_structure b2 Color.Black
    { b2 with black_pieces_positions := overwritePrefix b2.black_pieces_positions bl.1,
              black_pieces := overwritePrefix b2.black_pieces bl.2 }

/-- One rank of `to_fen`'s placement field (digit-compressed runs). -/
def encRowAux : List Square → Nat → List Char
  | [], 0 => []
  | [], k + 1 => [digitChar (k + 1)]
  | Square.Empty :: rest, k => encRowAux rest (k + 1)
  | Square.Occupied p :: rest, 0 => p.to_char :: encRowAux rest 0
  | Square.Occupied p :: rest, k + 1 => digitChar (k + 1) :: p.to_char :: encRowAux rest 0

/-- The squares of one rank, files ascending. -/
def rankSquares (b : ChessBoard) (r : Nat) : List Square :=
  (List.range 8).map fun c => sqN b r c

/-- `fen::to_fen`. -/
def to_fen (b : ChessBoard) : List Char :=
  let placement := joinChar '/' (((List.range 8).reverse).map fun r => encRowAux (rankSquares b r) 0)
  let active := if b.active_color = Color.White then ['w'] else ['b']
  let castling :=
    (if b.castling_rights 0 then ['K'] else []) ++
    (if b.castling_rights 1 then ['Q'] else []) ++
    (if b.castling_rights 2 then ['k'] else []) ++
    (if b.castling_rights 3 then ['q'] else [])
  let castling := if castling.isEmpty then ['-'] else castling
  let ep := match b.en_passant with
    | some sq => Char.ofNat ('a'.toNat + sq.col) :: natToDec (sq.row + 1)
    | none => ['-']
  placement ++ ' ' :: active ++ ' ' :: castling ++ ' ' :: ep ++
    ' ' :: natToDec b.halfmove_clock ++ ' ' :: natToDec b.fullmove_number

/-! ## Projection lemmas for `make_move` -/

@[simp] theorem setSqN_halfmove (b : ChessBoard) (r c : Nat) (v : Square) :
    (setSqN b r c v).halfmove_clock = b.halfmove_clock := by
  unfold setSqN; split <;> rfl

@[simp] theorem clearRight_halfmove (b : ChessBoard) (i : Fin 4) :
    (clearRight b i).halfmove_clock = b.halfmove_clock := rfl

@[simp] theorem update_piece_position_halfmove (b : ChessBoard) (mv : Move) (p : Piece) :
    (update_piece_position b mv p).halfmove_clock = b.halfmove_clock := by
  unfold update_piece_position; split <;> rfl

@[simp] theorem remove_piece_from_piece_position_halfmove (b : ChessBoard)
    (f : ChessField) (p : Piece) :
    (remove_piece_from_piece_position b f p).halfmove_clock = b.halfmove_clock := by
  unfold remove_piece_from_piece_position; split <;> rfl

@[simp] theorem insert_piece_from_piece_position_halfmove (b : ChessBoard)
    (f : ChessField) (p : Piece) :
    (insert_piece_from_piece_position b f p).halfmove_clock = b.halfmove_clock := by
  unfold insert_piece_from_piece_position; split <;> rfl

@[simp] theorem make_move_tail_halfmove (z : ZobristKeys) (b : ChessBoard) (h : Nat) :
    (make_move_tail z b h).halfmove_clock = b.halfmove_clock := by
  unfold make_move_tail
  by_cases hc : b.active_color.opposite = Color.White <;> simp [hc]

@[simp] theorem mm_capture_halfmove (z : ZobristKeys) (b : ChessBoard) (h : Nat)
    (mv : Move) : (mm_capture z b h mv).1.halfmove_clock = b.halfmove_clock := by
  unfold mm_capture
  repeat' split
  all_goals simp

@[simp] theorem mm_ep_capture_halfmove (z : ZobristKeys) (b : ChessBoard) (h : Nat)
    (mv : Move) (p : Piece) :
    (mm_ep_capture z b h mv p).1.halfmove_clock = b.halfmove_clock := by
  unfold mm_ep_capture
  repeat' split
  all_goals simp

@[simp] theorem mm_castle_halfmove (z : ZobristKeys) (b : ChessBoard) (h : Nat)
    (mv : Move) (p : Piece) :
    (mm_castle z b h mv p).1.halfmove_clock = b.halfmove_clock := by
  unfold mm_castle
  repeat' split
  all_goals simp

@[simp] theorem mm_rights_from_halfmove (b : ChessBoard) (mv : Move) :
    (mm_rights_from b mv).halfmove_clock = b.halfmove_clock := by
  unfold mm_rights_from
  repeat' split
  all_goals simp

@[simp] theorem mm_rights_to_halfmove (b : ChessBoard) (mv : Move) :
    (mm_rights_to b mv).halfmove_clock = b.halfmove_clock := by
  unfold mm_rights_to
  repeat' split
  all_goals simp

@[simp] theorem mm_pawn_halfmove (z : ZobristKeys) (b : ChessBoard) (h : Nat)
    (mv : Move) (p : Piece) :
    (mm_pawn z b h mv p).1.halfmove_clock = b.halfmove_clock := by
  unfold mm_pawn
  repeat' split
  all_goals simp

/-- The halfmove-clock law of `make_move` for an occupied source
square: reset to 0 on a pawn move or when the destination was occupied,
otherwise increment with `u8` wrap-around. -/
theorem make_move_halfmove_law (z : ZobristKeys) (b : ChessBoard) (mv : Move) (p : Piece)
    (hp : sqN b mv.fromSq.row mv.fromSq.col = Square.Occupied p) :
    (make_move z b mv).halfmove_clock =
      if p.kind = PieceType.Pawn ∨ (sqN b mv.toSq.row mv.toSq.col).isOccupied then 0
      else (b.halfmove_clock + 1) % 256 := by
  unfold make_move
  rw [hp]
  simp only [make_move_tail_halfmove, mm_pawn_halfmove, mm_rights_to_halfmove,
    mm_rights_from_halfmove, mm_castle_halfmove, mm_ep_capture_halfmove,
    setSqN_halfmove, update_piece_position_halfmove, mm_capture_halfmove]
  split <;> simp

/-! ## Concrete instances used by witnesses and counterexamples -/

/-- A trivial keyset (the theorems are parametric in the keys). -/
def zeroKeys : ZobristKeys := ⟨fun _ _ _ => 0, 0, fun _ => 0, fun _ => 0⟩

/-- Parse a FEN, defaulting to the empty board on error. -/
def boardOfFen (z : ZobristKeys) (s : List Char) : ChessBoard :=
  match ChessBoard.from_fen z s with
  | Except.ok b => b
  | Except.error _ => ChessBoard.new

def c5_fen : List Char := ("k7/8/8/8/8/8/8/R3K3 w - - 255 10").data

def c5_board : ChessBoard := boardOfFen zeroKeys c5_fen

/-- C5.  The claim as stated is false: with `halfmove_clock = 255`
(accepted by `from_fen`), the quiet rook move a1b1 — no pawn, empty
destination — yields clock 0, not 255 + 1: the `u8` counter wraps. -/
theorem claim_C5_counterexample :
    (ChessBoard.from_fen zeroKeys c5_fen).toOption = some c5_board ∧
    sqN c5_board 0 0 = Square.Occupied ⟨Color.White, PieceType.Rook⟩ ∧
    sqN c5_board 0 1 = Square.Empty ∧
    c5_board.halfmove_clock = 255 ∧
    (make_move zeroKeys c5_board (Move.new 0 0 0 1)).halfmove_clock = 0 ∧
    (make_move zeroKeys c5_board (Move.new 0 0 0 1)).halfmove_clock ≠
      c5_board.halfmove_clock + 1 := by
  refine ⟨by decide, by decide, by decide, by decide, by decide, by decide⟩

/-- C5 (amended): for every move whose source square is occupied by a
piece `p`, `make_move` sets `halfmove_clock` to 0 when `p` is a pawn or
the destination square was occupied, and otherwise to the previous
clock plus one reduced mod 256 (`u8` wrap-around). -/
theorem claim_C5 (z : ZobristKeys) (b : ChessBoard) (mv : Move) (p : Piece)
    (hp : sqN b mv.fromSq.row mv.fromSq.col = Square.Occupied p) :
    (make_move z b mv).halfmove_clock =
      if p.kind = PieceType.Pawn ∨ (sqN b mv.toSq.row mv.toSq.col).isOccupied then 0
      else (b.halfmove_clock + 1) % 256 :=
  make_move_halfmove_law z b mv p hp

theorem claim_C5_witness :
    sqN c5_board 0 0 = Square.Occupied ⟨Color.White, PieceType.Rook⟩ ∧
    (make_move zeroKeys c5_board (Move.new 0 0 0 1)).halfmove_clock =
      if (Piece.mk Color.White PieceType.Rook).kind = PieceType.Pawn ∨
          (sqN c5_board (Move.new 0 0 0 1).toSq.row (Move.new 0 0 0 1).toSq.col).isOccupied
        then 0 else (c5_board.halfmove_clock + 1) % 256 :=
  ⟨by decide, claim_C5 zeroKeys c5_board (Move.new 0 0 0 1)
    ⟨Color.White, PieceType.Rook⟩ (by decide)⟩

/-! ## C10: `u8` clock parsing -/

theorem stripPlus_of_digits (s : List Char) (hd : s.all Char.isDigit = true) :
    stripPlus s = s := by
  match s with
  | [] => rfl
  | c :: rest =>
    have hc : c.isDigit = true := by
      have := List.all_eq_true.mp hd c (by simp)
      simpa using this
    have hcp : ¬ c = '+' := by
      intro hEq
      rw [hEq] at hc
      simp [Char.isDigit] at hc
    simp [stripPlus, hcp]

theorem parse_u8_le_255 (s : List Char) (v : Nat) (h : parse_u8 s = some v) :
    v ≤ 255 := by
  simp only [parse_u8] at h
  split at h
  · cases h
  · split at h
    · split at h
      · rename_i hle
        cases h
        exact hle
      · cases h
    · cases h

theorem parse_u8_none_of_big (s : List Char) (hd : s.all Char.isDigit = true)
    (hne : s ≠ []) (hbig : 255 < decimalValue s) : parse_u8 s = none := by
  simp only [parse_u8]
  rw [stripPlus_of_digits s hd]
  have h1 : s.isEmpty = false := by
    cases s with
    | nil => exact absurd rfl hne
    | cons c t => rfl
  simp [h1, hd, Nat.not_le_of_lt hbig]

/-- Inversion for a successful parse: each clock field went through
`parse_u8` and landed in the corresponding board field. -/
theorem from_fen_ok_clocks (s : List Char) (b : ChessBoard)
    (h : from_fen s = Except.ok b) :
    parse_u8 ((splitOnChar ' ' s).getD 4 []) = some b.halfmove_clock ∧
    parse_u8 ((splitOnChar ' ' s).getD 5 []) = some b.fullmove_number := by
  unfold from_fen from_fen_fields at h
  by_cases h6 : (splitOnChar ' ' s).length ≠ 6
  · rw [if_pos h6] at h; cases h
  · rw [if_neg h6] at h
    by_cases h8 :
        (splitOnChar '/' ((splitOnChar ' ' s).getD 0 [])).length ≠ 8
    · rw [if_pos h8] at h; cases h
    · rw [if_neg h8] at h
      cases hpb : parse_board_rows ChessBoard.new
          (splitOnChar '/' ((splitOnChar ' ' s).getD 0 [])) 0 with
      | error e => rw [hpb] at h; cases h
      | ok b1 =>
        rw [hpb] at h
        cases hpa : parse_active ((splitOnChar ' ' s).getD 1 []) with
        | error e => rw [hpa] at h; cases h
        | ok active =>
          rw [hpa] at h
          cases hpe : parse_ep ((splitOnChar ' ' s).getD 3 []) with
          | error e => rw [hpe] at h; cases h
          | ok ep =>
            rw [hpe] at h
            cases hp4 : parse_u8 ((splitOnChar ' ' s).getD 4 []) with
            | none => rw [hp4] at h; cases h
            | some hm =>
              rw [hp4] at h
              cases hp5 : parse_u8 ((splitOnChar ' ' s).getD 5 []) with
              | none => rw [hp5] at h; cases h
              | some fm =>
                rw [hp5] at h
                cases h
                exact ⟨rfl, rfl⟩

/-- C10: `from_fen` parses both clock fields into `u8`; it rejects any
FEN whose halfmove-clock or fullmove-number field is a digit string
denoting a value above 255, and a successful parse always yields clocks
at most 255. -/
theorem claim_C10 :
    (∀ (s : List Char) (i : Nat), (i = 4 ∨ i = 5) →
      ((splitOnChar ' ' s).getD i []).all Char.isDigit = true →
      (splitOnChar ' ' s).getD i [] ≠ [] →
      255 < decimalValue ((splitOnChar ' ' s).getD i []) →
      ∃ e, from_fen s = Except.error e) ∧
    (∀ (s : List Char) (b : ChessBoard), from_fen s = Except.ok b →
      b.halfmove_clock ≤ 255 ∧ b.fullmove_number ≤ 255) := by
  constructor
  · intro s i hi hdig hne hbig
    cases hres : from_fen s with
    | error e => exact ⟨e, rfl⟩
    | ok b =>
      obtain ⟨h4, h5⟩ := from_fen_ok_clocks s b hres
      have hnone := parse_u8_none_of_big _ hdig hne hbig
      rcases hi with rfl | rfl
      · rw [h4] at hnone; cases hnone
      · rw [h5] at hnone; cases hnone
  · intro s b hres
    obtain ⟨h4, h5⟩ := from_fen_ok_clocks s b hres
    exact ⟨parse_u8_le_255 _ _ h4, parse_u8_le_255 _ _ h5⟩

def c10_fen : List Char := ("8/8/8/8/8/8/8/8 w - - 300 1").data

def c10_ok_fen : List Char := ("8/8/8/8/8/8/8/8 w - - 255 12").data

def c10_ok_board : ChessBoard :=
  match from_fen c10_ok_fen with
  | Except.ok b => b
  | Except.error _ => ChessBoard.new

theorem claim_C10_witness :
    (∃ e, from_fen c10_fen = Except.error e) ∧
    (c10_ok_board.halfmove_clock ≤ 255 ∧ c10_ok_board.fullmove_number ≤ 255) :=
  ⟨claim_C10.1 c10_fen 4 (Or.inl rfl) (by decide) (by decide) (by decide),
   claim_C10.2 c10_ok_fen c10_ok_board rfl⟩

/-! ## C4: the MVV-LVA capture score -/

theorem foldr_append_eq_bind {α β : Type} (l : List α) (f : α → List β) :
    l.foldr (fun d acc => f d ++ acc) [] = l.flatMap f := by
  induction l with
  | nil => rfl
  | cons hd tl ih => simp [List.flatMap, ih]

theorem sqI_eq_sqN (b : ChessBoard) (r c : Int) (hr : 0 ≤ r) (hc : 0 ≤ c) :
    sqI b r c = sqN b r.toNat c.toNat := by
  simp [sqI, hr, hc]

theorem sqN_oob_row (b : ChessBoard) (r c : Nat) (hr : 8 ≤ r) :
    sqN b r c = Square.Empty := by
  unfold sqN
  rw [dif_neg]
  omega

/-- `compute_capture_score` computes exactly the spec's formula on a
capture. -/
theorem compute_capture_score_eq (b : ChessBoard) (m : Move) (a q : Piece)
    (hfrom : sqN b m.fromSq.row m.fromSq.col = Square.Occupied a)
    (hto : sqN b m.toSq.row m.toSq.col = Square.Occupied q) :
    compute_capture_score b m =
      CAPTURE_BASE + 1000 * (get_piece_value q.kind - get_piece_value a.kind)
        + 10 * get_piece_value q.kind - get_piece_value q.kind := by
  simp only [compute_capture_score, hfrom, hto]
  split <;> rfl

theorem compute_capture_score_with_promotion (b : ChessBoard) (m : Move)
    (pp : PieceType) :
    compute_capture_score b (m.with_promotion pp) = compute_capture_score b m := rfl

/-- The conclusion proved about every generated scored move: whenever
the destination holds an enemy piece, the score is the capture score
plus one for a promotion. -/
def capScoreProp (b : ChessBoard) (s : Int) (m : Move) : Prop :=
  ∀ q, sqN b m.toSq.row m.toSq.col = Square.Occupied q → q.color ≠ b.active_color →
    s = compute_capture_score b m + (if m.promotion.isSome then 1 else 0)

theorem pair_mem_singleton {s a : Int} {m b : Move}
    (h : (s, m) ∈ [(a, b)]) : s = a ∧ m = b := by
  have h2 := List.mem_singleton.mp h
  exact ⟨congrArg Prod.fst h2, congrArg Prod.snd h2⟩

theorem capScore_dirs (b : ChessBoard) (row col : Nat) (dirs : List (Int × Int))
    (s : Int) (m : Move)
    (hmem : (s, m) ∈ generate_moves_from_directions b row col dirs) :
    capScoreProp b s m := by
  unfold generate_moves_from_directions at hmem
  intro q hto hq
  split at hmem
  · cases hmem
  · rw [foldr_append_eq_bind] at hmem
    obtain ⟨d, _, hm⟩ := List.mem_flatMap.mp hmem
    try dsimp only at hm
    by_cases hrange : 0 ≤ (row : Int) + d.1 ∧ (row : Int) + d.1 < 8 ∧
        0 ≤ (col : Int) + d.2 ∧ (col : Int) + d.2 < 8
    · rw [if_pos hrange] at hm
      cases hsq : sqI b ((row : Int) + d.1) ((col : Int) + d.2) with
      | Empty =>
          rw [hsq] at hm
          try dsimp only at hm
          obtain ⟨hs, hmv⟩ := pair_mem_singleton hm
          subst hmv
          have hto2 : sqN b ((row : Int) + d.1).toNat ((col : Int) + d.2).toNat =
              Square.Occupied q := hto
          rw [sqI_eq_sqN _ _ _ (by omega) (by omega), hto2] at hsq
          cases hsq
      | Occupied p =>
          rw [hsq] at hm
          try dsimp only at hm
          by_cases hcolor : p.color ≠ b.active_color
          · rw [if_pos hcolor] at hm
            obtain ⟨hs, hmv⟩ := pair_mem_singleton hm
            subst hmv
            simp [hs, Move.new]
          · rw [if_neg hcolor] at hm
            cases hm
    · rw [if_neg hrange] at hm
      cases hm

theorem capScore_slideRay (b : ChessBoard) (row col : Nat) (dx dy : Int)
    (fuel : Nat) (r c : Int) (s : Int) (m : Move)
    (hmem : (s, m) ∈ slideRay b row col dx dy fuel r c) :
    capScoreProp b s m := by
  induction fuel generalizing r c with
  | zero => cases hmem
  | succ n ih =>
      unfold slideRay at hmem
      try dsimp only at hmem
      intro q hto hq
      by_cases hrange : 0 ≤ c + dy ∧ c + dy < 8 ∧ 0 ≤ r + dx ∧ r + dx < 8
      · rw [if_pos hrange] at hmem
        cases hsq : sqI b (r + dx) (c + dy) with
        | Empty =>
            rw [hsq] at hmem
            try dsimp only at hmem
            rcases List.mem_cons.mp hmem with heq | htail
            · have hs : s = NO_CAPTURE := congrArg Prod.fst heq
              have hmv : m = Move.new row col (r + dx).toNat (c + dy).toNat :=
                congrArg Prod.snd heq
              subst hmv
              have hto2 : sqN b (r + dx).toNat (c + dy).toNat =
                  Square.Occupied q := hto
              rw [sqI_eq_sqN _ _ _ (by omega) (by omega), hto2] at hsq
              cases hsq
            · exact ih _ _ htail q hto hq
        | Occupied p =>
            rw [hsq] at hmem
            try dsimp only at hmem
            by_cases hcolor : p.color ≠ b.active_color
            · rw [if_pos hcolor] at hmem
              obtain ⟨hs, hmv⟩ := pair_mem_singleton hmem
              subst hmv
              simp [hs, Move.new]
            · rw [if_neg hcolor] at hmem
              cases hmem
      · rw [if_neg hrange] at hmem
        cases hmem

theorem capScore_sliding (b : ChessBoard) (row col : Nat) (dirs : List (Int × Int))
    (s : Int) (m : Move)
    (hmem : (s, m) ∈ generate_sliding_moves b row col dirs) :
    capScoreProp b s m := by
  unfold generate_sliding_moves at hmem
  split at hmem
  · cases hmem
  · rw [foldr_append_eq_bind] at hmem
    obtain ⟨d, _, hm⟩ := List.mem_flatMap.mp hmem
    exact capScore_slideRay b row col d.1 d.2 8 _ _ s m hm

theorem capScore_pawn_add (mv : Move) (promotion_row : Nat)
    (score : Int) (s : Int) (m : Move)
    (hmem : (s, m) ∈ add_pawn_moves_with_and_without_promotion mv promotion_row score) :
    (s = score + 1 ∧ ∃ pp, m = mv.with_promotion pp) ∨ (s = score ∧ m = mv) := by
  unfold add_pawn_moves_with_and_without_promotion at hmem
  split at hmem
  · simp only [List.mem_map] at hmem
    obtain ⟨pp, _, heq⟩ := hmem
    refine Or.inl ⟨(congrArg Prod.fst heq).symm, pp, (congrArg Prod.snd heq).symm⟩
  · obtain ⟨hs, hmv⟩ := pair_mem_singleton hmem
    exact Or.inr ⟨hs, hmv⟩

theorem capScore_pawn (b : ChessBoard) (row col : Nat) (pc : Piece)
    (hpa : sqN b row col = Square.Occupied pc) (hpcol : pc.color = b.active_color)
    (s : Int) (m : Move) (hmem : (s, m) ∈ generate_pawn_moves b row col) :
    capScoreProp b s m := by
  unfold generate_pawn_moves at hmem
  intro q hto hq
  cases hac : b.active_color <;> rw [hac] at hmem <;> try dsimp only at hmem
  -- White to move: forward = 1
  · rw [List.mem_append, List.mem_append] at hmem
    rcases hmem with (hfwd | hdiag) | hep
    · by_cases hempty : sqI b ((row : Int) + 1) col = Square.Empty
      · rw [if_pos hempty] at hfwd
        rw [List.mem_append] at hfwd
        rcases hfwd with hsingle | hdouble
        · have hdisj := capScore_pawn_add _ _ _ s m hsingle
          have hsrow : m.toSq.row = ((row : Int) + 1).toNat := by
            rcases hdisj with ⟨_, pp, rfl⟩ | ⟨_, rfl⟩ <;> rfl
          have hscol : m.toSq.col = col := by
            rcases hdisj with ⟨_, pp, rfl⟩ | ⟨_, rfl⟩ <;> rfl
          rw [hsrow, hscol] at hto
          rw [sqI_eq_sqN _ _ _ (by omega) (by omega), Int.toNat_natCast, hto] at hempty
          cases hempty
        · by_cases hrow : row = 1
          · rw [if_pos hrow] at hdouble
            by_cases hempty2 : sqI b ((row : Int) + 2 * 1) col = Square.Empty
            · rw [if_pos hempty2] at hdouble
              obtain ⟨hs, hmv⟩ := pair_mem_singleton hdouble
              subst hmv
              have hto2 : sqN b ((row : Int) + 2 * 1).toNat col =
                  Square.Occupied q := hto
              rw [sqI_eq_sqN _ _ _ (by omega) (by omega), Int.toNat_natCast,
                hto2] at hempty2
              cases hempty2
            · rw [if_neg hempty2] at hdouble
              cases hdouble
          · rw [if_neg hrow] at hdouble
            cases hdouble
      · rw [if_neg hempty] at hfwd
        cases hfwd
    · rw [foldr_append_eq_bind] at hdiag
      obtain ⟨dx, _, hm⟩ := List.mem_flatMap.mp hdiag
      try dsimp only at hm
      by_cases hrange : 0 ≤ (col : Int) + dx ∧ (col : Int) + dx < 8
      · rw [if_pos hrange] at hm
        cases hsq : sqI b ((row : Int) + 1) ((col : Int) + dx) with
        | Empty => rw [hsq] at hm; try dsimp only at hm; cases hm
        | Occupied opp =>
            rw [hsq] at hm
            try dsimp only at hm
            by_cases hcolor : opp.color ≠ Color.White
            · rw [if_pos hcolor] at hm
              have hdisj := capScore_pawn_add _ _ _ s m hm
              rcases hdisj with ⟨hs, pp, rfl⟩ | ⟨hs, rfl⟩
              · rw [compute_capture_score_with_promotion]
                simp [hs, Move.with_promotion, Move.new]
              · simp [hs, Move.new]
            · rw [if_neg hcolor] at hm
              cases hm
      · rw [if_neg hrange] at hm
        cases hm
    · cases hepv : b.en_passant with
      | none => rw [hepv] at hep; cases hep
      | some ep =>
          rw [hepv] at hep
          try dsimp only at hep
          by_cases hcond : (row : Int) + 1 = (ep.row : Int) ∧
              ((col : Int) - (ep.col : Int)).natAbs = 1
          · rw [if_pos hcond] at hep
            obtain ⟨hs, hmv⟩ := pair_mem_singleton hep
            subst hmv
            simp [hs, Move.new]
          · rw [if_neg hcond] at hep
            cases hep
  -- Black to move: forward = -1
  · rw [List.mem_append, List.mem_append] at hmem
    rcases hmem with (hfwd | hdiag) | hep
    · by_cases hempty : sqI b ((row : Int) + -1) col = Square.Empty
      · rw [if_pos hempty] at hfwd
        rw [List.mem_append] at hfwd
        rcases hfwd with hsingle | hdouble
        · have hdisj := capScore_pawn_add _ _ _ s m hsingle
          have hsrow : m.toSq.row = ((row : Int) + -1).toNat := by
            rcases hdisj with ⟨_, pp, rfl⟩ | ⟨_, rfl⟩ <;> rfl
          have hscol : m.toSq.col = col := by
            rcases hdisj with ⟨_, pp, rfl⟩ | ⟨_, rfl⟩ <;> rfl
          rw [hsrow, hscol] at hto
          by_cases hnn : 1 ≤ row
          · rw [sqI_eq_sqN _ _ _ (by omega) (by omega), Int.toNat_natCast,
              hto] at hempty
            cases hempty
          · -- a black pawn on its first rank: the push degenerates to from = to
            have h0 : ((row : Int) + -1).toNat = row := by omega
            rw [h0, hpa] at hto
            injection hto with hqp
            have hqc : q.color = b.active_color := by rw [← hqp]; exact hpcol
            exact absurd hqc hq
        · by_cases hrow : row = 6
          · rw [if_pos hrow] at hdouble
            by_cases hempty2 : sqI b ((row : Int) + 2 * -1) col = Square.Empty
            · rw [if_pos hempty2] at hdouble
              obtain ⟨hs, hmv⟩ := pair_mem_singleton hdouble
              subst hmv
              have hto2 : sqN b ((row : Int) + 2 * -1).toNat col =
                  Square.Occupied q := hto
              rw [sqI_eq_sqN _ _ _ (by omega) (by omega), Int.toNat_natCast,
                hto2] at hempty2
              cases hempty2
            · rw [if_neg hempty2] at hdouble
              cases hdouble
          · rw [if_neg hrow] at hdouble
            cases hdouble
      · rw [if_neg hempty] at hfwd
        cases hfwd
    · rw [foldr_append_eq_bind] at hdiag
      obtain ⟨dx, _, hm⟩ := List.mem_flatMap.mp hdiag
      try dsimp only at hm
      by_cases hrange : 0 ≤ (col : Int) + dx ∧ (col : Int) + dx < 8
      · rw [if_pos hrange] at hm
        cases hsq : sqI b ((row : Int) + -1) ((col : Int) + dx) with
        | Empty => rw [hsq] at hm; try dsimp only at hm; cases hm
        | Occupied opp =>
            rw [hsq] at hm
            try dsimp only at hm
            by_cases hcolor : opp.color ≠ Color.Black
            · rw [if_pos hcolor] at hm
              have hdisj := capScore_pawn_add _ _ _ s m hm
              rcases hdisj with ⟨hs, pp, rfl⟩ | ⟨hs, rfl⟩
              · rw [compute_capture_score_with_promotion]
                simp [hs, Move.with_promotion, Move.new]
              · simp [hs, Move.new]
            · rw [if_neg hcolor] at hm
              cases hm
      · rw [if_neg hrange] at hm
        cases hm
    · cases hepv : b.en_passant with
      | none => rw [hepv] at hep; cases hep
      | some ep =>
          rw [hepv] at hep
          try dsimp only at hep
          by_cases hcond : (row : Int) + -1 = (ep.row : Int) ∧
              ((col : Int) - (ep.col : Int)).natAbs = 1
          · rw [if_pos hcond] at hep
            obtain ⟨hs, hmv⟩ := pair_mem_singleton hep
            subst hmv
            simp [hs, Move.new]
          · rw [if_neg hcond] at hep
            cases hep

theorem capScore_king (b : ChessBoard) (row col : Nat) (s : Int) (m : Move)
    (hmem : (s, m) ∈ generate_king_moves b row col) :
    capScoreProp b s m := by
  unfold generate_king_moves at hmem
  try dsimp only at hmem
  split at hmem
  · rw [List.mem_append, List.mem_append] at hmem
    rcases hmem with (hstep | hks) | hqs
    · exact capScore_dirs b row col KING_MOVES s m hstep
    · intro q hto hq
      by_cases hcond : b.castling_rights
            (if b.active_color = Color.White then 0 else 2) = true
          ∧ sqN b row 5 = Square.Empty
          ∧ sqN b row 6 = Square.Empty
          ∧ ¬ is_square_attacked b row 4 = true
          ∧ ¬ is_square_attacked b row 5 = true
          ∧ ¬ is_square_attacked b row 6 = true
      · rw [if_pos hcond] at hks
        obtain ⟨hs, hmv⟩ := pair_mem_singleton hks
        subst hmv
        have hto2 : sqN b row 6 = Square.Occupied q := hto
        rw [hto2] at hcond
        exact absurd hcond.2.2.1 (by simp)
      · rw [if_neg hcond] at hks
        cases hks
    · intro q hto hq
      by_cases hcond : b.castling_rights
            (if b.active_color = Color.White then 1 else 3) = true
          ∧ sqN b row 3 = Square.Empty
          ∧ sqN b row 2 = Square.Empty
          ∧ sqN b row 1 = Square.Empty
          ∧ ¬ is_square_attacked b row 4 = true
          ∧ ¬ is_square_attacked b row 3 = true
          ∧ ¬ is_square_attacked b row 2 = true
      · rw [if_pos hcond] at hqs
        obtain ⟨hs, hmv⟩ := pair_mem_singleton hqs
        subst hmv
        have hto2 : sqN b row 2 = Square.Occupied q := hto
        rw [hto2] at hcond
        exact absurd hcond.2.2.1 (by simp)
      · rw [if_neg hcond] at hqs
        cases hqs
  · exact capScore_dirs b row col KING_MOVES s m hmem

theorem capScore_from_position (b : ChessBoard) (row col : Nat) (s : Int) (m : Move)
    (hmem : (s, m) ∈ generate_pseudo_moves_from_position b row col) :
    capScoreProp b s m := by
  unfold generate_pseudo_moves_from_position at hmem
  cases hpa : sqN b row col with
  | Empty => rw [hpa] at hmem; cases hmem
  | Occupied piece =>
      rw [hpa] at hmem
      try dsimp only at hmem
      by_cases hcol : piece.color = b.active_color
      · rw [if_pos hcol] at hmem
        cases hk : piece.kind <;> rw [hk] at hmem <;> try dsimp only at hmem
        · exact capScore_pawn b row col piece hpa hcol s m hmem
        · exact capScore_dirs b row col KNIGHT_MOVES s m hmem
        · exact capScore_sliding b row col BISHOP_DIRECTIONS s m hmem
        · exact capScore_sliding b row col ROOK_DIRECTIONS s m hmem
        · exact capScore_sliding b row col QUEEN_DIRECTIONS s m hmem
        · exact capScore_king b row col s m hmem
      · rw [if_neg hcol] at hmem
        cases hmem

theorem capScore_pseudo (b : ChessBoard) (s : Int) (m : Move)
    (hmem : (s, m) ∈ generate_pseudo_moves b) :
    capScoreProp b s m := by
  unfold generate_pseudo_moves at hmem
  rw [foldr_append_eq_bind] at hmem
  obtain ⟨fp, _, hm⟩ := List.mem_flatMap.mp hmem
  exact capScore_from_position b fp.1.row fp.1.col s m hm

def c4_fen : List Char := ("7r/6P1/8/8/8/8/8/8 w - - 0 1").data

def c4_board : ChessBoard := boardOfFen zeroKeys c4_fen

def c4_move : Move := (Move.new 6 6 7 7).with_promotion PieceType.Queen

/-- C4.  The claim as stated is false: the capture-promotion g7h8q on
the board `7r/6P1/8/8/8/8/8/8 w - - 0 1` is generated with score
14056 = 10010 + 1000·(5−1) + 10·5 − 5 + 1, one more than the claimed
formula (promotions add 1 to the underlying score). -/
theorem claim_C4_counterexample :
    (14056, c4_move) ∈ generate_pseudo_moves c4_board ∧
    sqN c4_board 7 7 = Square.Occupied ⟨Color.Black, PieceType.Rook⟩ ∧
    (Piece.mk Color.Black PieceType.Rook).color ≠ c4_board.active_color ∧
    sqN c4_board 6 6 = Square.Occupied ⟨Color.White, PieceType.Pawn⟩ ∧
    (14056 : Int) ≠ CAPTURE_BASE
        + 1000 * (get_piece_value PieceType.Rook - get_piece_value PieceType.Pawn)
        + 10 * get_piece_value PieceType.Rook - get_piece_value PieceType.Rook := by
  refine ⟨by decide, by decide, by decide, by decide, by decide⟩

/-- C4 (amended): every move produced by the pseudo-legal move
generator whose destination square holds an enemy piece carries the
score CAPTURE_BASE + 1000·(V(victim) − V(attacker)) + 10·V(victim)
− V(victim), plus one when the move is a promotion. -/
theorem claim_C4 (b : ChessBoard) (s : Int) (m : Move) (a q : Piece)
    (hmem : (s, m) ∈ generate_pseudo_moves b)
    (hfrom : sqN b m.fromSq.row m.fromSq.col = Square.Occupied a)
    (hto : sqN b m.toSq.row m.toSq.col = Square.Occupied q)
    (hq : q.color ≠ b.active_color) :
    s = CAPTURE_BASE + 1000 * (get_piece_value q.kind - get_piece_value a.kind)
        + 10 * get_piece_value q.kind - get_piece_value q.kind
      + (if m.promotion.isSome then 1 else 0) := by
  rw [← compute_capture_score_eq b m a q hfrom hto]
  exact capScore_pseudo b s m hmem q hto hq

theorem claim_C4_witness :
    (14056 : Int) = CAPTURE_BASE
        + 1000 * (get_piece_value (Piece.mk Color.Black PieceType.Rook).kind
            - get_piece_value (Piece.mk Color.White PieceType.Pawn).kind)
        + 10 * get_piece_value (Piece.mk Color.Black PieceType.Rook).kind
        - get_piece_value (Piece.mk Color.Black PieceType.Rook).kind
      + (if c4_move.promotion.isSome then 1 else 0) :=
  claim_C4 c4_board 14056 c4_move ⟨Color.White, PieceType.Pawn⟩
    ⟨Color.Black, PieceType.Rook⟩ (by decide) (by decide) (by decide) (by decide)

/-! ## C3: the legal-move filter -/

theorem compute_move_weights_mem (l : List (Int × Move)) (guess : Option Move)
    (pair : Int × Move) (h : pair ∈ compute_move_weights l guess) :
    ∃ sm ∈ l, sm.2 = pair.2 := by
  unfold compute_move_weights at h
  rw [List.mem_map] at h
  obtain ⟨sm, hsm, hmap⟩ := h
  refine ⟨sm, hsm, ?_⟩
  rw [← hmap]
  cases guess with
  | none => rfl
  | some g =>
      by_cases hg : sm.2 = g
      · simp [hg]
      · simp [hg]

theorem compute_move_weights_mem_intro (l : List (Int × Move)) (guess : Option Move)
    (s : Int) (m : Move) (h : (s, m) ∈ l) :
    ∃ pair ∈ compute_move_weights l guess, pair.2 = m := by
  unfold compute_move_weights
  cases guess with
  | none => exact ⟨(s, m), List.mem_map.mpr ⟨(s, m), h, rfl⟩, rfl⟩
  | some g =>
      by_cases hg : m = g
      · refine ⟨(BEST_MOVE, m), List.mem_map.mpr ⟨(s, m), h, ?_⟩, rfl⟩
        simp [hg]
      · refine ⟨(s, m), List.mem_map.mpr ⟨(s, m), h, ?_⟩, rfl⟩
        simp [hg]

theorem mem_legal_elim (z : ZobristKeys) (b : ChessBoard) (guess : Option Move)
    (m : Move) (hm : m ∈ generate_legal_moves z b guess) :
    ∃ s, (s, m) ∈ generate_pseudo_moves b ∧ legalPred z b m = true := by
  unfold generate_legal_moves at hm
  rw [List.mem_map] at hm
  obtain ⟨pair, hsorted, hsnd⟩ := hm
  have hw : pair ∈ compute_move_weights
      ((generate_pseudo_moves b).filter fun sm => legalPred z b sm.2) guess :=
    (List.perm_insertionSort scoredDesc _).mem_iff.mp hsorted
  obtain ⟨sm, hfil, hsm2⟩ := compute_move_weights_mem _ guess pair hw
  have hsnd2 : sm.2 = m := by rw [hsm2, hsnd]
  obtain ⟨hmem, hpred⟩ := List.mem_filter.mp hfil
  refine ⟨sm.1, ?_, ?_⟩
  · rw [← hsnd2]
    exact hmem
  · rw [← hsnd2]
    exact hpred

theorem mem_legal_intro (z : ZobristKeys) (b : ChessBoard) (guess : Option Move)
    (s : Int) (m : Move) (hmem : (s, m) ∈ generate_pseudo_moves b)
    (hpred : legalPred z b m = true) :
    m ∈ generate_legal_moves z b guess := by
  unfold generate_legal_moves
  rw [List.mem_map]
  have hfil : (s, m) ∈ (generate_pseudo_moves b).filter fun sm => legalPred z b sm.2 :=
    List.mem_filter.mpr ⟨hmem, hpred⟩
  obtain ⟨pair, hpair, hp2⟩ := compute_move_weights_mem_intro _ guess s m hfil
  exact ⟨pair, (List.perm_insertionSort scoredDesc _).mem_iff.mpr hpair, hp2⟩

/-- C3: `generate_legal_moves` returns a subset of the pseudo-legal
moves, and every pseudo-legal move it filters out leaves the mover's
king (as located by `find_king_position` on the resulting board) on a
square attacked by the side to move after the move. -/
theorem claim_C3 (z : ZobristKeys) :
    (∀ (b : ChessBoard) (guess : Option Move) (m : Move),
      m ∈ generate_legal_moves z b guess → ∃ s, (s, m) ∈ generate_pseudo_moves b) ∧
    (∀ (b : ChessBoard) (guess : Option Move) (s : Int) (m : Move),
      (s, m) ∈ generate_pseudo_moves b → m ∉ generate_legal_moves z b guess →
      ∀ kp, find_king_position (make_move z b m) b.active_color = some kp →
        is_square_attacked_by_color (make_move z b m) kp.row kp.col
          (make_move z b m).active_color = true) := by
  constructor
  · intro b guess m hm
    obtain ⟨s, hmem, _⟩ := mem_legal_elim z b guess m hm
    exact ⟨s, hmem⟩
  · intro b guess s m hmem hnot kp hkp
    by_cases hpred : legalPred z b m = true
    · exact absurd (mem_legal_intro z b guess s m hmem hpred) hnot
    · have hfalse : legalPred z b m = false := by
        cases h : legalPred z b m
        · rfl
        · exact absurd h hpred
      unfold legalPred at hfalse
      dsimp only at hfalse
      rw [hkp] at hfalse
      simpa using hfalse

def c3_fen : List Char := ("1k6/8/8/8/3q4/8/1R6/K7 w - - 0 1").data

def c3_board : ChessBoard := boardOfFen zeroKeys c3_fen

theorem claim_C3_witness :
    (∃ s, (s, Move.new 0 0 1 0) ∈ generate_pseudo_moves c3_board) ∧
    (∀ kp, find_king_position (make_move zeroKeys c3_board (Move.new 1 1 3 1))
        c3_board.active_color = some kp →
      is_square_attacked_by_color (make_move zeroKeys c3_board (Move.new 1 1 3 1))
        kp.row kp.col
        (make_move zeroKeys c3_board (Move.new 1 1 3 1)).active_color = true) :=
  ⟨(claim_C3 zeroKeys).1 c3_board none (Move.new 0 0 1 0) (by decide),
   (claim_C3 zeroKeys).2 c3_board none 0 (Move.new 1 1 3 1) (by decide) (by decide)⟩

/-! ## C2: hash invariance of `make_move`

The incremental hash maintained by `make_move` mirrors
`calculate_hash`: each statement block of the source toggles exactly
the keys of the squares it rewrites.  The stage lemmas below state
this square/hash mirror for every block. -/

theorem sqN_occupied_lt (b : ChessBoard) (r c : Nat) (p : Piece)
    (h : sqN b r c = Square.Occupied p) : r < 8 ∧ c < 8 := by
  by_cases hrc : r < 8 ∧ c < 8
  · exact hrc
  · unfold sqN at h
    rw [dif_neg hrc] at h
    cases h

theorem sqN_eq_of_squares_eq (b b' : ChessBoard) (h : b.squares = b'.squares)
    (r c : Nat) : sqN b r c = sqN b' r c := by
  unfold sqN
  rw [h]

theorem sqN_setSqN_same (b : ChessBoard) (r c : Nat) (v : Square)
    (hr : r < 8) (hc : c < 8) : sqN (setSqN b r c v) r c = v := by
  unfold setSqN
  rw [dif_pos ⟨hr, hc⟩]
  unfold sqN
  rw [dif_pos ⟨hr, hc⟩]
  simp [setGrid]

theorem sqN_setSqN_ne (b : ChessBoard) (r c : Nat) (v : Square) (r' c' : Nat)
    (h : ¬(r' = r ∧ c' = c)) : sqN (setSqN b r c v) r' c' = sqN b r' c' := by
  unfold setSqN
  by_cases hin : r < 8 ∧ c < 8
  · rw [dif_pos hin]
    unfold sqN
    by_cases hin' : r' < 8 ∧ c' < 8
    · rw [dif_pos hin', dif_pos hin']
      dsimp only
      unfold setGrid
      rw [if_neg]
      intro hcontra
      exact h ⟨congrArg Fin.val hcontra.1, congrArg Fin.val hcontra.2⟩
    · rw [dif_neg hin', dif_neg hin']
  · rw [dif_neg hin]

/-- Writing one in-range square toggles the grid contribution by the
keys of the old and the new content. -/
theorem gridContrib_setSqN (z : ZobristKeys) (b : ChessBoard) (r c : Nat) (v : Square)
    (hr : r < 8) (hc : c < 8) :
    gridContrib z (setSqN b r c v).squares =
      gridContrib z b.squares ^^^ squareKey z (sqN b r c) r c ^^^ squareKey z v r c := by
  unfold setSqN
  rw [dif_pos ⟨hr, hc⟩]
  have hsq : sqN b r c = b.squares ⟨r, hr⟩ ⟨c, hc⟩ := by
    unfold sqN
    rw [dif_pos ⟨hr, hc⟩]
  rw [hsq]
  exact gridContrib_setGrid z b.squares ⟨r, hr⟩ ⟨c, hc⟩ v

/-! ### Field-preservation lemmas for the board operations -/

@[simp] theorem setSqN_en_passant (b : ChessBoard) (r c : Nat) (v : Square) :
    (setSqN b r c v).en_passant = b.en_passant := by
  unfold setSqN; split <;> rfl

@[simp] theorem setSqN_castling (b : ChessBoard) (r c : Nat) (v : Square) :
    (setSqN b r c v).castling_rights = b.castling_rights := by
  unfold setSqN; split <;> rfl

@[simp] theorem setSqN_active (b : ChessBoard) (r c : Nat) (v : Square) :
    (setSqN b r c v).active_color = b.active_color := by
  unfold setSqN; split <;> rfl

@[simp] theorem clearRight_squares (b : ChessBoard) (i : Fin 4) :
    (clearRight b i).squares = b.squares := rfl

@[simp] theorem clearRight_en_passant (b : ChessBoard) (i : Fin 4) :
    (clearRight b i).en_passant = b.en_passant := rfl

@[simp] theorem clearRight_active (b : ChessBoard) (i : Fin 4) :
    (clearRight b i).active_color = b.active_color := rfl

@[simp] theorem update_piece_position_squares (b : ChessBoard) (mv : Move) (p : Piece) :
    (update_piece_position b mv p).squares = b.squares := by
  unfold update_piece_position; split <;> rfl

@[simp] theorem update_piece_position_en_passant (b : ChessBoard) (mv : Move) (p : Piece) :
    (update_piece_position b mv p).en_passant = b.en_passant := by
  unfold update_piece_position; split <;> rfl

@[simp] theorem update_piece_position_castling (b : ChessBoard) (mv : Move) (p : Piece) :
    (update_piece_position b mv p).castling_rights = b.castling_rights := by
  unfold update_piece_position; split <;> rfl

@[simp] theorem update_piece_position_active (b : ChessBoard) (mv : Move) (p : Piece) :
    (update_piece_position b mv p).active_color = b.active_color := by
  unfold update_piece_position; split <;> rfl

@[simp] theorem remove_piece_from_piece_position_squares (b : ChessBoard)
    (f : ChessField) (p : Piece) :
    (remove_piece_from_piece_position b f p).squares = b.squares := by
  unfold remove_piece_from_piece_position; split <;> rfl

@[simp] theorem remove_piece_from_piece_position_en_passant (b : ChessBoard)
    (f : ChessField) (p : Piece) :
    (remove_piece_from_piece_position b f p).en_passant = b.en_passant := by
  unfold remove_piece_from_piece_position; split <;> rfl

@[simp] theorem remove_piece_from_piece_position_castling (b : ChessBoard)
    (f : ChessField) (p : Piece) :
    (remove_piece_from_piece_position b f p).castling_rights = b.castling_rights := by
  unfold remove_piece_from_piece_position; split <;> rfl

@[simp] theorem remove_piece_from_piece_position_active (b : ChessBoard)
    (f : ChessField) (p : Piece) :
    (remove_piece_from_piece_position b f p).active_color = b.active_color := by
  unfold remove_piece_from_piece_position; split <;> rfl

@[simp] theorem insert_piece_from_piece_position_squares (b : ChessBoard)
    (f : ChessField) (p : Piece) :
    (insert_piece_from_piece_position b f p).squares = b.squares := by
  unfold insert_piece_from_piece_position; split <;> rfl

@[simp] theorem insert_piece_from_piece_position_en_passant (b : ChessBoard)
    (f : ChessField) (p : Piece) :
    (insert_piece_from_piece_position b f p).en_passant = b.en_passant := by
  unfold insert_piece_from_piece_position; split <;> rfl

@[simp] theorem insert_piece_from_piece_position_castling (b : ChessBoard)
    (f : ChessField) (p : Piece) :
    (insert_piece_from_piece_position b f p).castling_rights = b.castling_rights := by
  unfold insert_piece_from_piece_position; split <;> rfl

@[simp] theorem insert_piece_from_piece_position_active (b : ChessBoard)
    (f : ChessField) (p : Piece) :
    (insert_piece_from_piece_position b f p).active_color = b.active_color := by
  unfold insert_piece_from_piece_position; split <;> rfl

@[simp] theorem sqN_update_piece_position (b : ChessBoard) (mv : Move) (p : Piece)
    (r c : Nat) : sqN (update_piece_position b mv p) r c = sqN b r c :=
  sqN_eq_of_squares_eq _ _ (update_piece_position_squares b mv p) r c

@[simp] theorem sqN_remove_piece_from_piece_position (b : ChessBoard)
    (f : ChessField) (p : Piece) (r c : Nat) :
    sqN (remove_piece_from_piece_position b f p) r c = sqN b r c :=
  sqN_eq_of_squares_eq _ _ (remove_piece_from_piece_position_squares b f p) r c

/-! ### Stage lemmas: capture block -/

theorem update_piece_eq (z : ZobristKeys) (h : Nat) (p : Piece) (r c : Nat) :
    update_piece z h p r c = h ^^^ squareKey z (Square.Occupied p) r c := rfl

theorem update_square_eq (z : ZobristKeys) (h : Nat) (s : Square) (r c : Nat) :
    update_square z h s r c = h ^^^ squareKey z s r c := by
  cases s <;> simp [update_square, update_piece, squareKey]

@[simp] theorem mm_capture_squares (z : ZobristKeys) (b : ChessBoard) (h : Nat)
    (mv : Move) : (mm_capture z b h mv).1.squares = b.squares := by
  unfold mm_capture
  repeat' split
  all_goals simp

@[simp] theorem mm_capture_en_passant (z : ZobristKeys) (b : ChessBoard) (h : Nat)
    (mv : Move) : (mm_capture z b h mv).1.en_passant = b.en_passant := by
  unfold mm_capture
  repeat' split
  all_goals simp

@[simp] theorem mm_capture_castling (z : ZobristKeys) (b : ChessBoard) (h : Nat)
    (mv : Move) : (mm_capture z b h mv).1.castling_rights = b.castling_rights := by
  unfold mm_capture
  repeat' split
  all_goals simp

@[simp] theorem mm_capture_active (z : ZobristKeys) (b : ChessBoard) (h : Nat)
    (mv : Move) : (mm_capture z b h mv).1.active_color = b.active_color := by
  unfold mm_capture
  repeat' split
  all_goals simp

@[simp] theorem sqN_mm_capture (z : ZobristKeys) (b : ChessBoard) (h : Nat)
    (mv : Move) (r c : Nat) : sqN (mm_capture z b h mv).1 r c = sqN b r c :=
  sqN_eq_of_squares_eq _ _ (mm_capture_squares z b h mv) r c

/-- The capture block toggles the key of whatever sits on the
destination square (nothing for an empty destination). -/
theorem mm_capture_hash (z : ZobristKeys) (b : ChessBoard) (h : Nat) (mv : Move) :
    (mm_capture z b h mv).2 =
      h ^^^ squareKey z (sqN b mv.toSq.row mv.toSq.col) mv.toSq.row mv.toSq.col := by
  unfold mm_capture
  cases hsq : sqN b mv.toSq.row mv.toSq.col with
  | Empty => simp [squareKey]
  | Occupied q => simp [update_piece, squareKey]

@[simp] theorem squareKey_empty (z : ZobristKeys) (r c : Nat) :
    squareKey z Square.Empty r c = 0 := rfl

/-- The common cancellation step of the stage mirrors. -/
theorem xor_mirror (a g k : Nat) : (a ^^^ k) ^^^ (g ^^^ k) = a ^^^ g := by
  rw [Nat.xor_assoc, xor_left_comm k g k, Nat.xor_self, Nat.xor_zero]

/-! ### Stage lemmas: en-passant capture block -/

@[simp] theorem mm_ep_capture_en_passant (z : ZobristKeys) (b : ChessBoard) (h : Nat)
    (mv : Move) (p : Piece) :
    (mm_ep_capture z b h mv p).1.en_passant = b.en_passant := by
  unfold mm_ep_capture
  repeat' split
  all_goals simp

@[simp] theorem mm_ep_capture_castling (z : ZobristKeys) (b : ChessBoard) (h : Nat)
    (mv : Move) (p : Piece) :
    (mm_ep_capture z b h mv p).1.castling_rights = b.castling_rights := by
  unfold mm_ep_capture
  repeat' split
  all_goals simp

@[simp] theorem mm_ep_capture_active (z : ZobristKeys) (b : ChessBoard) (h : Nat)
    (mv : Move) (p : Piece) :
    (mm_ep_capture z b h mv p).1.active_color = b.active_color := by
  unfold mm_ep_capture
  repeat' split
  all_goals simp

/-- Squares other than the cleared one `(from.row, to.col)` are
untouched by the en-passant capture block. -/
theorem sqN_mm_ep_capture_ne (z : ZobristKeys) (b : ChessBoard) (h : Nat)
    (mv : Move) (p : Piece) (r c : Nat)
    (hne : ¬(r = mv.fromSq.row ∧ c = mv.toSq.col)) :
    sqN (mm_ep_capture z b h mv p).1 r c = sqN b r c := by
  unfold mm_ep_capture
  cases hep : b.en_passant with
  | none => rfl
  | some e =>
      dsimp only
      by_cases hc : mv.toSq = e ∧ p.kind = PieceType.Pawn
      · rw [if_pos hc]
        dsimp only
        rw [sqN_remove_piece_from_piece_position, sqN_setSqN_ne _ _ _ _ _ _ hne]
      · rw [if_neg hc]

/-- The en-passant capture block preserves the hash/grid mirror: it
toggles exactly the key of the square it clears. -/
theorem mm_ep_capture_D (z : ZobristKeys) (b : ChessBoard) (h : Nat) (mv : Move)
    (p : Piece) (hfr : mv.fromSq.row < 8) (htc : mv.toSq.col < 8) :
    (mm_ep_capture z b h mv p).2 ^^^ gridContrib z (mm_ep_capture z b h mv p).1.squares =
      h ^^^ gridContrib z b.squares := by
  unfold mm_ep_capture
  cases hep : b.en_passant with
  | none => rfl
  | some e =>
      dsimp only
      by_cases hc : mv.toSq = e ∧ p.kind = PieceType.Pawn
      · rw [if_pos hc]
        dsimp only
        rw [remove_piece_from_piece_position_squares,
          gridContrib_setSqN z _ _ _ _ hfr htc, update_square_eq,
          squareKey_empty, Nat.xor_zero, xor_mirror]
      · rw [if_neg hc]

/-- The en-passant capture block is the identity for a non-pawn mover. -/
theorem mm_ep_capture_nonpawn (z : ZobristKeys) (b : ChessBoard) (h : Nat)
    (mv : Move) (p : Piece) (hnp : p.kind ≠ PieceType.Pawn) :
    mm_ep_capture z b h mv p = (b, h) := by
  unfold mm_ep_capture
  cases hep : b.en_passant with
  | none => rfl
  | some e =>
      dsimp only
      rw [if_neg]
      intro hcon
      exact hnp hcon.2

/-! ### Stage lemmas: castle block -/

@[simp] theorem mm_castle_en_passant (z : ZobristKeys) (b : ChessBoard) (h : Nat)
    (mv : Move) (p : Piece) :
    (mm_castle z b h mv p).1.en_passant = b.en_passant := by
  unfold mm_castle
  repeat' split
  all_goals simp

@[simp] theorem mm_castle_castling (z : ZobristKeys) (b : ChessBoard) (h : Nat)
    (mv : Move) (p : Piece) :
    (mm_castle z b h mv p).1.castling_rights = b.castling_rights := by
  unfold mm_castle
  repeat' split
  all_goals simp

@[simp] theorem mm_castle_active (z : ZobristKeys) (b : ChessBoard) (h : Nat)
    (mv : Move) (p : Piece) :
    (mm_castle z b h mv p).1.active_color = b.active_color := by
  unfold mm_castle
  repeat' split
  all_goals simp

/-- The castle block is the identity for a non-king mover. -/
theorem mm_castle_nonking (z : ZobristKeys) (b : ChessBoard) (h : Nat)
    (mv : Move) (p : Piece) (hnk : p.kind ≠ PieceType.King) :
    mm_castle z b h mv p = (b, h) := by
  unfold mm_castle
  rw [if_neg hnk]

/-- The castle block preserves the hash/grid mirror, given that the
rook's landing square was empty before the block (which the pseudo-move
generator guarantees for generated castle moves). -/
theorem mm_castle_D (z : ZobristKeys) (b : ChessBoard) (h : Nat) (mv : Move)
    (p : Piece) (hfr : mv.fromSq.row < 8)
    (hk : p.kind = PieceType.King → mv.fromSq.col = 4 → mv.toSq.col = 6 →
      mv.fromSq.row = mv.toSq.row → sqN b mv.fromSq.row 5 = Square.Empty)
    (hq : p.kind = PieceType.King → mv.fromSq.col = 4 → mv.toSq.col = 2 →
      mv.fromSq.row = mv.toSq.row → sqN b mv.fromSq.row 3 = Square.Empty) :
    (mm_castle z b h mv p).2 ^^^ gridContrib z (mm_castle z b h mv p).1.squares =
      h ^^^ gridContrib z b.squares := by
  unfold mm_castle
  by_cases hking : p.kind = PieceType.King
  case neg => rw [if_neg hking]
  case pos =>
    rw [if_pos hking]
    by_cases hks : mv.fromSq.col = 4 ∧ mv.toSq.col = 6 ∧ mv.fromSq.row = mv.toSq.row
    · rw [if_pos hks]
      by_cases hright :
          b.castling_rights (if b.active_color = Color.White then 0 else 2) = true
      · rw [if_pos hright]
        dsimp only
        have h5 : sqN b mv.fromSq.row 5 = Square.Empty := hk hking hks.1 hks.2.1 hks.2.2
        rw [update_piece_position_squares,
          gridContrib_setSqN z _ _ 7 _ hfr (by omega),
          gridContrib_setSqN z _ _ 5 _ hfr (by omega),
          sqN_setSqN_same _ _ _ _ hfr (by omega),
          sqN_setSqN_ne _ _ _ _ _ 7 (by omega), h5]
        simp only [squareKey_empty, Nat.xor_zero]
        rw [update_square_eq, update_square_eq, xor_mirror, xor_mirror]
      · rw [if_neg hright]
    · rw [if_neg hks]
      by_cases hqs : mv.fromSq.col = 4 ∧ mv.toSq.col = 2 ∧ mv.fromSq.row = mv.toSq.row
      · rw [if_pos hqs]
        by_cases hright :
            b.castling_rights (if b.active_color = Color.White then 1 else 3) = true
        · rw [if_pos hright]
          dsimp only
          have h3 : sqN b mv.fromSq.row 3 = Square.Empty := hq hking hqs.1 hqs.2.1 hqs.2.2
          rw [update_piece_position_squares, update_piece_position_squares,
            gridContrib_setSqN z _ _ 0 _ hfr (by omega),
            gridContrib_setSqN z _ _ 3 _ hfr (by omega),
            sqN_setSqN_same _ _ _ _ hfr (by omega),
            sqN_setSqN_ne _ _ _ _ _ 0 (by omega), h3]
          simp only [squareKey_empty, Nat.xor_zero]
          rw [update_square_eq, update_square_eq, xor_mirror, xor_mirror]
        · rw [if_neg hright]
      · rw [if_neg hqs]

/-! ### Stage lemmas: rights blocks and pawn block -/

@[simp] theorem mm_rights_from_squares (b : ChessBoard) (mv : Move) :
    (mm_rights_from b mv).squares = b.squares := by
  unfold mm_rights_from
  repeat' split
  all_goals simp

@[simp] theorem mm_rights_from_en_passant (b : ChessBoard) (mv : Move) :
    (mm_rights_from b mv).en_passant = b.en_passant := by
  unfold mm_rights_from
  repeat' split
  all_goals simp

@[simp] theorem mm_rights_from_active (b : ChessBoard) (mv : Move) :
    (mm_rights_from b mv).active_color = b.active_color := by
  unfold mm_rights_from
  repeat' split
  all_goals simp

@[simp] theorem mm_rights_to_squares (b : ChessBoard) (mv : Move) :
    (mm_rights_to b mv).squares = b.squares := by
  unfold mm_rights_to
  repeat' split
  all_goals simp

@[simp] theorem mm_rights_to_en_passant (b : ChessBoard) (mv : Move) :
    (mm_rights_to b mv).en_passant = b.en_passant := by
  unfold mm_rights_to
  repeat' split
  all_goals simp

@[simp] theorem mm_rights_to_active (b : ChessBoard) (mv : Move) :
    (mm_rights_to b mv).active_color = b.active_color := by
  unfold mm_rights_to
  repeat' split
  all_goals simp

@[simp] theorem mm_pawn_castling (z : ZobristKeys) (b : ChessBoard) (h : Nat)
    (mv : Move) (p : Piece) :
    (mm_pawn z b h mv p).1.castling_rights = b.castling_rights := by
  unfold mm_pawn
  repeat' split
  all_goals simp

@[simp] theorem mm_pawn_active (z : ZobristKeys) (b : ChessBoard) (h : Nat)
    (mv : Move) (p : Piece) :
    (mm_pawn z b h mv p).1.active_color = b.active_color := by
  unfold mm_pawn
  repeat' split
  all_goals simp

/-- The pawn block leaves the en-passant square unchanged or sets the
ghost square behind a double push. -/
theorem mm_pawn_ep_cases (z : ZobristKeys) (b : ChessBoard) (h : Nat)
    (mv : Move) (p : Piece) :
    (mm_pawn z b h mv p).1.en_passant = b.en_passant ∨
    (mm_pawn z b h mv p).1.en_passant = some ⟨2, mv.fromSq.col⟩ ∨
    (mm_pawn z b h mv p).1.en_passant = some ⟨5, mv.fromSq.col⟩ := by
  unfold mm_pawn
  repeat' split
  all_goals simp

/-- The pawn block preserves the hash/grid mirror, given that on a
promotion the destination still holds the moved pawn (true whenever the
move changes rank, as every generated promotion does). -/
theorem mm_pawn_D (z : ZobristKeys) (b : ChessBoard) (h : Nat) (mv : Move)
    (p : Piece) (htr : mv.toSq.row < 8) (htc : mv.toSq.col < 8)
    (hpr : p.kind = PieceType.Pawn → mv.promotion.isSome = true →
      sqN b mv.toSq.row mv.toSq.col = Square.Occupied p) :
    (mm_pawn z b h mv p).2 ^^^ gridContrib z (mm_pawn z b h mv p).1.squares =
      h ^^^ gridContrib z b.squares := by
  unfold mm_pawn
  by_cases hpk : p.kind = PieceType.Pawn
  case neg => rw [if_neg hpk]
  case pos =>
    rw [if_pos hpk]
    by_cases hw : p.color = Color.White ∧ mv.fromSq.row = 1 ∧ mv.toSq.row = 3
    · rw [if_pos hw]
    · rw [if_neg hw]
      by_cases hbk : p.color = Color.Black ∧ mv.fromSq.row = 6 ∧ mv.toSq.row = 4
      · rw [if_pos hbk]
      · rw [if_neg hbk]
        cases hpromo : mv.promotion with
        | none => rfl
        | some pk =>
            dsimp only
            have hto : sqN b mv.toSq.row mv.toSq.col = Square.Occupied p :=
              hpr hpk (by rw [hpromo]; rfl)
            rw [insert_piece_from_piece_position_squares,
              remove_piece_from_piece_position_squares,
              gridContrib_setSqN z _ _ _ _ htr htc, hto,
              update_piece_eq, update_piece_eq, xor_mirror, xor_mirror]

/-! ### Stage lemmas: tail -/

@[simp] theorem make_move_tail_squares (z : ZobristKeys) (b : ChessBoard) (h : Nat) :
    (make_move_tail z b h).squares = b.squares := by
  unfold make_move_tail
  by_cases hc : b.active_color.opposite = Color.White <;> simp [hc]

@[simp] theorem make_move_tail_en_passant (z : ZobristKeys) (b : ChessBoard) (h : Nat) :
    (make_move_tail z b h).en_passant = b.en_passant := by
  unfold make_move_tail
  by_cases hc : b.active_color.opposite = Color.White <;> simp [hc]

@[simp] theorem make_move_tail_castling (z : ZobristKeys) (b : ChessBoard) (h : Nat) :
    (make_move_tail z b h).castling_rights = b.castling_rights := by
  unfold make_move_tail
  by_cases hc : b.active_color.opposite = Color.White <;> simp [hc]

@[simp] theorem make_move_tail_active (z : ZobristKeys) (b : ChessBoard) (h : Nat) :
    (make_move_tail z b h).active_color = b.active_color.opposite := by
  unfold make_move_tail
  by_cases hc : b.active_color.opposite = Color.White <;> simp [hc]

@[simp] theorem make_move_tail_hash (z : ZobristKeys) (b : ChessBoard) (h : Nat) :
    (make_move_tail z b h).hash =
      ((h ^^^ castContrib z b.castling_rights) ^^^ z.sideToMoveKey) ^^^
        epContrib z b.en_passant := by
  unfold make_move_tail update_castling update_active_side update_enpassing
  by_cases hc : b.active_color.opposite = Color.White <;> simp [hc]

/-! ### Grouping `make_move`'s occupied branch into three stages -/

/-- The statements of `make_move` up to `update_piece_position(mv, p)`:
clock, source clearing, capture block, destination placement. -/
def mm_A (z : ZobristKeys) (b : ChessBoard) (mv : Move) (p : Piece) :
    ChessBoard × Nat :=
  let b1 :=
    if p.kind = PieceType.Pawn ∨ (sqN b mv.toSq.row mv.toSq.col).isOccupied then
      { b with halfmove_clock := 0 }
    else { b with halfmove_clock := (b.halfmove_clock + 1) % 256 }
  let hash := update_piece z (update_castling z b.hash b.castling_rights) p
    mv.fromSq.row mv.fromSq.col
  let b2 := setSqN b1 mv.fromSq.row mv.fromSq.col Square.Empty
  let st := mm_capture z b2 hash mv
  let hash := update_piece z st.2 p mv.toSq.row mv.toSq.col
  let b3 := setSqN st.1 mv.toSq.row mv.toSq.col (Square.Occupied p)
  (update_piece_position b3 mv p, hash)

/-- The en-passant capture block followed by the hash toggle and reset
of the en-passant square. -/
def mm_B (z : ZobristKeys) (st : ChessBoard × Nat) (mv : Move) (p : Piece) :
    ChessBoard × Nat :=
  let st2 := mm_ep_capture z st.1 st.2 mv p
  let hash := update_enpassing z st2.2 st2.1.en_passant
  ({ st2.1 with en_passant := none }, hash)

/-- The castle block followed by both castling-rights blocks. -/
def mm_C (z : ZobristKeys) (st : ChessBoard × Nat) (mv : Move) (p : Piece) :
    ChessBoard × Nat :=
  let st2 := mm_castle z st.1 st.2 mv p
  (mm_rights_to (mm_rights_from st2.1 mv) mv, st2.2)

/-- `make_move` on an occupied source square is the three stages above,
the pawn block, and the tail, in source order. -/
theorem make_move_occ_eq (z : ZobristKeys) (b : ChessBoard) (mv : Move) (p : Piece)
    (hp : sqN b mv.fromSq.row mv.fromSq.col = Square.Occupied p) :
    make_move z b mv =
      make_move_tail z
        (mm_pawn z (mm_C z (mm_B z (mm_A z b mv p) mv p) mv p).1
          (mm_C z (mm_B z (mm_A z b mv p) mv p) mv p).2 mv p).1
        (mm_pawn z (mm_C z (mm_B z (mm_A z b mv p) mv p) mv p).1
          (mm_C z (mm_B z (mm_A z b mv p) mv p) mv p).2 mv p).2 := by
  unfold make_move mm_A mm_B mm_C
  rw [hp]

/-- `make_move` on an empty source square only clears the en-passant
square (after toggling its key) and runs the tail. -/
theorem make_move_empty_eq (z : ZobristKeys) (b : ChessBoard) (mv : Move)
    (hp : sqN b mv.fromSq.row mv.fromSq.col = Square.Empty) :
    make_move z b mv =
      make_move_tail z { b with en_passant := none }
        (update_enpassing z (update_castling z b.hash b.castling_rights)
          b.en_passant) := by
  unfold make_move
  rw [hp]

@[simp] theorem mm_A_en_passant (z : ZobristKeys) (b : ChessBoard) (mv : Move)
    (p : Piece) : (mm_A z b mv p).1.en_passant = b.en_passant := by
  unfold mm_A
  dsimp only
  simp only [update_piece_position_en_passant, setSqN_en_passant, mm_capture_en_passant]
  split <;> rfl

@[simp] theorem mm_A_active (z : ZobristKeys) (b : ChessBoard) (mv : Move)
    (p : Piece) : (mm_A z b mv p).1.active_color = b.active_color := by
  unfold mm_A
  dsimp only
  simp only [update_piece_position_active, setSqN_active, mm_capture_active]
  split <;> rfl

/-- After stage A the destination square holds the moved piece. -/
theorem mm_A_sqN_to (z : ZobristKeys) (b : ChessBoard) (mv : Move) (p : Piece)
    (htr : mv.toSq.row < 8) (htc : mv.toSq.col < 8) :
    sqN (mm_A z b mv p).1 mv.toSq.row mv.toSq.col = Square.Occupied p := by
  unfold mm_A
  dsimp only
  rw [sqN_update_piece_position, sqN_setSqN_same _ _ _ _ htr htc]

/-- Squares other than the source and destination are untouched by
stage A. -/
theorem mm_A_sqN_ne (z : ZobristKeys) (b : ChessBoard) (mv : Move) (p : Piece)
    (r c : Nat) (h1 : ¬(r = mv.fromSq.row ∧ c = mv.fromSq.col))
    (h2 : ¬(r = mv.toSq.row ∧ c = mv.toSq.col)) :
    sqN (mm_A z b mv p).1 r c = sqN b r c := by
  unfold mm_A
  dsimp only
  rw [sqN_update_piece_position, sqN_setSqN_ne _ _ _ _ _ _ h2, sqN_mm_capture,
    sqN_setSqN_ne _ _ _ _ _ _ h1]
  split <;> rfl

/-- The hash/grid mirror of stage A: the incremental hash is the
pre-block hash with the castling keys toggled. -/
theorem mm_A_D (z : ZobristKeys) (b : ChessBoard) (mv : Move) (p : Piece)
    (hp : sqN b mv.fromSq.row mv.fromSq.col = Square.Occupied p)
    (htr : mv.toSq.row < 8) (htc : mv.toSq.col < 8) :
    (mm_A z b mv p).2 ^^^ gridContrib z (mm_A z b mv p).1.squares =
      update_castling z b.hash b.castling_rights ^^^ gridContrib z b.squares := by
  obtain ⟨hfr, hfc⟩ := sqN_occupied_lt b _ _ p hp
  unfold mm_A
  dsimp only
  rw [update_piece_position_squares, gridContrib_setSqN z _ _ _ _ htr htc,
    sqN_mm_capture, mm_capture_squares, mm_capture_hash,
    gridContrib_setSqN z _ _ _ _ hfr hfc, squareKey_empty, Nat.xor_zero]
  have hb1 : ∀ (bx : ChessBoard),
      (if p.kind = PieceType.Pawn ∨ (sqN b mv.toSq.row mv.toSq.col).isOccupied then
        { bx with halfmove_clock := 0 }
      else { bx with halfmove_clock := (bx.halfmove_clock + 1) % 256 }).squares =
        bx.squares := by
    intro bx
    split <;> rfl
  have hb1s : ∀ (bx : ChessBoard) (r c : Nat),
      sqN (if p.kind = PieceType.Pawn ∨ (sqN b mv.toSq.row mv.toSq.col).isOccupied then
        { bx with halfmove_clock := 0 }
      else { bx with halfmove_clock := (bx.halfmove_clock + 1) % 256 }) r c =
        sqN bx r c := fun bx r c => sqN_eq_of_squares_eq _ _ (hb1 bx) r c
  rw [hb1, hb1s, hp, update_piece_eq, update_piece_eq,
    xor_mirror, xor_mirror, xor_mirror]

@[simp] theorem mm_B_en_passant (z : ZobristKeys) (st : ChessBoard × Nat)
    (mv : Move) (p : Piece) : (mm_B z st mv p).1.en_passant = none := rfl

@[simp] theorem mm_B_active (z : ZobristKeys) (st : ChessBoard × Nat)
    (mv : Move) (p : Piece) :
    (mm_B z st mv p).1.active_color = st.1.active_color := by
  unfold mm_B
  dsimp only
  rw [mm_ep_capture_active]

/-- Squares other than the en-passant capture square are untouched by
stage B. -/
theorem mm_B_sqN (z : ZobristKeys) (st : ChessBoard × Nat) (mv : Move) (p : Piece)
    (r c : Nat) (hne : ¬(r = mv.fromSq.row ∧ c = mv.toSq.col)) :
    sqN (mm_B z st mv p).1 r c = sqN st.1 r c := by
  unfold mm_B
  dsimp only
  rw [show sqN ({ (mm_ep_capture z st.1 st.2 mv p).1 with en_passant := none }) r c
      = sqN (mm_ep_capture z st.1 st.2 mv p).1 r c from rfl,
    sqN_mm_ep_capture_ne _ _ _ _ _ _ _ hne]

/-- The hash/grid mirror of stage B: beyond the mirrored clearing, the
block toggles the pre-move en-passant key. -/
theorem mm_B_D (z : ZobristKeys) (st : ChessBoard × Nat) (mv : Move) (p : Piece)
    (hfr : mv.fromSq.row < 8) (htc : mv.toSq.col < 8) :
    (mm_B z st mv p).2 ^^^ gridContrib z (mm_B z st mv p).1.squares =
      (st.2 ^^^ gridContrib z st.1.squares) ^^^ epContrib z st.1.en_passant := by
  unfold mm_B update_enpassing
  dsimp only
  rw [mm_ep_capture_en_passant]
  rw [Nat.xor_assoc, Nat.xor_comm (epContrib z st.1.en_passant), ← Nat.xor_assoc,
    mm_ep_capture_D z st.1 st.2 mv p hfr htc]

@[simp] theorem mm_C_en_passant (z : ZobristKeys) (st : ChessBoard × Nat)
    (mv : Move) (p : Piece) :
    (mm_C z st mv p).1.en_passant = st.1.en_passant := by
  unfold mm_C
  dsimp only
  rw [mm_rights_to_en_passant, mm_rights_from_en_passant, mm_castle_en_passant]

@[simp] theorem mm_C_active (z : ZobristKeys) (st : ChessBoard × Nat)
    (mv : Move) (p : Piece) :
    (mm_C z st mv p).1.active_color = st.1.active_color := by
  unfold mm_C
  dsimp only
  rw [mm_rights_to_active, mm_rights_from_active, mm_castle_active]

/-- Stage C leaves the grid unchanged for a non-king mover. -/
theorem mm_C_squares_nonking (z : ZobristKeys) (st : ChessBoard × Nat) (mv : Move)
    (p : Piece) (hnk : p.kind ≠ PieceType.King) :
    (mm_C z st mv p).1.squares = st.1.squares := by
  unfold mm_C
  dsimp only
  rw [mm_rights_to_squares, mm_rights_from_squares, mm_castle_nonking z _ _ mv p hnk]

/-- The hash/grid mirror of stage C. -/
theorem mm_C_D (z : ZobristKeys) (st : ChessBoard × Nat) (mv : Move) (p : Piece)
    (hfr : mv.fromSq.row < 8)
    (hk : p.kind = PieceType.King → mv.fromSq.col = 4 → mv.toSq.col = 6 →
      mv.fromSq.row = mv.toSq.row → sqN st.1 mv.fromSq.row 5 = Square.Empty)
    (hq : p.kind = PieceType.King → mv.fromSq.col = 4 → mv.toSq.col = 2 →
      mv.fromSq.row = mv.toSq.row → sqN st.1 mv.fromSq.row 3 = Square.Empty) :
    (mm_C z st mv p).2 ^^^ gridContrib z (mm_C z st mv p).1.squares =
      st.2 ^^^ gridContrib z st.1.squares := by
  unfold mm_C
  dsimp only
  rw [mm_rights_to_squares, mm_rights_from_squares]
  exact mm_castle_D z st.1 st.2 mv p hfr hk hq

/-- The tail stores a hash equal to `calculate_hash` of the board it
returns whenever the incoming hash mirrors the grid. -/
theorem make_move_tail_correct (z : ZobristKeys) (B : ChessBoard) (H : Nat)
    (hD : H ^^^ gridContrib z B.squares =
      (if B.active_color = Color.Black then z.sideToMoveKey else 0)) :
    (make_move_tail z B H).hash = calculate_hash z (make_move_tail z B H) := by
  have hH : H = (if B.active_color = Color.Black then z.sideToMoveKey else 0) ^^^
      gridContrib z B.squares := by
    rw [← hD, Nat.xor_assoc, Nat.xor_self, Nat.xor_zero]
  rw [make_move_tail_hash]
  unfold calculate_hash
  rw [make_move_tail_squares, make_move_tail_active, make_move_tail_castling,
    make_move_tail_en_passant]
  dsimp only
  cases hac : B.active_color
  · rw [hac] at hH
    rw [if_neg (by decide : ¬ Color.White = Color.Black), Nat.zero_xor] at hH
    rw [show Color.White.opposite = Color.Black from rfl, if_pos rfl, hH]
    simp only [Nat.xor_assoc, Nat.xor_comm, xor_left_comm, Nat.xor_self,
      Nat.xor_zero, Nat.zero_xor, xor_cancel_left]
  · rw [hac] at hH
    rw [if_pos rfl] at hH
    rw [show Color.Black.opposite = Color.White from rfl,
      if_neg (by decide : ¬ Color.White = Color.Black), hH]
    simp only [Nat.xor_assoc, Nat.xor_comm, xor_left_comm, Nat.xor_self,
      Nat.xor_zero, Nat.zero_xor, xor_cancel_left]

/-- The hash stored by `make_move` on an occupied source square equals
`calculate_hash` of the resulting board, under the side conditions the
move generator guarantees for every generated move. -/
theorem make_move_hash_occ (z : ZobristKeys) (b : ChessBoard) (mv : Move) (p : Piece)
    (hp : sqN b mv.fromSq.row mv.fromSq.col = Square.Occupied p)
    (hinv : b.hash = calculate_hash z b)
    (htr : mv.toSq.row < 8) (htc : mv.toSq.col < 8)
    (hprow : mv.promotion.isSome = true → mv.fromSq.row ≠ mv.toSq.row)
    (hck : p.kind = PieceType.King → mv.fromSq.col = 4 → mv.toSq.col = 6 →
      mv.fromSq.row = mv.toSq.row → sqN b mv.fromSq.row 5 = Square.Empty)
    (hcq : p.kind = PieceType.King → mv.fromSq.col = 4 → mv.toSq.col = 2 →
      mv.fromSq.row = mv.toSq.row → sqN b mv.fromSq.row 3 = Square.Empty) :
    (make_move z b mv).hash = calculate_hash z (make_move z b mv) := by
  rw [make_move_occ_eq z b mv p hp]
  apply make_move_tail_correct
  have hactive : (mm_pawn z (mm_C z (mm_B z (mm_A z b mv p) mv p) mv p).1
      (mm_C z (mm_B z (mm_A z b mv p) mv p) mv p).2 mv p).1.active_color
      = b.active_color := by
    rw [mm_pawn_active, mm_C_active, mm_B_active, mm_A_active]
  rw [hactive]
  have hprcond : p.kind = PieceType.Pawn → mv.promotion.isSome = true →
      sqN (mm_C z (mm_B z (mm_A z b mv p) mv p) mv p).1 mv.toSq.row mv.toSq.col =
        Square.Occupied p := by
    intro hpk hps
    have hrowne := hprow hps
    rw [sqN_eq_of_squares_eq _ _
      (mm_C_squares_nonking z _ mv p (by rw [hpk]; intro hcon; cases hcon))]
    rw [mm_B_sqN z _ mv p _ _ (fun hcon => hrowne (hcon.1.symm))]
    exact mm_A_sqN_to z b mv p htr htc
  rw [mm_pawn_D z _ _ mv p htr htc hprcond]
  have hck' : p.kind = PieceType.King → mv.fromSq.col = 4 → mv.toSq.col = 6 →
      mv.fromSq.row = mv.toSq.row →
      sqN (mm_B z (mm_A z b mv p) mv p).1 mv.fromSq.row 5 = Square.Empty := by
    intro hking h4 h6 hrr
    rw [mm_B_sqN z _ mv p _ _ (by rw [h6]; omega)]
    rw [mm_A_sqN_ne z b mv p _ _ (by rw [h4]; omega) (by rw [h6]; omega)]
    exact hck hking h4 h6 hrr
  have hcq' : p.kind = PieceType.King → mv.fromSq.col = 4 → mv.toSq.col = 2 →
      mv.fromSq.row = mv.toSq.row →
      sqN (mm_B z (mm_A z b mv p) mv p).1 mv.fromSq.row 3 = Square.Empty := by
    intro hking h4 h2 hrr
    rw [mm_B_sqN z _ mv p _ _ (by rw [h2]; omega)]
    rw [mm_A_sqN_ne z b mv p _ _ (by rw [h4]; omega) (by rw [h2]; omega)]
    exact hcq hking h4 h2 hrr
  rw [mm_C_D z _ mv p (sqN_occupied_lt b _ _ p hp).1 hck' hcq']
  rw [mm_B_D z _ mv p (sqN_occupied_lt b _ _ p hp).1 htc]
  rw [mm_A_en_passant, mm_A_D z b mv p hp htr htc]
  rw [hinv]
  unfold calculate_hash update_castling
  dsimp only
  by_cases hac : b.active_color = Color.Black
  · rw [if_pos hac, if_pos hac]
    simp only [Nat.xor_assoc, Nat.xor_comm, xor_left_comm, Nat.xor_self,
      Nat.xor_zero, Nat.zero_xor, xor_cancel_left]
  · rw [if_neg hac, if_neg hac]
    simp only [Nat.xor_assoc, Nat.xor_comm, xor_left_comm, Nat.xor_self,
      Nat.xor_zero, Nat.zero_xor, xor_cancel_left]

/-! ### Shape of generated moves

The side conditions of `make_move_hash_occ` hold for every generated
pseudo move, on boards whose en-passant square is in range and whose
side to move has no pawn on its own promotion rank (on such boards the
Rust pawn generator indexes `squares` out of bounds and panics, so no
move is generated at all and play stops there). -/

/-- The en-passant square, when set, is an actual board square (true
for every parsed FEN and preserved by `make_move`). -/
def epOK (b : ChessBoard) : Prop :=
  ∀ e, b.en_passant = some e → e.row < 8 ∧ e.col < 8

/-- No pawn of the side to move stands on its promotion rank; on a
board violating this the Rust move generator panics. -/
def backRankOK (b : ChessBoard) : Prop :=
  ∀ c, c < 8 →
    (b.active_color = Color.White →
      sqN b 7 c ≠ Square.Occupied ⟨Color.White, PieceType.Pawn⟩) ∧
    (b.active_color = Color.Black →
      sqN b 0 c ≠ Square.Occupied ⟨Color.Black, PieceType.Pawn⟩)

instance backRankOK_decidable (b : ChessBoard) : Decidable (backRankOK b) := by
  unfold backRankOK
  infer_instance

theorem sqI_occupied_lt (b : ChessBoard) (r c : Int) (q : Piece)
    (h : sqI b r c = Square.Occupied q) : 0 ≤ r ∧ r < 8 ∧ 0 ≤ c ∧ c < 8 := by
  unfold sqI at h
  by_cases hrc : 0 ≤ r ∧ 0 ≤ c
  · rw [if_pos hrc] at h
    have := sqN_occupied_lt b r.toNat c.toNat q h
    omega
  · rw [if_neg hrc] at h
    cases h

theorem shape_dirs (b : ChessBoard) (row col : Nat) (dirs : List (Int × Int))
    (s : Int) (m : Move)
    (hmem : (s, m) ∈ generate_moves_from_directions b row col dirs) :
    m.fromSq = ⟨row, col⟩ ∧ m.promotion = none ∧
      ∃ d, d ∈ dirs ∧ m.toSq.row = ((row : Int) + d.1).toNat ∧
        m.toSq.col = ((col : Int) + d.2).toNat ∧
        (row : Int) + d.1 < 8 ∧ (col : Int) + d.2 < 8 := by
  unfold generate_moves_from_directions at hmem
  split at hmem
  · cases hmem
  · rw [foldr_append_eq_bind] at hmem
    obtain ⟨d, hd, hm⟩ := List.mem_flatMap.mp hmem
    try dsimp only at hm
    by_cases hrange : 0 ≤ (row : Int) + d.1 ∧ (row : Int) + d.1 < 8 ∧
        0 ≤ (col : Int) + d.2 ∧ (col : Int) + d.2 < 8
    · rw [if_pos hrange] at hm
      cases hsq : sqI b ((row : Int) + d.1) ((col : Int) + d.2) with
      | Empty =>
          rw [hsq] at hm
          try dsimp only at hm
          obtain ⟨hs, hmv⟩ := pair_mem_singleton hm
          subst hmv
          exact ⟨rfl, rfl, d, hd, rfl, rfl, hrange.2.1, hrange.2.2.2⟩
      | Occupied q =>
          rw [hsq] at hm
          try dsimp only at hm
          by_cases hcolor : q.color ≠ b.active_color
          · rw [if_pos hcolor] at hm
            obtain ⟨hs, hmv⟩ := pair_mem_singleton hm
            subst hmv
            exact ⟨rfl, rfl, d, hd, rfl, rfl, hrange.2.1, hrange.2.2.2⟩
          · rw [if_neg hcolor] at hm
            cases hm
    · rw [if_neg hrange] at hm
      cases hm

theorem shape_slideRay (b : ChessBoard) (row col : Nat) (dx dy : Int)
    (fuel : Nat) (r c : Int) (s : Int) (m : Move)
    (hmem : (s, m) ∈ slideRay b row col dx dy fuel r c) :
    m.fromSq = ⟨row, col⟩ ∧ m.promotion = none ∧
      m.toSq.row < 8 ∧ m.toSq.col < 8 := by
  induction fuel generalizing r c with
  | zero => cases hmem
  | succ n ih =>
      unfold slideRay at hmem
      try dsimp only at hmem
      by_cases hrange : 0 ≤ c + dy ∧ c + dy < 8 ∧ 0 ≤ r + dx ∧ r + dx < 8
      · rw [if_pos hrange] at hmem
        cases hsq : sqI b (r + dx) (c + dy) with
        | Empty =>
            rw [hsq] at hmem
            try dsimp only at hmem
            rcases List.mem_cons.mp hmem with heq | htail
            · have hmv : m = Move.new row col (r + dx).toNat (c + dy).toNat :=
                congrArg Prod.snd heq
              subst hmv
              refine ⟨rfl, rfl, ?_, ?_⟩ <;> dsimp only [Move.new] <;> omega
            · exact ih _ _ htail
        | Occupied q =>
            rw [hsq] at hmem
            try dsimp only at hmem
            by_cases hcolor : q.color ≠ b.active_color
            · rw [if_pos hcolor] at hmem
              obtain ⟨hs, hmv⟩ := pair_mem_singleton hmem
              subst hmv
              refine ⟨rfl, rfl, ?_, ?_⟩ <;> dsimp only [Move.new] <;> omega
            · rw [if_neg hcolor] at hmem
              cases hmem
      · rw [if_neg hrange] at hmem
        cases hmem

theorem shape_sliding (b : ChessBoard) (row col : Nat) (dirs : List (Int × Int))
    (s : Int) (m : Move)
    (hmem : (s, m) ∈ generate_sliding_moves b row col dirs) :
    m.fromSq = ⟨row, col⟩ ∧ m.promotion = none ∧
      m.toSq.row < 8 ∧ m.toSq.col < 8 := by
  unfold generate_sliding_moves at hmem
  split at hmem
  · cases hmem
  · rw [foldr_append_eq_bind] at hmem
    obtain ⟨d, _, hm⟩ := List.mem_flatMap.mp hmem
    exact shape_slideRay b row col d.1 d.2 8 _ _ s m hm

theorem shape_pawn (b : ChessBoard) (row col : Nat) (s : Int) (m : Move)
    (hmem : (s, m) ∈ generate_pawn_moves b row col)
    (hrlt : row < 8) (hclt : col < 8) (hep : epOK b)
    (hW : b.active_color = Color.White → row ≠ 7)
    (hB : b.active_color = Color.Black → row ≠ 0) :
    m.fromSq = ⟨row, col⟩ ∧ m.toSq.row < 8 ∧ m.toSq.col < 8 ∧
      (m.promotion.isSome = true → row ≠ m.toSq.row) := by
  unfold generate_pawn_moves at hmem
  cases hac : b.active_color <;> rw [hac] at hmem <;> try dsimp only at hmem
  -- White to move: forward = 1
  · have h7 : row ≠ 7 := hW hac
    rw [List.mem_append, List.mem_append] at hmem
    rcases hmem with (hfwd | hdiag) | hepm
    · by_cases hempty : sqI b ((row : Int) + 1) col = Square.Empty
      · rw [if_pos hempty] at hfwd
        rw [List.mem_append] at hfwd
        rcases hfwd with hsingle | hdouble
        · rcases capScore_pawn_add _ _ _ s m hsingle with ⟨_, pp, rfl⟩ | ⟨_, rfl⟩ <;>
            refine ⟨rfl, ?_, ?_, ?_⟩ <;>
            dsimp only [Move.new, Move.with_promotion] <;> omega
        · by_cases hrow : row = 1
          · rw [if_pos hrow] at hdouble
            by_cases hempty2 : sqI b ((row : Int) + 2 * 1) col = Square.Empty
            · rw [if_pos hempty2] at hdouble
              obtain ⟨hs, hmv⟩ := pair_mem_singleton hdouble
              subst hmv
              refine ⟨rfl, ?_, ?_, ?_⟩ <;>
                dsimp only [Move.new] <;> omega
            · rw [if_neg hempty2] at hdouble
              cases hdouble
          · rw [if_neg hrow] at hdouble
            cases hdouble
      · rw [if_neg hempty] at hfwd
        cases hfwd
    · rw [foldr_append_eq_bind] at hdiag
      obtain ⟨dx, _, hm⟩ := List.mem_flatMap.mp hdiag
      try dsimp only at hm
      by_cases hrange : 0 ≤ (col : Int) + dx ∧ (col : Int) + dx < 8
      · rw [if_pos hrange] at hm
        cases hsq : sqI b ((row : Int) + 1) ((col : Int) + dx) with
        | Empty => rw [hsq] at hm; try dsimp only at hm; cases hm
        | Occupied opp =>
            rw [hsq] at hm
            try dsimp only at hm
            have hbnd := sqI_occupied_lt b _ _ opp hsq
            by_cases hcolor : opp.color ≠ Color.White
            · rw [if_pos hcolor] at hm
              rcases capScore_pawn_add _ _ _ s m hm with ⟨_, pp, rfl⟩ | ⟨_, rfl⟩ <;>
                refine ⟨rfl, ?_, ?_, ?_⟩ <;>
                dsimp only [Move.new, Move.with_promotion] <;> omega
            · rw [if_neg hcolor] at hm
              cases hm
      · rw [if_neg hrange] at hm
        cases hm
    · cases hepv : b.en_passant with
      | none => rw [hepv] at hepm; cases hepm
      | some ep =>
          rw [hepv] at hepm
          try dsimp only at hepm
          obtain ⟨her, hec⟩ := hep ep hepv
          by_cases hcond : (row : Int) + 1 = (ep.row : Int) ∧
              ((col : Int) - (ep.col : Int)).natAbs = 1
          · rw [if_pos hcond] at hepm
            obtain ⟨hs, hmv⟩ := pair_mem_singleton hepm
            subst hmv
            refine ⟨rfl, ?_, ?_, ?_⟩ <;>
              dsimp only [Move.new] <;> omega
          · rw [if_neg hcond] at hepm
            cases hepm
  -- Black to move: forward = -1
  · have h0 : row ≠ 0 := hB hac
    rw [List.mem_append, List.mem_append] at hmem
    rcases hmem with (hfwd | hdiag) | hepm
    · by_cases hempty : sqI b ((row : Int) + -1) col = Square.Empty
      · rw [if_pos hempty] at hfwd
        rw [List.mem_append] at hfwd
        rcases hfwd with hsingle | hdouble
        · rcases capScore_pawn_add _ _ _ s m hsingle with ⟨_, pp, rfl⟩ | ⟨_, rfl⟩ <;>
            refine ⟨rfl, ?_, ?_, ?_⟩ <;>
            dsimp only [Move.new, Move.with_promotion] <;> omega
        · by_cases hrow : row = 6
          · rw [if_pos hrow] at hdouble
            by_cases hempty2 : sqI b ((row : Int) + 2 * -1) col = Square.Empty
            · rw [if_pos hempty2] at hdouble
              obtain ⟨hs, hmv⟩ := pair_mem_singleton hdouble
              subst hmv
              refine ⟨rfl, ?_, ?_, ?_⟩ <;>
                dsimp only [Move.new] <;> omega
            · rw [if_neg hempty2] at hdouble
              cases hdouble
          · rw [if_neg hrow] at hdouble
            cases hdouble
      · rw [if_neg hempty] at hfwd
        cases hfwd
    · rw [foldr_append_eq_bind] at hdiag
      obtain ⟨dx, _, hm⟩ := List.mem_flatMap.mp hdiag
      try dsimp only at hm
      by_cases hrange : 0 ≤ (col : Int) + dx ∧ (col : Int) + dx < 8
      · rw [if_pos hrange] at hm
        cases hsq : sqI b ((row : Int) + -1) ((col : Int) + dx) with
        | Empty => rw [hsq] at hm; try dsimp only at hm; cases hm
        | Occupied opp =>
            rw [hsq] at hm
            try dsimp only at hm
            have hbnd := sqI_occupied_lt b _ _ opp hsq
            by_cases hcolor : opp.color ≠ Color.Black
            · rw [if_pos hcolor] at hm
              rcases capScore_pawn_add _ _ _ s m hm with ⟨_, pp, rfl⟩ | ⟨_, rfl⟩ <;>
                refine ⟨rfl, ?_, ?_, ?_⟩ <;>
                dsimp only [Move.new, Move.with_promotion] <;> omega
            · rw [if_neg hcolor] at hm
              cases hm
      · rw [if_neg hrange] at hm
        cases hm
    · cases hepv : b.en_passant with
      | none => rw [hepv] at hepm; cases hepm
      | some ep =>
          rw [hepv] at hepm
          try dsimp only at hepm
          obtain ⟨her, hec⟩ := hep ep hepv
          by_cases hcond : (row : Int) + -1 = (ep.row : Int) ∧
              ((col : Int) - (ep.col : Int)).natAbs = 1
          · rw [if_pos hcond] at hepm
            obtain ⟨hs, hmv⟩ := pair_mem_singleton hepm
            subst hmv
            refine ⟨rfl, ?_, ?_, ?_⟩ <;>
              dsimp only [Move.new] <;> omega
          · rw [if_neg hcond] at hepm
            cases hepm

theorem shape_king (b : ChessBoard) (row col : Nat) (s : Int) (m : Move)
    (hmem : (s, m) ∈ generate_king_moves b row col) (hrlt : row < 8) :
    m.fromSq = ⟨row, col⟩ ∧ m.promotion = none ∧ m.toSq.row < 8 ∧ m.toSq.col < 8 ∧
      (col = 4 → m.toSq.col = 6 → m.toSq.row = row → sqN b row 5 = Square.Empty) ∧
      (col = 4 → m.toSq.col = 2 → m.toSq.row = row → sqN b row 3 = Square.Empty) := by
  have hstep : (s, m) ∈ generate_moves_from_directions b row col KING_MOVES →
      m.fromSq = ⟨row, col⟩ ∧ m.promotion = none ∧
        m.toSq.row < 8 ∧ m.toSq.col < 8 ∧
        (col = 4 → m.toSq.col = 6 → m.toSq.row = row → sqN b row 5 = Square.Empty) ∧
        (col = 4 → m.toSq.col = 2 → m.toSq.row = row → sqN b row 3 = Square.Empty) := by
    intro hm
    obtain ⟨hfrom, hpromo, d, hd, hr, hc, hbr2, hbc2⟩ :=
      shape_dirs b row col KING_MOVES s m hm
    refine ⟨hfrom, hpromo, by rw [hr]; omega, by rw [hc]; omega, ?_, ?_⟩
    · intro h4 h6 _
      exfalso
      subst h4
      rw [hc] at h6
      simp only [KING_MOVES, List.mem_cons, List.not_mem_nil, or_false] at hd
      rcases hd with rfl | rfl | rfl | rfl | rfl | rfl | rfl | rfl <;> omega
    · intro h4 h2 _
      exfalso
      subst h4
      rw [hc] at h2
      simp only [KING_MOVES, List.mem_cons, List.not_mem_nil, or_false] at hd
      rcases hd with rfl | rfl | rfl | rfl | rfl | rfl | rfl | rfl <;> omega
  unfold generate_king_moves at hmem
  try dsimp only at hmem
  split at hmem
  · rename_i hcr
    rw [List.mem_append, List.mem_append] at hmem
    rcases hmem with (hm | hks) | hqs
    · exact hstep hm
    · by_cases hcond : b.castling_rights
            (if b.active_color = Color.White then 0 else 2) = true
          ∧ sqN b row 5 = Square.Empty
          ∧ sqN b row 6 = Square.Empty
          ∧ ¬ is_square_attacked b row 4 = true
          ∧ ¬ is_square_attacked b row 5 = true
          ∧ ¬ is_square_attacked b row 6 = true
      · rw [if_pos hcond] at hks
        obtain ⟨hs, hmv⟩ := pair_mem_singleton hks
        subst hmv
        refine ⟨?_, rfl, ?_, ?_, ?_, ?_⟩
        · rw [hcr.2]; rfl
        · dsimp only [Move.new]; omega
        · dsimp only [Move.new]; omega
        · intro _ _ _
          exact hcond.2.1
        · intro _ h2 _
          dsimp only [Move.new] at h2
          omega
      · rw [if_neg hcond] at hks
        cases hks
    · by_cases hcond : b.castling_rights
            (if b.active_color = Color.White then 1 else 3) = true
          ∧ sqN b row 3 = Square.Empty
          ∧ sqN b row 2 = Square.Empty
          ∧ sqN b row 1 = Square.Empty
          ∧ ¬ is_square_attacked b row 4 = true
          ∧ ¬ is_square_attacked b row 3 = true
          ∧ ¬ is_square_attacked b row 2 = true
      · rw [if_pos hcond] at hqs
        obtain ⟨hs, hmv⟩ := pair_mem_singleton hqs
        subst hmv
        refine ⟨?_, rfl, ?_, ?_, ?_, ?_⟩
        · rw [hcr.2]; rfl
        · dsimp only [Move.new]; omega
        · dsimp only [Move.new]; omega
        · intro _ h6 _
          dsimp only [Move.new] at h6
          omega
        · intro _ _ _
          exact hcond.2.1
      · rw [if_neg hcond] at hqs
        cases hqs
  · exact hstep hmem

theorem shape_from_position (b : ChessBoard) (row col : Nat) (s : Int) (m : Move)
    (hmem : (s, m) ∈ generate_pseudo_moves_from_position b row col)
    (hep : epOK b) (hbr : backRankOK b) :
    ∃ p, sqN b row col = Square.Occupied p ∧ p.color = b.active_color ∧
      m.fromSq = ⟨row, col⟩ ∧ m.toSq.row < 8 ∧ m.toSq.col < 8 ∧
      (m.promotion.isSome = true → row ≠ m.toSq.row) ∧
      (p.kind = PieceType.King → col = 4 → m.toSq.col = 6 → m.toSq.row = row →
        sqN b row 5 = Square.Empty) ∧
      (p.kind = PieceType.King → col = 4 → m.toSq.col = 2 → m.toSq.row = row →
        sqN b row 3 = Square.Empty) := by
  unfold generate_pseudo_moves_from_position at hmem
  cases hpa : sqN b row col with
  | Empty => rw [hpa] at hmem; cases hmem
  | Occupied piece =>
      rw [hpa] at hmem
      try dsimp only at hmem
      obtain ⟨hrlt, hclt⟩ := sqN_occupied_lt b row col piece hpa
      by_cases hcol : piece.color = b.active_color
      · rw [if_pos hcol] at hmem
        refine ⟨piece, rfl, hcol, ?_⟩
        cases hk : piece.kind <;> rw [hk] at hmem <;> try dsimp only at hmem
        · -- Pawn
          have hW : b.active_color = Color.White → row ≠ 7 := by
            intro hw h7
            subst h7
            have hpiece : piece = ⟨Color.White, PieceType.Pawn⟩ := by
              obtain ⟨pc, pk⟩ := piece
              dsimp only at hcol hk
              rw [hcol, hk, hw]
            rw [hpiece] at hpa
            exact (hbr col hclt).1 hw hpa
          have hB : b.active_color = Color.Black → row ≠ 0 := by
            intro hw h0
            subst h0
            have hpiece : piece = ⟨Color.Black, PieceType.Pawn⟩ := by
              obtain ⟨pc, pk⟩ := piece
              dsimp only at hcol hk
              rw [hcol, hk, hw]
            rw [hpiece] at hpa
            exact (hbr col hclt).2 hw hpa
          obtain ⟨hfrom, htr, htc, hpr⟩ :=
            shape_pawn b row col s m hmem hrlt hclt hep hW hB
          refine ⟨hfrom, htr, htc, hpr, ?_, ?_⟩ <;>
            (intro hkk; cases hkk)
        · -- Knight
          obtain ⟨hfrom, hpromo, d, hd, hr, hc, hbr2, hbc2⟩ :=
            shape_dirs b row col KNIGHT_MOVES s m hmem
          refine ⟨hfrom, by rw [hr]; omega, by rw [hc]; omega, ?_, ?_, ?_⟩
          · rw [hpromo]
            intro hps
            simp at hps
          · intro hkk; cases hkk
          · intro hkk; cases hkk
        · -- Bishop
          obtain ⟨hfrom, hpromo, htr, htc⟩ :=
            shape_sliding b row col BISHOP_DIRECTIONS s m hmem
          refine ⟨hfrom, htr, htc, ?_, ?_, ?_⟩
          · rw [hpromo]
            intro hps
            simp at hps
          · intro hkk; cases hkk
          · intro hkk; cases hkk
        · -- Rook
          obtain ⟨hfrom, hpromo, htr, htc⟩ :=
            shape_sliding b row col ROOK_DIRECTIONS s m hmem
          refine ⟨hfrom, htr, htc, ?_, ?_, ?_⟩
          · rw [hpromo]
            intro hps
            simp at hps
          · intro hkk; cases hkk
          · intro hkk; cases hkk
        · -- Queen
          obtain ⟨hfrom, hpromo, htr, htc⟩ :=
            shape_sliding b row col QUEEN_DIRECTIONS s m hmem
          refine ⟨hfrom, htr, htc, ?_, ?_, ?_⟩
          · rw [hpromo]
            intro hps
            simp at hps
          · intro hkk; cases hkk
          · intro hkk; cases hkk
        · -- King
          obtain ⟨hfrom, hpromo, htr, htc, hk6, hk2⟩ :=
            shape_king b row col s m hmem hrlt
          refine ⟨hfrom, htr, htc, ?_, ?_, ?_⟩
          · rw [hpromo]
            intro hps
            simp at hps
          · intro _ h4 h6 hrr
            exact hk6 h4 h6 hrr
          · intro _ h4 h2 hrr
            exact hk2 h4 h2 hrr
      · rw [if_neg hcol] at hmem
        cases hmem

theorem shape_pseudo (b : ChessBoard) (s : Int) (m : Move)
    (hmem : (s, m) ∈ generate_pseudo_moves b) (hep : epOK b) (hbr : backRankOK b) :
    ∃ p, sqN b m.fromSq.row m.fromSq.col = Square.Occupied p ∧
      p.color = b.active_color ∧ m.toSq.row < 8 ∧ m.toSq.col < 8 ∧
      (m.promotion.isSome = true → m.fromSq.row ≠ m.toSq.row) ∧
      (p.kind = PieceType.King → m.fromSq.col = 4 → m.toSq.col = 6 →
        m.fromSq.row = m.toSq.row → sqN b m.fromSq.row 5 = Square.Empty) ∧
      (p.kind = PieceType.King → m.fromSq.col = 4 → m.toSq.col = 2 →
        m.fromSq.row = m.toSq.row → sqN b m.fromSq.row 3 = Square.Empty) := by
  unfold generate_pseudo_moves at hmem
  rw [foldr_append_eq_bind] at hmem
  obtain ⟨fp, _, hm⟩ := List.mem_flatMap.mp hmem
  obtain ⟨p, hpa, hpc, hfrom, htr, htc, hpr, hck, hcq⟩ :=
    shape_from_position b fp.1.row fp.1.col s m hm hep hbr
  rw [hfrom]
  exact ⟨p, hpa, hpc, htr, htc, fun hps => hpr hps,
    fun hkk h4 h6 hrr => hck hkk h4 h6 hrr.symm,
    fun hkk h4 h2 hrr => hcq hkk h4 h2 hrr.symm⟩

/-! ### Invariants established by `ChessBoard::from_fen` -/

theorem parse_square_lt (s : List Char) (e : ChessField)
    (h : parse_square s = Except.ok e) : e.row < 8 ∧ e.col < 8 := by
  unfold parse_square at h
  rcases s with _ | ⟨f, _ | ⟨r, _ | ⟨x, rest⟩⟩⟩
  · cases h
  · cases h
  · dsimp only at h
    by_cases hcond : 'a' ≤ f ∧ f ≤ 'h' ∧ '1' ≤ r ∧ r ≤ '8'
    · rw [if_pos hcond] at h
      injection h with h2
      subst h2
      have h1 : 97 ≤ f.toNat := hcond.1
      have h2 : f.toNat ≤ 104 := hcond.2.1
      have h3 : 49 ≤ r.toNat := hcond.2.2.1
      have h4 : r.toNat ≤ 56 := hcond.2.2.2
      have e1 : ('1').toNat = 49 := rfl
      have ea : ('a').toNat = 97 := rfl
      constructor
      · show r.toNat - ('1').toNat < 8
        rw [e1]
        omega
      · show f.toNat - ('a').toNat < 8
        rw [ea]
        omega
    · rw [if_neg hcond] at h
      cases h
  · cases h

/-- Inversion for a successful parse: the en-passant field is absent or
a range-checked square. -/
theorem from_fen_ok_ep (s : List Char) (b : ChessBoard)
    (h : from_fen s = Except.ok b) : epOK b := by
  unfold from_fen from_fen_fields at h
  by_cases h6 : (splitOnChar ' ' s).length ≠ 6
  · rw [if_pos h6] at h; cases h
  · rw [if_neg h6] at h
    by_cases h8 :
        (splitOnChar '/' ((splitOnChar ' ' s).getD 0 [])).length ≠ 8
    · rw [if_pos h8] at h; cases h
    · rw [if_neg h8] at h
      cases hpb : parse_board_rows ChessBoard.new
          (splitOnChar '/' ((splitOnChar ' ' s).getD 0 [])) 0 with
      | error e => rw [hpb] at h; cases h
      | ok b1 =>
        rw [hpb] at h
        cases hpa : parse_active ((splitOnChar ' ' s).getD 1 []) with
        | error e => rw [hpa] at h; cases h
        | ok active =>
          rw [hpa] at h
          cases hpe : parse_ep ((splitOnChar ' ' s).getD 3 []) with
          | error e => rw [hpe] at h; cases h
          | ok ep =>
            rw [hpe] at h
            cases hp4 : parse_u8 ((splitOnChar ' ' s).getD 4 []) with
            | none => rw [hp4] at h; cases h
            | some hm =>
              rw [hp4] at h
              cases hp5 : parse_u8 ((splitOnChar ' ' s).getD 5 []) with
              | none => rw [hp5] at h; cases h
              | some fm =>
                rw [hp5] at h
                cases h
                intro e he
                dsimp only at he
                unfold parse_ep at hpe
                by_cases hdash : (splitOnChar ' ' s).getD 3 [] = ['-']
                · rw [if_pos hdash] at hpe
                  injection hpe with hpe2
                  rw [← hpe2] at he
                  cases he
                · rw [if_neg hdash] at hpe
                  cases hps : parse_square ((splitOnChar ' ' s).getD 3 []) with
                  | error er =>
                      rw [hps] at hpe
                      simp only [Except.map] at hpe
                      cases hpe
                  | ok sq =>
                      rw [hps] at hpe
                      simp only [Except.map] at hpe
                      injection hpe with hpe2
                      rw [← hpe2] at he
                      injection he with he2
                      rw [← he2]
                      exact parse_square_lt _ sq hps

/-- `ChessBoard::from_fen` stores `calculate_hash` of the parsed board
(the subsequent piece-list fills do not touch the hashed fields). -/
theorem ChessBoard_from_fen_hash (z : ZobristKeys) (s : List Char) (b : ChessBoard)
    (h : ChessBoard.from_fen z s = Except.ok b) : b.hash = calculate_hash z b := by
  unfold ChessBoard.from_fen at h
  cases hres : Chic.from_fen s with
  | error e =>
      rw [hres] at h
      simp only [Except.map] at h
      cases h
  | ok b0 =>
      rw [hres] at h
      simp only [Except.map] at h
      injection h with h2
      subst h2
      rfl

theorem ChessBoard_from_fen_epOK (z : ZobristKeys) (s : List Char) (b : ChessBoard)
    (h : ChessBoard.from_fen z s = Except.ok b) : epOK b := by
  unfold ChessBoard.from_fen at h
  cases hres : Chic.from_fen s with
  | error e =>
      rw [hres] at h
      simp only [Except.map] at h
      cases h
  | ok b0 =>
      rw [hres] at h
      simp only [Except.map] at h
      injection h with h2
      subst h2
      intro e he
      exact from_fen_ok_ep s b0 hres e he

/-- `make_move` always leaves a valid en-passant square. -/
theorem make_move_epOK (z : ZobristKeys) (b : ChessBoard) (mv : Move) :
    epOK (make_move z b mv) := by
  cases hp : sqN b mv.fromSq.row mv.fromSq.col with
  | Empty =>
      rw [make_move_empty_eq z b mv hp]
      intro e he
      rw [make_move_tail_en_passant] at he
      cases he
  | Occupied p =>
      obtain ⟨hfr, hfc⟩ := sqN_occupied_lt b _ _ p hp
      rw [make_move_occ_eq z b mv p hp]
      intro e he
      rw [make_move_tail_en_passant] at he
      rcases mm_pawn_ep_cases z (mm_C z (mm_B z (mm_A z b mv p) mv p) mv p).1
          (mm_C z (mm_B z (mm_A z b mv p) mv p) mv p).2 mv p with hc | hc | hc
      · rw [hc, mm_C_en_passant, mm_B_en_passant] at he
        cases he
      · rw [hc] at he
        injection he with h2
        rw [← h2]
        exact ⟨by show (2 : Nat) < 8; omega, hfc⟩
      · rw [hc] at he
        injection he with h2
        rw [← h2]
        exact ⟨by show (5 : Nat) < 8; omega, hfc⟩

/-- Boards reachable from a successfully parsed FEN by legal moves.
Each step carries `backRankOK`: on a board with a pawn of the side to
move on its own promotion rank the Rust move generator indexes
`squares` out of bounds and panics, so no move list is produced and no
further position is reached from it. -/
inductive Reachable (z : ZobristKeys) : ChessBoard → Prop where
  | fen (s : List Char) (b : ChessBoard)
      (h : ChessBoard.from_fen z s = Except.ok b) : Reachable z b
  | step (b : ChessBoard) (mv : Move) (hb : Reachable z b) (hok : backRankOK b)
      (hmv : mv ∈ generate_legal_moves z b none) : Reachable z (make_move z b mv)

/-- Every reachable board carries a hash equal to `calculate_hash` and
a valid en-passant square. -/
theorem reachable_invariant (z : ZobristKeys) (b : ChessBoard)
    (h : Reachable z b) : b.hash = calculate_hash z b ∧ epOK b := by
  induction h with
  | fen s b hfen =>
      exact ⟨ChessBoard_from_fen_hash z s b hfen, ChessBoard_from_fen_epOK z s b hfen⟩
  | step b mv hreach hok hmv ih =>
      refine ⟨?_, make_move_epOK z b mv⟩
      obtain ⟨sc, hmem, _⟩ := mem_legal_elim z b none mv hmv
      obtain ⟨p, hp, _, htr, htc, hprow, hck, hcq⟩ :=
        shape_pseudo b sc mv hmem ih.2 hok
      exact make_move_hash_occ z b mv p hp ih.1 htr htc hprow hck hcq

/-- C2: on every board reachable from a successfully parsed FEN by
legal moves (through positions where the move generator returns, i.e.
no pawn of the side to move on its promotion rank), applying any legal
move produces a board whose incrementally maintained `hash` equals
`calculate_hash` of that board. -/
theorem claim_C2 (z : ZobristKeys) (b : ChessBoard) (mv : Move)
    (hreach : Reachable z b) (hok : backRankOK b)
    (hmv : mv ∈ generate_legal_moves z b none) :
    (make_move z b mv).hash = calculate_hash z (make_move z b mv) := by
  obtain ⟨hinv, hep⟩ := reachable_invariant z b hreach
  obtain ⟨sc, hmem, _⟩ := mem_legal_elim z b none mv hmv
  obtain ⟨p, hp, _, htr, htc, hprow, hck, hcq⟩ := shape_pseudo b sc mv hmem hep hok
  exact make_move_hash_occ z b mv p hp hinv htr htc hprow hck hcq

/-- A concrete nontrivial keyset for the C2 witness. -/
def c2_keys : ZobristKeys where
  pieceKeys := fun c k i =>
    (match c with | Color.White => 1 | Color.Black => 2) * 1000003 +
      (get_piece_type_index k + 1) * 4099 + i * 7
  sideToMoveKey := 123457
  castlingKeys := fun i => 771 + 31 * i.val
  enPassantKeys := fun c => 555 + 17 * c

def c2_fen : List Char := ("k7/8/8/8/8/8/8/R3K3 w Q - 0 1").data

def c2_board : ChessBoard := boardOfFen c2_keys c2_fen

def c2_move : Move := Move.new 0 4 0 2

theorem claim_C2_witness :
    (make_move c2_keys c2_board c2_move).hash =
      calculate_hash c2_keys (make_move c2_keys c2_board c2_move) :=
  claim_C2 c2_keys c2_board c2_move
    (Reachable.fen c2_fen c2_board (by rfl))
    (by decide) (by decide)

/-! ## C6: the FEN round trip -/

theorem digitChar_toNat (n : Nat) (h : n < 10) : (digitChar n).toNat = 48 + n := by
  interval_cases n <;> decide

theorem digitChar_isDigit (n : Nat) (h : n < 10) : (digitChar n).isDigit = true := by
  interval_cases n <;> decide

theorem decimalValue_append_digit (l : List Char) (c : Char) :
    decimalValue (l ++ [c]) = decimalValue l * 10 + (c.toNat - ('0').toNat) := by
  unfold decimalValue
  rw [List.foldl_append]
  rfl

theorem natToDecAux_congr : ∀ (f1 n : Nat), n < f1 → ∀ f2, n < f2 →
    natToDecAux f1 n = natToDecAux f2 n := by
  intro f1
  induction f1 with
  | zero => intro n hn; omega
  | succ f ihf =>
      intro n hn f2 hn2
      cases f2 with
      | zero => omega
      | succ g =>
          show (if n < 10 then [digitChar n]
              else natToDecAux f (n / 10) ++ [digitChar (n % 10)]) =
            (if n < 10 then [digitChar n]
              else natToDecAux g (n / 10) ++ [digitChar (n % 10)])
          by_cases h : n < 10
          · rw [if_pos h, if_pos h]
          · rw [if_neg h, if_neg h, ihf (n / 10) (by omega) g (by omega)]

/-- The recursion equation of `natToDec`. -/
theorem natToDec_eq (n : Nat) : natToDec n =
    if n < 10 then [digitChar n]
    else natToDec (n / 10) ++ [digitChar (n % 10)] := by
  show natToDecAux (n + 1) n = _
  by_cases h : n < 10
  · rw [if_pos h]
    show (if n < 10 then _ else _) = _
    rw [if_pos h]
  · rw [if_neg h]
    show (if n < 10 then _ else natToDecAux n (n / 10) ++ [digitChar (n % 10)]) = _
    rw [if_neg h,
      natToDecAux_congr n (n / 10) (by omega) (n / 10 + 1) (by omega)]
    rfl

theorem decimalValue_natToDec (n : Nat) : decimalValue (natToDec n) = n := by
  induction n using Nat.strong_induction_on with
  | _ n ih =>
    rw [natToDec_eq]
    by_cases h : n < 10
    · rw [if_pos h]
      show decimalValue [digitChar n] = n
      unfold decimalValue
      simp [digitChar_toNat n h]
    · rw [if_neg h]
      rw [decimalValue_append_digit, ih (n / 10) (Nat.div_lt_self (by omega) (by omega)),
        digitChar_toNat (n % 10) (Nat.mod_lt _ (by omega)),
        show ('0').toNat = 48 from rfl]
      omega

theorem natToDec_all_digits (n : Nat) : (natToDec n).all Char.isDigit = true := by
  induction n using Nat.strong_induction_on with
  | _ n ih =>
    rw [natToDec_eq]
    by_cases h : n < 10
    · rw [if_pos h]
      simp [digitChar_isDigit n h]
    · rw [if_neg h]
      rw [List.all_append]
      have h1 := ih (n / 10) (Nat.div_lt_self (by omega) (by omega))
      have h2 := digitChar_isDigit (n % 10) (Nat.mod_lt _ (by omega))
      simp [h1, h2]

theorem natToDec_ne_nil (n : Nat) : natToDec n ≠ [] := by
  rw [natToDec_eq]
  split
  · simp
  · simp

/-- `to_string` followed by `parse::<u8>` is the identity below 256. -/
theorem parse_u8_natToDec (n : Nat) (h : n ≤ 255) :
    parse_u8 (natToDec n) = some n := by
  unfold parse_u8
  rw [stripPlus_of_digits _ (natToDec_all_digits n)]
  have hempty : (natToDec n).isEmpty = false := by
    cases hnd : natToDec n with
    | nil => exact absurd hnd (natToDec_ne_nil n)
    | cons c t => rfl
  simp [hempty, natToDec_all_digits n, decimalValue_natToDec n, h]

theorem isDigit_ne_sep (c : Char) (h : c.isDigit = true) : c ≠ ' ' ∧ c ≠ '/' := by
  constructor <;> (rintro rfl; simp [Char.isDigit] at h)

/-! ### Splitting the joined FEN fields -/

theorem splitOnChar_ne_nil (sep : Char) (l : List Char) : splitOnChar sep l ≠ [] := by
  cases l with
  | nil => simp [splitOnChar]
  | cons c rest =>
      unfold splitOnChar
      cases hres : splitOnChar sep rest with
      | nil => simp
      | cons h t =>
          dsimp only
          split <;> simp

theorem splitOnChar_no_sep (sep : Char) (l : List Char) (h : sep ∉ l) :
    splitOnChar sep l = [l] := by
  induction l with
  | nil => rfl
  | cons c rest ih =>
      have hc : ¬ c = sep := fun heq => h (heq ▸ List.mem_cons_self c rest)
      have hrest : sep ∉ rest := fun hm => h (List.mem_cons_of_mem c hm)
      unfold splitOnChar
      rw [ih hrest]
      dsimp only
      rw [if_neg hc]

theorem splitOnChar_append (sep : Char) (A rest : List Char) (h : sep ∉ A) :
    splitOnChar sep (A ++ sep :: rest) = A :: splitOnChar sep rest := by
  induction A with
  | nil =>
      show (match splitOnChar sep rest with
        | [] => [[sep]]
        | h :: t => if sep = sep then [] :: h :: t else (sep :: h) :: t) =
          [] :: splitOnChar sep rest
      cases hres : splitOnChar sep rest with
      | nil => exact absurd hres (splitOnChar_ne_nil sep rest)
      | cons h1 t =>
          dsimp only
          rw [if_pos rfl]
  | cons c A ih =>
      have hc : ¬ c = sep := fun heq => h (heq ▸ List.mem_cons_self c _)
      have hA : sep ∉ A := fun hm => h (List.mem_cons_of_mem c hm)
      show (match splitOnChar sep (A ++ sep :: rest) with
        | [] => [[c]]
        | h :: t => if c = sep then [] :: h :: t else (c :: h) :: t) =
          (c :: A) :: splitOnChar sep rest
      rw [ih hA]
      dsimp only
      rw [if_neg hc]

theorem mem_joinChar (sep : Char) (parts : List (List Char)) (c : Char)
    (h : c ∈ joinChar sep parts) : c = sep ∨ ∃ p ∈ parts, c ∈ p := by
  induction parts with
  | nil => cases h
  | cons p t ih =>
      cases t with
      | nil =>
          refine Or.inr ⟨p, List.mem_cons_self p [], ?_⟩
          exact h
      | cons q t2 =>
          rw [show joinChar sep (p :: q :: t2) = p ++ sep :: joinChar sep (q :: t2)
            from rfl, List.mem_append] at h
          rcases h with hp | hs
          · exact Or.inr ⟨p, List.mem_cons_self p _, hp⟩
          · rcases List.mem_cons.mp hs with rfl | hj
            · exact Or.inl rfl
            · rcases ih hj with hsep | ⟨p2, hp2, hc2⟩
              · exact Or.inl hsep
              · exact Or.inr ⟨p2, List.mem_cons_of_mem p hp2, hc2⟩

theorem splitOnChar_joinChar (sep : Char) (parts : List (List Char))
    (hne : parts ≠ []) (h : ∀ p ∈ parts, sep ∉ p) :
    splitOnChar sep (joinChar sep parts) = parts := by
  induction parts with
  | nil => exact absurd rfl hne
  | cons p t ih =>
      cases t with
      | nil =>
          show splitOnChar sep p = [p]
          exact splitOnChar_no_sep sep p (h p (List.mem_cons_self p []))
      | cons q t2 =>
          show splitOnChar sep (p ++ sep :: joinChar sep (q :: t2)) = p :: q :: t2
          rw [splitOnChar_append sep p _ (h p (List.mem_cons_self p _)),
            ih (by simp) (fun p2 hp2 => h p2 (List.mem_cons_of_mem p hp2))]

/-! ### Characters of the emitted placement field -/

theorem to_char_facts (p : Piece) :
    Piece.to_char p ≠ ' ' ∧ Piece.to_char p ≠ '/' ∧
    (Piece.to_char p).isDigit = false ∧ charPiece (Piece.to_char p) = some p := by
  obtain ⟨pc, pk⟩ := p
  cases pc <;> cases pk <;> exact ⟨by decide, by decide, by decide, by decide⟩

theorem mem_encRowAux (l : List Square) (k : Nat) (c : Char)
    (hc : c ∈ encRowAux l k) (hk : k + l.length ≤ 8) : c ≠ ' ' ∧ c ≠ '/' := by
  induction l generalizing k with
  | nil =>
      cases k with
      | zero => cases hc
      | succ k2 =>
          rw [show encRowAux [] (k2 + 1) = [digitChar (k2 + 1)] from rfl] at hc
          rcases List.mem_singleton.mp hc with rfl
          have hd : (digitChar (k2 + 1)).isDigit = true := by
            apply digitChar_isDigit
            simp at hk
            omega
          exact isDigit_ne_sep _ hd
  | cons sq rest ih =>
      cases sq with
      | Empty =>
          rw [show encRowAux (Square.Empty :: rest) k = encRowAux rest (k + 1) from rfl] at hc
          refine ih (k + 1) hc ?_
          simp at hk ⊢
          omega
      | Occupied p =>
          cases k with
          | zero =>
              rw [show encRowAux (Square.Occupied p :: rest) 0 =
                p.to_char :: encRowAux rest 0 from rfl] at hc
              rcases List.mem_cons.mp hc with rfl | hmem
              · exact ⟨(to_char_facts p).1, (to_char_facts p).2.1⟩
              · refine ih 0 hmem ?_
                simp at hk ⊢
                omega
          | succ k2 =>
              rw [show encRowAux (Square.Occupied p :: rest) (k2 + 1) =
                digitChar (k2 + 1) :: p.to_char :: encRowAux rest 0 from rfl] at hc
              rcases List.mem_cons.mp hc with rfl | hc2
              · have hd : (digitChar (k2 + 1)).isDigit = true := by
                  apply digitChar_isDigit
                  simp at hk
                  omega
                exact isDigit_ne_sep _ hd
              · rcases List.mem_cons.mp hc2 with rfl | hmem
                · exact ⟨(to_char_facts p).1, (to_char_facts p).2.1⟩
                · refine ih 0 hmem ?_
                  simp at hk ⊢
                  omega

theorem sqN_new (r c : Nat) : sqN ChessBoard.new r c = Square.Empty := by
  unfold sqN ChessBoard.new
  split <;> rfl

/-- Parsing one emitted rank rewrites exactly that rank of the target
board: `encRowAux l k` stands for `k` empty squares followed by the
squares `l`, starting at column `col` of rank `r` of `b`. -/
theorem parse_row_enc (b : ChessBoard) (r : Nat) (hr : r < 8) :
    ∀ (l : List Square) (k col : Nat) (b0 : ChessBoard),
      col + k + l.length = 8 →
      (∀ i, i < l.length → l.getD i Square.Empty = sqN b r (col + k + i)) →
      (∀ i, i < k → sqN b r (col + i) = Square.Empty) →
      (∀ c', col ≤ c' → c' < 8 → sqN b0 r c' = Square.Empty) →
      ∃ bF, parse_row b0 (7 - r) (encRowAux l k) col = Except.ok bF ∧
        (∀ c', c' < 8 →
          sqN bF r c' = if col ≤ c' then sqN b r c' else sqN b0 r c') ∧
        (∀ j c', j ≠ r → sqN bF j c' = sqN b0 j c') := by
  intro l
  induction l with
  | nil =>
      intro k col b0 hlen hmatch hrun hb0
      simp only [List.length_nil] at hlen
      cases k with
      | zero =>
          refine ⟨b0, ?_, ?_, ?_⟩
          · show parse_row b0 (7 - r) [] col = Except.ok b0
            unfold parse_row
            rw [if_neg (by omega)]
          · intro c' hc'
            rw [if_neg (by omega)]
          · intro j c' hj
            rfl
      | succ k2 =>
          refine ⟨b0, ?_, ?_, ?_⟩
          · show parse_row b0 (7 - r) [digitChar (k2 + 1)] col = Except.ok b0
            unfold parse_row
            rw [if_neg (by omega : ¬ col > 7),
              if_pos (digitChar_isDigit (k2 + 1) (by omega)),
              show (digitChar (k2 + 1)).toNat - ('0').toNat = k2 + 1 from by
                rw [digitChar_toNat (k2 + 1) (by omega),
                  show ('0').toNat = 48 from rfl]
                omega]
            unfold parse_row
            rw [if_neg (by omega : ¬ col + (k2 + 1) > 8)]
          · intro c' hc'
            by_cases hcle : col ≤ c'
            · rw [if_pos hcle, hb0 c' hcle hc']
              have h2 := hrun (c' - col) (by omega)
              rw [show col + (c' - col) = c' from by omega] at h2
              rw [h2]
            · rw [if_neg hcle]
          · intro j c' hj
            rfl
  | cons sq rest ih =>
      intro k col b0 hlen hmatch hrun hb0
      simp only [List.length_cons] at hlen
      cases sq with
      | Empty =>
          have hres := ih (k + 1) col b0 (by omega)
            (fun i hi => by
              have := hmatch (i + 1) (by simpa using Nat.succ_lt_succ hi)
              rw [List.getD_cons_succ] at this
              rw [show col + (k + 1) + i = col + k + (i + 1) from by omega]
              exact this)
            (fun i hi => by
              by_cases hik : i < k
              · exact hrun i hik
              · have hik2 : i = k := by omega
                subst hik2
                have := hmatch 0 (by simp)
                rw [List.getD_cons_zero, Nat.add_zero] at this
                exact this.symm)
            hb0
          exact hres
      | Occupied p =>
          cases k with
          | zero =>
              rw [show encRowAux (Square.Occupied p :: rest) 0 =
                p.to_char :: encRowAux rest 0 from rfl]
              obtain ⟨bF, hparse, hrank, hother⟩ :=
                ih 0 (col + 1) (setSqN b0 r col (Square.Occupied p)) (by omega)
                  (fun i hi => by
                    have := hmatch (i + 1) (by simpa using Nat.succ_lt_succ hi)
                    rw [List.getD_cons_succ] at this
                    rw [show col + 1 + 0 + i = col + 0 + (i + 1) from by omega]
                    exact this)
                  (fun i hi => by omega)
                  (fun c' hcle hc' => by
                    rw [sqN_setSqN_ne _ _ _ _ _ _ (by omega)]
                    exact hb0 c' (by omega) hc')
              have hp0 : sqN b r col = Square.Occupied p := by
                have := hmatch 0 (by simp)
                rw [List.getD_cons_zero] at this
                rw [show col + 0 + 0 = col from by omega] at this
                exact this.symm
              refine ⟨bF, ?_, ?_, ?_⟩
              · show parse_row b0 (7 - r) (p.to_char :: encRowAux rest 0) col =
                  Except.ok bF
                unfold parse_row
                rw [if_neg (by omega : ¬ col > 7)]
                rw [if_neg (by rw [(to_char_facts p).2.2.1]; exact fun habs => by cases habs)]
                rw [(to_char_facts p).2.2.2]
                dsimp only
                rw [show 7 - (7 - r) = r from by omega]
                exact hparse
              · intro c' hc'
                by_cases hcle : col ≤ c'
                · rw [if_pos hcle]
                  by_cases hcs : col + 1 ≤ c'
                  · rw [hrank c' hc', if_pos hcs]
                  · have hceq : c' = col := by omega
                    subst hceq
                    rw [hrank c' hc', if_neg hcs,
                      sqN_setSqN_same _ _ _ _ hr (by omega), hp0]
                · rw [if_neg hcle, hrank c' hc', if_neg (by omega),
                    sqN_setSqN_ne _ _ _ _ _ _ (by omega)]
              · intro j c' hj
                rw [hother j c' hj, sqN_setSqN_ne _ _ _ _ _ _ (by intro hcon; exact hj hcon.1)]
          | succ k2 =>
              rw [show encRowAux (Square.Occupied p :: rest) (k2 + 1) =
                digitChar (k2 + 1) :: p.to_char :: encRowAux rest 0 from rfl]
              obtain ⟨bF, hparse, hrank, hother⟩ :=
                ih 0 (col + (k2 + 1) + 1)
                  (setSqN b0 r (col + (k2 + 1)) (Square.Occupied p)) (by omega)
                  (fun i hi => by
                    have := hmatch (i + 1) (by simpa using Nat.succ_lt_succ hi)
                    rw [List.getD_cons_succ] at this
                    rw [show col + (k2 + 1) + 1 + 0 + i = col + (k2 + 1) + (i + 1) from by omega]
                    exact this)
                  (fun i hi => by omega)
                  (fun c' hcle hc' => by
                    rw [sqN_setSqN_ne _ _ _ _ _ _ (by omega)]
                    exact hb0 c' (by omega) hc')
              have hp0 : sqN b r (col + (k2 + 1)) = Square.Occupied p := by
                have := hmatch 0 (by simp)
                rw [List.getD_cons_zero] at this
                rw [show col + (k2 + 1) + 0 = col + (k2 + 1) from by omega] at this
                exact this.symm
              refine ⟨bF, ?_, ?_, ?_⟩
              · show parse_row b0 (7 - r)
                  (digitChar (k2 + 1) :: p.to_char :: encRowAux rest 0) col =
                    Except.ok bF
                unfold parse_row
                rw [if_neg (by omega : ¬ col > 7),
                  if_pos (digitChar_isDigit (k2 + 1) (by omega)),
                  show (digitChar (k2 + 1)).toNat - ('0').toNat = k2 + 1 from by
                    rw [digitChar_toNat (k2 + 1) (by omega),
                      show ('0').toNat = 48 from rfl]
                    omega]
                unfold parse_row
                rw [if_neg (by omega : ¬ col + (k2 + 1) > 7)]
                rw [if_neg (by rw [(to_char_facts p).2.2.1]; exact fun habs => by cases habs)]
                rw [(to_char_facts p).2.2.2]
                dsimp only
                rw [show 7 - (7 - r) = r from by omega]
                exact hparse
              · intro c' hc'
                by_cases hcle : col ≤ c'
                · rw [if_pos hcle]
                  by_cases hcs : col + (k2 + 1) + 1 ≤ c'
                  · rw [hrank c' hc', if_pos hcs]
                  · by_cases hceq : c' = col + (k2 + 1)
                    · subst hceq
                      rw [hrank _ hc', if_neg (by omega),
                        sqN_setSqN_same _ _ _ _ hr (by omega), hp0]
                    · -- inside the empty run
                      rw [hrank c' hc', if_neg (by omega),
                        sqN_setSqN_ne _ _ _ _ _ _ (by omega),
                        hb0 c' hcle hc']
                      have h2 := hrun (c' - col) (by omega)
                      rw [show col + (c' - col) = c' from by omega] at h2
                      rw [h2]
                · rw [if_neg hcle, hrank c' hc', if_neg (by omega),
                    sqN_setSqN_ne _ _ _ _ _ _ (by omega)]
              · intro j c' hj
                rw [hother j c' hj, sqN_setSqN_ne _ _ _ _ _ _ (by intro hcon; exact hj hcon.1)]

theorem rankSquares_length (b : ChessBoard) (r : Nat) :
    (rankSquares b r).length = 8 := by
  simp [rankSquares]

theorem rankSquares_getD (b : ChessBoard) (r i : Nat) (hi : i < 8) :
    (rankSquares b r).getD i Square.Empty = sqN b r i := by
  unfold rankSquares
  rw [List.getD_eq_getElem?_getD, List.getElem?_map]
  simp [List.getElem?_range, hi]

/-- Parsing all emitted ranks rebuilds the full grid. -/
theorem parse_board_rows_enc (b : ChessBoard) :
    ∀ (n idx : Nat), n + idx = 8 →
      ∀ b0 : ChessBoard,
        (∀ r c, c < 8 → r < n → sqN b0 r c = Square.Empty) →
        ∃ bF, parse_board_rows b0
            (((List.range n).reverse).map fun r => encRowAux (rankSquares b r) 0) idx =
            Except.ok bF ∧
          (∀ r c, c < 8 → r < n → sqN bF r c = sqN b r c) ∧
          (∀ r c, n ≤ r → sqN bF r c = sqN b0 r c) := by
  intro n
  induction n with
  | zero =>
      intro idx hidx b0 hb0
      exact ⟨b0, rfl, fun r c hc hr => absurd hr (by omega), fun r c hr => rfl⟩
  | succ n ih =>
      intro idx hidx b0 hb0
      have hrows : ((List.range (n + 1)).reverse).map
          (fun r => encRowAux (rankSquares b r) 0) =
          encRowAux (rankSquares b n) 0 ::
            ((List.range n).reverse).map (fun r => encRowAux (rankSquares b r) 0) := by
        rw [List.range_succ, List.reverse_append]
        rfl
      rw [hrows]
      obtain ⟨b1, hp1, hrank1, hother1⟩ :=
        parse_row_enc b n (by omega) (rankSquares b n) 0 0 b0
          (by rw [rankSquares_length])
          (fun i hi => by
            rw [rankSquares_length] at hi
            rw [rankSquares_getD b n i hi, show 0 + 0 + i = i from by omega])
          (fun i hi => absurd hi (by omega))
          (fun c' _ hc' => hb0 n c' hc' (by omega))
      obtain ⟨bF, hpF, hrankF, hotherF⟩ := ih (idx + 1) (by omega) b1
        (fun r c hc hrn => by
          rw [hother1 r c (by omega)]
          exact hb0 r c hc (by omega))
      refine ⟨bF, ?_, ?_, ?_⟩
      · have hidx2 : idx = 7 - n := by omega
        subst hidx2
        show parse_board_rows b0 (encRowAux (rankSquares b n) 0 ::
          ((List.range n).reverse).map fun r => encRowAux (rankSquares b r) 0) (7 - n) =
            Except.ok bF
        unfold parse_board_rows
        rw [hp1]
        exact hpF
      · intro r c hc hrn
        by_cases hr : r < n
        · rw [hrankF r c hc hr]
        · have hreq : r = n := by omega
          subst hreq
          rw [hotherF r c (by omega), hrank1 c hc, if_pos (by omega)]
      · intro r c hrge
        rw [hotherF r c (by omega), hother1 r c (by omega)]

/-! ### Round trips of the scalar FEN fields -/

theorem parse_active_round (c : Color) :
    parse_active (if c = Color.White then ['w'] else ['b']) = Except.ok c := by
  cases c <;> rfl

theorem parse_castling_round (r : Fin 4 → Bool) :
    parse_castling
      (if ((if r 0 then ['K'] else []) ++ (if r 1 then ['Q'] else []) ++
          (if r 2 then ['k'] else []) ++ (if r 3 then ['q'] else [])).isEmpty then ['-']
        else (if r 0 then ['K'] else []) ++ (if r 1 then ['Q'] else []) ++
          (if r 2 then ['k'] else []) ++ (if r 3 then ['q'] else [])) = r := by
  funext i
  fin_cases i <;>
    by_cases h0 : r 0 <;> by_cases h1 : r 1 <;> by_cases h2 : r 2 <;> by_cases h3 : r 3 <;>
    simp_all [parse_castling]

theorem parse_ep_round (ep : Option ChessField)
    (hep : ∀ e, ep = some e → e.row < 8 ∧ e.col < 8) :
    parse_ep (match ep with
      | some sq => Char.ofNat (('a').toNat + sq.col) :: natToDec (sq.row + 1)
      | none => ['-']) = Except.ok ep := by
  cases ep with
  | none => rfl
  | some sq =>
      obtain ⟨hr, hc⟩ := hep sq rfl
      obtain ⟨r, c⟩ := sq
      dsimp only at hr hc ⊢
      interval_cases r <;> interval_cases c <;> rfl

/-! ### The clock fields stay below 256 on reachable boards -/

@[simp] theorem setSqN_fullmove (b : ChessBoard) (r c : Nat) (v : Square) :
    (setSqN b r c v).fullmove_number = b.fullmove_number := by
  unfold setSqN; split <;> rfl

@[simp] theorem clearRight_fullmove (b : ChessBoard) (i : Fin 4) :
    (clearRight b i).fullmove_number = b.fullmove_number := rfl

@[simp] theorem update_piece_position_fullmove (b : ChessBoard) (mv : Move) (p : Piece) :
    (update_piece_position b mv p).fullmove_number = b.fullmove_number := by
  unfold update_piece_position; split <;> rfl

@[simp] theorem remove_piece_from_piece_position_fullmove (b : ChessBoard)
    (f : ChessField) (p : Piece) :
    (remove_piece_from_piece_position b f p).fullmove_number = b.fullmove_number := by
  unfold remove_piece_from_piece_position; split <;> rfl

@[simp] theorem insert_piece_from_piece_position_fullmove (b : ChessBoard)
    (f : ChessField) (p : Piece) :
    (insert_piece_from_piece_position b f p).fullmove_number = b.fullmove_number := by
  unfold insert_piece_from_piece_position; split <;> rfl

@[simp] theorem mm_capture_fullmove (z : ZobristKeys) (b : ChessBoard) (h : Nat)
    (mv : Move) : (mm_capture z b h mv).1.fullmove_number = b.fullmove_number := by
  unfold mm_capture
  repeat' split
  all_goals simp

@[simp] theorem mm_ep_capture_fullmove (z : ZobristKeys) (b : ChessBoard) (h : Nat)
    (mv : Move) (p : Piece) :
    (mm_ep_capture z b h mv p).1.fullmove_number = b.fullmove_number := by
  unfold mm_ep_capture
  repeat' split
  all_goals simp

@[simp] theorem mm_castle_fullmove (z : ZobristKeys) (b : ChessBoard) (h : Nat)
    (mv : Move) (p : Piece) :
    (mm_castle z b h mv p).1.fullmove_number = b.fullmove_number := by
  unfold mm_castle
  repeat' split
  all_goals simp

@[simp] theorem mm_rights_from_fullmove (b : ChessBoard) (mv : Move) :
    (mm_rights_from b mv).fullmove_number = b.fullmove_number := by
  unfold mm_rights_from
  repeat' split
  all_goals simp

@[simp] theorem mm_rights_to_fullmove (b : ChessBoard) (mv : Move) :
    (mm_rights_to b mv).fullmove_number = b.fullmove_number := by
  unfold mm_rights_to
  repeat' split
  all_goals simp

@[simp] theorem mm_pawn_fullmove (z : ZobristKeys) (b : ChessBoard) (h : Nat)
    (mv : Move) (p : Piece) :
    (mm_pawn z b h mv p).1.fullmove_number = b.fullmove_number := by
  unfold mm_pawn
  repeat' split
  all_goals simp

theorem make_move_tail_fullmove (z : ZobristKeys) (b : ChessBoard) (h : Nat) :
    (make_move_tail z b h).fullmove_number =
      if b.active_color.opposite = Color.White then (b.fullmove_number + 1) % 256
      else b.fullmove_number := by
  unfold make_move_tail
  by_cases hc : b.active_color.opposite = Color.White <;> simp [hc]

@[simp] theorem mm_A_fullmove (z : ZobristKeys) (b : ChessBoard) (mv : Move)
    (p : Piece) : (mm_A z b mv p).1.fullmove_number = b.fullmove_number := by
  unfold mm_A
  dsimp only
  simp only [update_piece_position_fullmove, setSqN_fullmove, mm_capture_fullmove]
  split <;> rfl

@[simp] theorem mm_B_fullmove (z : ZobristKeys) (st : ChessBoard × Nat)
    (mv : Move) (p : Piece) :
    (mm_B z st mv p).1.fullmove_number = st.1.fullmove_number := by
  unfold mm_B
  dsimp only
  rw [mm_ep_capture_fullmove]

@[simp] theorem mm_C_fullmove (z : ZobristKeys) (st : ChessBoard × Nat)
    (mv : Move) (p : Piece) :
    (mm_C z st mv p).1.fullmove_number = st.1.fullmove_number := by
  unfold mm_C
  dsimp only
  rw [mm_rights_to_fullmove, mm_rights_from_fullmove, mm_castle_fullmove]

/-- Both clock fields of `make_move` stay below 256 when the input's
do (`u8` semantics). -/
theorem make_move_clocks (z : ZobristKeys) (b : ChessBoard) (mv : Move)
    (h1 : b.halfmove_clock ≤ 255) (h2 : b.fullmove_number ≤ 255) :
    (make_move z b mv).halfmove_clock ≤ 255 ∧
      (make_move z b mv).fullmove_number ≤ 255 := by
  cases hp : sqN b mv.fromSq.row mv.fromSq.col with
  | Empty =>
      rw [make_move_empty_eq z b mv hp]
      constructor
      · rw [make_move_tail_halfmove]
        exact h1
      · rw [make_move_tail_fullmove]
        split
        · omega
        · exact h2
  | Occupied p =>
      constructor
      · rw [make_move_halfmove_law z b mv p hp]
        split
        · omega
        · omega
      · rw [make_move_occ_eq z b mv p hp, make_move_tail_fullmove,
          mm_pawn_fullmove, mm_C_fullmove, mm_B_fullmove, mm_A_fullmove,
          mm_pawn_active, mm_C_active, mm_B_active, mm_A_active]
        split
        · omega
        · exact h2

theorem ChessBoard_from_fen_clocks (z : ZobristKeys) (s : List Char) (b : ChessBoard)
    (h : ChessBoard.from_fen z s = Except.ok b) :
    b.halfmove_clock ≤ 255 ∧ b.fullmove_number ≤ 255 := by
  unfold ChessBoard.from_fen at h
  cases hres : Chic.from_fen s with
  | error e =>
      rw [hres] at h
      simp only [Except.map] at h
      cases h
  | ok b0 =>
      rw [hres] at h
      simp only [Except.map] at h
      injection h with h2
      subst h2
      obtain ⟨h4, h5⟩ := from_fen_ok_clocks s b0 hres
      exact ⟨parse_u8_le_255 _ _ h4, parse_u8_le_255 _ _ h5⟩

/-- Reachable boards keep both clocks in `u8` range. -/
theorem reachable_clocks (z : ZobristKeys) (b : ChessBoard) (h : Reachable z b) :
    b.halfmove_clock ≤ 255 ∧ b.fullmove_number ≤ 255 := by
  induction h with
  | fen s b hfen => exact ChessBoard_from_fen_clocks z s b hfen
  | step b mv hreach hok hmv ih => exact make_move_clocks z b mv ih.1 ih.2

/-! ### Assembling the round trip -/

theorem squares_ext (x y : ChessBoard)
    (h : ∀ r c, r < 8 → c < 8 → sqN x r c = sqN y r c) : x.squares = y.squares := by
  funext r c
  have h2 := h r.val c.val r.isLt c.isLt
  unfold sqN at h2
  rw [dif_pos ⟨r.isLt, c.isLt⟩, dif_pos ⟨r.isLt, c.isLt⟩] at h2
  simpa using h2

theorem calculate_hash_congr (z : ZobristKeys) (x y : ChessBoard)
    (hsq : x.squares = y.squares) (hac : x.active_color = y.active_color)
    (hcr : x.castling_rights = y.castling_rights)
    (hepq : x.en_passant = y.en_passant) :
    calculate_hash z x = calculate_hash z y := by
  unfold calculate_hash
  rw [hsq, hac, hcr, hepq]

/-- Re-association of the six space-separated FEN segments. -/
theorem fen_reassoc (P A C E H F : List Char) (a b c d e : Char) :
    ((((P ++ a :: A) ++ b :: C) ++ c :: E) ++ d :: H) ++ e :: F =
      P ++ a :: (A ++ b :: (C ++ c :: (E ++ d :: (H ++ e :: F)))) := by
  simp [List.append_assoc]

/-- Core of the round trip, parameterized by the emitted en-passant
field. -/
theorem from_fen_to_fen_core (z : ZobristKeys) (b : ChessBoard) (epChars : List Char)
    (hEsp : (' ') ∉ epChars)
    (hEparse : parse_ep epChars = Except.ok b.en_passant)
    (h1 : b.halfmove_clock ≤ 255) (h2 : b.fullmove_number ≤ 255)
    (htf : to_fen b =
      (joinChar '/' (((List.range 8).reverse).map fun r => encRowAux (rankSquares b r) 0)) ++
        ' ' :: (if b.active_color = Color.White then ['w'] else ['b']) ++
        ' ' :: (if ((if b.castling_rights 0 then ['K'] else []) ++
            (if b.castling_rights 1 then ['Q'] else []) ++
            (if b.castling_rights 2 then ['k'] else []) ++
            (if b.castling_rights 3 then ['q'] else [])).isEmpty then ['-']
          else (if b.castling_rights 0 then ['K'] else []) ++
            (if b.castling_rights 1 then ['Q'] else []) ++
            (if b.castling_rights 2 then ['k'] else []) ++
            (if b.castling_rights 3 then ['q'] else [])) ++
        ' ' :: epChars ++
        ' ' :: natToDec b.halfmove_clock ++
        ' ' :: natToDec b.fullmove_number) :
    ∃ b', ChessBoard.from_fen z (to_fen b) = Except.ok b' ∧
      b'.squares = b.squares ∧ b'.active_color = b.active_color ∧
      b'.castling_rights = b.castling_rights ∧ b'.en_passant = b.en_passant ∧
      b'.halfmove_clock = b.halfmove_clock ∧
      b'.fullmove_number = b.fullmove_number ∧
      b'.hash = calculate_hash z b := by
  have hProws : ∀ p ∈ ((List.range 8).reverse).map
      (fun r => encRowAux (rankSquares b r) 0), (' ' ∉ p) ∧ ('/') ∉ p := by
    intro p hp
    rw [List.mem_map] at hp
    obtain ⟨r, _, rfl⟩ := hp
    constructor <;> intro hm
    · exact (mem_encRowAux _ _ _ hm (by simp [rankSquares_length])).1 rfl
    · exact (mem_encRowAux _ _ _ hm (by simp [rankSquares_length])).2 rfl
  have hPmem : ' ' ∉ joinChar '/'
      (((List.range 8).reverse).map fun r => encRowAux (rankSquares b r) 0) := by
    intro hm
    rcases mem_joinChar _ _ _ hm with heq | ⟨p, hp, hcp⟩
    · exact absurd heq (by decide)
    · exact (hProws p hp).1 hcp
  have hsplitrows : splitOnChar '/' (joinChar '/'
      (((List.range 8).reverse).map fun r => encRowAux (rankSquares b r) 0)) =
      ((List.range 8).reverse).map fun r => encRowAux (rankSquares b r) 0 :=
    splitOnChar_joinChar '/' _ (by simp) (fun p hp => (hProws p hp).2)
  have hA : ' ' ∉ (if b.active_color = Color.White then ['w'] else ['b']) := by
    by_cases hact : b.active_color = Color.White
    · rw [if_pos hact]; simp
    · rw [if_neg hact]; simp
  have hC : ' ' ∉ (if ((if b.castling_rights 0 then ['K'] else []) ++
      (if b.castling_rights 1 then ['Q'] else []) ++
      (if b.castling_rights 2 then ['k'] else []) ++
      (if b.castling_rights 3 then ['q'] else [])).isEmpty then ['-']
    else (if b.castling_rights 0 then ['K'] else []) ++
      (if b.castling_rights 1 then ['Q'] else []) ++
      (if b.castling_rights 2 then ['k'] else []) ++
      (if b.castling_rights 3 then ['q'] else [])) := by
    by_cases h0 : b.castling_rights 0 <;> by_cases hh1 : b.castling_rights 1 <;>
      by_cases hh2 : b.castling_rights 2 <;> by_cases hh3 : b.castling_rights 3 <;>
      simp [h0, hh1, hh2, hh3]
  have hHM : ' ' ∉ natToDec b.halfmove_clock := by
    intro hm
    have hd := List.all_eq_true.mp (natToDec_all_digits _) ' ' hm
    simp at hd
  have hFM : ' ' ∉ natToDec b.fullmove_number := by
    intro hm
    have hd := List.all_eq_true.mp (natToDec_all_digits _) ' ' hm
    simp at hd
  have hsplit : splitOnChar ' ' (to_fen b) =
      [joinChar '/' (((List.range 8).reverse).map fun r => encRowAux (rankSquares b r) 0),
       if b.active_color = Color.White then ['w'] else ['b'],
       if ((if b.castling_rights 0 then ['K'] else []) ++
          (if b.castling_rights 1 then ['Q'] else []) ++
          (if b.castling_rights 2 then ['k'] else []) ++
          (if b.castling_rights 3 then ['q'] else [])).isEmpty then ['-']
        else (if b.castling_rights 0 then ['K'] else []) ++
          (if b.castling_rights 1 then ['Q'] else []) ++
          (if b.castling_rights 2 then ['k'] else []) ++
          (if b.castling_rights 3 then ['q'] else []),
       epChars,
       natToDec b.halfmove_clock,
       natToDec b.fullmove_number] := by
    rw [htf, fen_reassoc]
    rw [splitOnChar_append _ _ _ hPmem, splitOnChar_append _ _ _ hA,
      splitOnChar_append _ _ _ hC, splitOnChar_append _ _ _ hEsp,
      splitOnChar_append _ _ _ hHM, splitOnChar_no_sep _ _ hFM]
  obtain ⟨bF, hpF, hgrid, _⟩ :=
    parse_board_rows_enc b 8 0 rfl ChessBoard.new (fun r c _ _ => sqN_new r c)
  have hsquares : bF.squares = b.squares :=
    squares_ext bF b (fun r c hr hc => hgrid r c hc hr)
  have hmid : Chic.from_fen (to_fen b) = Except.ok
      { bF with active_color := b.active_color,
                castling_rights := b.castling_rights,
                en_passant := b.en_passant,
                halfmove_clock := b.halfmove_clock,
                fullmove_number := b.fullmove_number } := by
    unfold from_fen from_fen_fields
    rw [hsplit]
    simp only [List.getD_cons_zero, List.getD_cons_succ]
    rw [if_neg (by simp)]
    rw [hsplitrows]
    rw [if_neg (by simp)]
    rw [hpF]
    dsimp only
    rw [parse_active_round b.active_color]
    dsimp only
    rw [hEparse]
    dsimp only
    rw [parse_u8_natToDec _ h1]
    dsimp only
    rw [parse_u8_natToDec _ h2]
    dsimp only
    rw [parse_castling_round b.castling_rights]
  unfold ChessBoard.from_fen
  rw [hmid]
  simp only [Except.map]
  refine ⟨_, rfl, hsquares, rfl, rfl, rfl, rfl, rfl, ?_⟩
  exact calculate_hash_congr z _ b hsquares rfl rfl rfl

/-- The FEN round trip reproduces the seven hashed/emitted fields of
any board with a valid en-passant square and `u8` clocks. -/
theorem from_fen_to_fen (z : ZobristKeys) (b : ChessBoard)
    (hep : epOK b) (h1 : b.halfmove_clock ≤ 255) (h2 : b.fullmove_number ≤ 255) :
    ∃ b', ChessBoard.from_fen z (to_fen b) = Except.ok b' ∧
      b'.squares = b.squares ∧ b'.active_color = b.active_color ∧
      b'.castling_rights = b.castling_rights ∧ b'.en_passant = b.en_passant ∧
      b'.halfmove_clock = b.halfmove_clock ∧
      b'.fullmove_number = b.fullmove_number ∧
      b'.hash = calculate_hash z b := by
  cases hepv : b.en_passant with
  | none =>
      rw [← hepv]
      refine from_fen_to_fen_core z b ['-'] (by simp) ?_ h1 h2 ?_
      · rw [hepv]
        rfl
      · unfold to_fen
        rw [hepv]
  | some sq =>
      obtain ⟨hr0, hc0⟩ := hep sq hepv
      obtain ⟨r0, c0⟩ := sq
      dsimp only at hr0 hc0
      rw [← hepv]
      refine from_fen_to_fen_core z b
        (Char.ofNat (('a').toNat + c0) :: natToDec (r0 + 1)) ?_ ?_ h1 h2 ?_
      · intro hm
        rcases List.mem_cons.mp hm with heq | hrest
        · interval_cases c0 <;> exact absurd heq (by decide)
        · have hd := List.all_eq_true.mp (natToDec_all_digits (r0 + 1)) ' ' hrest
          simp at hd
      · rw [hepv]
        interval_cases r0 <;> interval_cases c0 <;> rfl
      · unfold to_fen
        rw [hepv]

def c6_fen : List Char := ("k7/8/8/8/8/8/p7/R3K3 w Q - 0 1").data

def c6_base : ChessBoard := boardOfFen c2_keys c6_fen

def c6_move : Move := Move.new 0 0 1 0

/-- The board used to refute the literal C6 statement: the rook
capture a1xa2 applied to a parsed FEN position. -/
def c6_board : ChessBoard := make_move c2_keys c6_base c6_move

/-- C6 (counterexample to the literal statement): `c6_board` is
reachable from a parsed FEN by one legal move, yet parsing its emitted
FEN does not reproduce the exact struct — the derived equality also
compares `last_capture`, which `make_move` set to the capture square
a2 while `from_fen` leaves it at the sentinel. -/
theorem claim_C6_counterexample :
    Reachable c2_keys c6_board ∧
      ChessBoard.from_fen c2_keys (to_fen c6_board) ≠ Except.ok c6_board :=
  ⟨Reachable.step c6_base c6_move
      (Reachable.fen c6_fen c6_base (by rfl)) (by decide) (by decide),
    by decide⟩

/-- C6 (amended): for every reachable board `b`, parsing the emitted
FEN succeeds and reproduces the full chess position — the grid, the
active color, the castling rights, the en-passant square, both clocks
and the Zobrist hash — though not necessarily the internal
piece-list bookkeeping order. -/
theorem claim_C6 (z : ZobristKeys) (b : ChessBoard) (h : Reachable z b) :
    ∃ b', ChessBoard.from_fen z (to_fen b) = Except.ok b' ∧
      b'.squares = b.squares ∧ b'.active_color = b.active_color ∧
      b'.castling_rights = b.castling_rights ∧ b'.en_passant = b.en_passant ∧
      b'.halfmove_clock = b.halfmove_clock ∧
      b'.fullmove_number = b.fullmove_number ∧
      b'.hash = b.hash := by
  obtain ⟨hhash, hep⟩ := reachable_invariant z b h
  obtain ⟨h1, h2⟩ := reachable_clocks z b h
  obtain ⟨b', hparse, hsq, hac, hcr, hepq, hhm, hfm, hh⟩ :=
    from_fen_to_fen z b hep h1 h2
  exact ⟨b', hparse, hsq, hac, hcr, hepq, hhm, hfm, hh.trans hhash.symm⟩

/-! ## The alpha-beta engine (`engines/engine_alpha_beta.rs`)

The engine state that the search touches — the principal-variation
buffer, the repetition map, the node counter — is carried explicitly
in `SearchSt`.  Every clock/abort test (`Instant::now() > deadline ||
self.aborted.load(Relaxed)`, and the `start_time.elapsed() <
time_limit` test of the iterative driver) is modelled as one sample of
an abstract oracle `stop : Nat → Bool` indexed by the number of
samples taken so far (`SearchSt.t`).  Array indexing is checked:
an out-of-range access of the fixed-size PV buffer is the Rust panic,
returned as `EnginePanic.pvIndex`; the recursion carries fuel
(`EnginePanic.fuel` never occurs for real runs once the fuel exceeds
the recursion depth).  The `random` move-shuffling switch is modelled
at its deterministic setting `false`, the only value the iterative
driver uses. -/

def MAX_PLY : Nat := 20

def MIN_EVALUATION : Int := -2147483647

def WIN : Int := 10000000

def LOSS : Int := -10000000

def DRAW : Int := 0

def I32_MIN : Int := -2147483648

def PAWN_SQUARE_TABLE : List (List Int) := [
  [0, 0, 0, 0, 0, 0, 0, 0],
  [100, 100, 100, 100, 100, 100, 100, 100],
  [25, 50, 50, 50, 50, 50, 50, 25],
  [0, 0, 0, 2, 2, 0, 0, 0],
  [0, 0, 20, 25, 25, 20, 0, 0],
  [0, 0, 15, 10, 10, 15, 0, 0],
  [0, 0, 0, (-250), (-250), 0, 0, 0],
  [0, 0, 0, 0, 0, 0, 0, 0]
]

def KNIGHT_SQUARE_TABLE : List (List Int) := [
  [(-200), (-100), (-100), (-100), (-100), (-100), (-100), (-200)],
  [(-100), 0, 0, 0, 0, 0, 0, (-100)],
  [(-100), 0, 50, 50, 50, 50, 0, (-100)],
  [(-100), 0, 50, 100, 150, 50, 0, (-100)],
  [(-100), 0, 50, 100, 100, 50, 0, (-100)],
  [(-100), 0, 50, 50, 50, 50, 0, (-100)],
  [(-100), 0, 0, 0, 0, 0, 0, (-100)],
  [(-200), (-100), (-100), (-100), (-100), (-100), (-100), (-200)]
]

def BISHOP_SQUARE_TABLE : List (List Int) := [
  [(-200), (-100), (-100), (-100), (-100), (-100), (-100), (-200)],
  [(-100), 0, 0, 0, 0, 0, 0, (-100)],
  [(-100), 0, 50, 50, 50, 50, 0, (-100)],
  [(-100), 0, 50, 100, 150, 50, 0, (-100)],
  [(-100), 0, 50, 100, 100, 50, 0, (-100)],
  [(-100), 0, 50, 50, 50, 50, 0, (-100)],
  [(-100), 25, 0, 0, 0, 25, 0, (-100)],
  [(-200), (-100), (-100), (-100), (-100), (-100), (-100), (-200)]
]

def KING_SQUARE_TABLE : List (List Int) := [
  [(-100), (-100), (-100), (-100), (-100), (-100), (-100), (-100)],
  [(-100), (-100), (-100), (-100), (-100), (-100), (-100), (-100)],
  [(-100), (-100), (-100), (-100), (-100), (-100), (-100), (-100)],
  [(-100), (-100), (-100), (-100), (-100), (-100), (-100), (-100)],
  [(-100), (-100), (-100), (-100), (-100), (-100), (-100), (-100)],
  [(-100), (-100), (-100), (-100), (-100), (-100), (-100), (-100)],
  [(-50), (-50), (-50), (-50), (-50), (-500), (-50), (-50)],
  [300, 350, 400, (-50), 0, (-50), 500, 300]
]

def tableAt (t : List (List Int)) (r c : Nat) : Int := (t.getD r []).getD c 0

/-- `AlphaBetaEngine::evaluate_board`. -/
def evaluate_board (b : ChessBoard) : Int :=
  (List.range 8).foldl (fun acc row =>
    (List.range 8).foldl (fun acc col =>
      match sqN b row col with
      | Square.Occupied piece =>
          let piece_value : Int :=
            match piece.kind with
            | PieceType.Pawn => 1000
            | PieceType.Knight => 3000
            | PieceType.Bishop => 3000
            | PieceType.Rook => 5000
            | PieceType.Queen => 9000
            | PieceType.King => WIN
          let psq_row : Nat :=
            match piece.color with
            | Color.White => 7 - row
            | Color.Black => row
          let position_value : Int :=
            match piece.kind with
            | PieceType.King => tableAt KING_SQUARE_TABLE psq_row col
            | PieceType.Pawn => tableAt PAWN_SQUARE_TABLE psq_row col
            | PieceType.Knight => tableAt KNIGHT_SQUARE_TABLE psq_row col
            | PieceType.Bishop => tableAt BISHOP_SQUARE_TABLE psq_row col
            | _ => 0
          let piece_evaluation := piece_value + position_value
          acc + (match piece.color with
                 | Color.White => piece_evaluation
                 | Color.Black => -piece_evaluation)
      | Square.Empty => acc) acc) 0

inductive EnginePanic where
  | pvIndex
  | fuel
deriving DecidableEq, Repr

/-- The engine state threaded through the search: the
`principal_variation` buffer (`MAX_PLY` rows of a `MAX_PLY`-move array
plus a length), the `repetition_map` (association list of hash to
count; `BTreeMap` keys are unique and our operations keep them so),
the node counter, and the clock-sample counter. -/
structure SearchSt where
  pv : List (List Move × Nat)
  rep : List (Nat × Nat)
  nodes : Nat
  t : Nat
deriving DecidableEq, Repr

/-- The search state of `AlphaBetaEngine::new()`. -/
def initSearchSt : SearchSt :=
  ⟨List.replicate MAX_PLY (List.replicate MAX_PLY (Move.new 99 99 99 99), 0), [], 0, 0⟩

def repGet : List (Nat × Nat) → Nat → Option Nat
  | [], _ => none
  | e :: tl, h => if e.1 = h then some e.2 else repGet tl h

/-- `AlphaBetaEngine::insert_hash`; counts are `u8`, hence mod 256. -/
def insert_hash (m : List (Nat × Nat)) (h : Nat) : List (Nat × Nat) :=
  match repGet m h with
  | some _ => m.map fun e => if e.1 = h then (e.1, (e.2 + 1) % 256) else e
  | none => m ++ [(h, 1)]

/-- `AlphaBetaEngine::remove_hash`. -/
def remove_hash (m : List (Nat × Nat)) (h : Nat) : List (Nat × Nat) :=
  match repGet m h with
  | some c =>
      if 1 < c then m.map fun e => if e.1 = h then (e.1, e.2 - 1) else e
      else m.filter fun e => e.1 != h
  | none => m

/-- Checked write of `principal_variation[ply].1 = n`; `none` is the
out-of-bounds panic. -/
def pvSetLen (pv : List (List Move × Nat)) (ply n : Nat) :
    Option (List (List Move × Nat)) :=
  match pv.get? ply with
  | some e => some (pv.set ply (e.1, n))
  | none => none

/-- Checked write into a fixed-size move array. -/
def setAt (l : List Move) (i : Nat) (mv : Move) : Option (List Move) :=
  if i < l.length then some (l.set i mv) else none

/-- The copy loop of `save_principal_variation`: for `i in 0..n`,
`dst[i + 1] = src[i]`, all accesses checked. -/
def copyPVMoves (src : List Move) : List Move → Nat → Option (List Move)
  | dst, 0 => some dst
  | dst, i + 1 =>
      match copyPVMoves src dst i with
      | some d =>
          match src.get? i with
          | some m => setAt d (i + 1) m
          | none => none
      | none => none

/-- `AlphaBetaEngine::save_principal_variation` (the `depth` argument
is unused in the source as well). -/
def save_principal_variation (pv : List (List Move × Nat)) (mv : Move)
    (depth ply : Nat) : Option (List (List Move × Nat)) :=
  match pv.get? ply, pv.get? (ply + 1) with
  | some cur, some next =>
      match setAt cur.1 0 mv with
      | some d0 =>
          match copyPVMoves next.1 d0 next.2 with
          | some d => some (pv.set ply (d, next.2 + 1))
          | none => none
      | none => none
  | _, _ => none

/-- The capture-move loop of `quiescence_search_prunning`,
parameterized by the recursive call `f`. -/
def quiescenceLoop (z : ZobristKeys)
    (f : ChessBoard → Int → Int → SearchSt → Except EnginePanic (Option Int × SearchSt))
    (board : ChessBoard) (beta : Int) :
    List Move → Int → Int → SearchSt → Except EnginePanic (Option Int × SearchSt)
  | [], _, maxScore, s => .ok (some maxScore, s)
  | mv :: rest, alpha, maxScore, s =>
      match f (make_move z board mv) (-beta) (-alpha) s with
      | .error e => .error e
      | .ok (none, s1) => .ok (none, s1)
      | .ok (some sc, s1) =>
          let score := -sc
          let maxScore := max maxScore score
          let alpha := max alpha score
          if beta ≤ alpha then .ok (some maxScore, s1)
          else quiescenceLoop z f board beta rest alpha maxScore s1

/-- `AlphaBetaEngine::quiescence_search_prunning`. -/
def quiescence (z : ZobristKeys) (stop : Nat → Bool) :
    Nat → ChessBoard → Int → Int → SearchSt → Except EnginePanic (Option Int × SearchSt)
  | 0, _, _, _, _ => .error .fuel
  | fuel + 1, board, alpha, beta, s =>
      if stop s.t then .ok (none, { s with t := s.t + 1 })
      else
        let s := { s with t := s.t + 1, nodes := s.nodes + 1 }
        let stand_pat := evaluate_board board *
          (if board.active_color = Color.White then 1 else -1)
        let maxScore := stand_pat
        let alpha := max alpha stand_pat
        if beta ≤ alpha then .ok (some maxScore, s)
        else
          quiescenceLoop z (fun nb a b s1 => quiescence z stop fuel nb a b s1)
            board beta (generate_legal_capture_moves z board) alpha maxScore s

/-- The move loop of `negamax`, parameterized by the recursive call
`f`; `hash` is the entered position's hash, removed from the
repetition map on every exit. -/
def negamaxLoop (z : ZobristKeys)
    (f : ChessBoard → Int → Int → SearchSt → Except EnginePanic (Option Int × SearchSt))
    (board : ChessBoard) (depth beta : Int) (ply hash : Nat) :
    List Move → Int → Int → SearchSt → Except EnginePanic (Option Int × SearchSt)
  | [], _, maxScore, s => .ok (some maxScore, { s with rep := remove_hash s.rep hash })
  | mv :: rest, alpha, maxScore, s =>
      match f (make_move z board mv) (-beta) (-alpha) s with
      | .error e => .error e
      | .ok (none, s1) => .ok (none, { s1 with rep := remove_hash s1.rep hash })
      | .ok (some sc, s1) =>
          let score := -sc
          if maxScore < score then
            if alpha < score then
              match save_principal_variation s1.pv mv depth.toNat ply with
              | none => .error .pvIndex
              | some pv2 =>
                  if beta ≤ score then
                    .ok (some score, { s1 with pv := pv2, rep := remove_hash s1.rep hash })
                  else
                    negamaxLoop z f board depth beta ply hash rest score score
                      { s1 with pv := pv2 }
            else negamaxLoop z f board depth beta ply hash rest alpha score s1
          else negamaxLoop z f board depth beta ply hash rest alpha maxScore s1

/-- `AlphaBetaEngine::negamax`.  The engine calls
`generate_legal_moves` without a guess of the best move. -/
def negamax (z : ZobristKeys) (stop : Nat → Bool) :
    Nat → ChessBoard → Int → Int → Int → Nat → SearchSt →
      Except EnginePanic (Option Int × SearchSt)
  | 0, _, _, _, _, _, _ => .error .fuel
  | fuel + 1, board, depth, alpha, beta, ply, s =>
      if stop s.t then .ok (none, { s with t := s.t + 1 })
      else
        let s := { s with t := s.t + 1, nodes := s.nodes + 1 }
        match pvSetLen s.pv ply 0 with
        | none => .error .pvIndex
        | some pv1 =>
            let s := { s with pv := pv1 }
            let hash := board.hash
            if repGet s.rep hash = some 2 then .ok (some 0, s)
            else
              let s := { s with rep := insert_hash s.rep hash }
              if depth ≤ 0 ∨ MAX_PLY < ply then
                quiescence z stop fuel board alpha beta
                  { s with nodes := s.nodes - 1, rep := remove_hash s.rep hash }
              else
                let moves := generate_legal_moves z board none
                if moves.isEmpty then
                  if is_checkmate z board then
                    .ok (some (LOSS - depth), { s with rep := remove_hash s.rep hash })
                  else if is_stalemate z board then
                    .ok (some DRAW, { s with rep := remove_hash s.rep hash })
                  else
                    negamaxLoop z
                      (fun nb a b s1 => negamax z stop fuel nb (depth - 1) a b (ply + 1) s1)
                      board depth beta ply hash moves alpha MIN_EVALUATION s
                else
                  negamaxLoop z
                    (fun nb a b s1 => negamax z stop fuel nb (depth - 1) a b (ply + 1) s1)
                    board depth beta ply hash moves alpha MIN_EVALUATION s

/-- The move loop of `find_best_move_with_timeout` (modelled at
`random = false`, the setting the iterative driver uses). -/
def fbmtLoop (z : ZobristKeys) (stop : Nat → Bool) (fuel : Nat)
    (board : ChessBoard) (depth : Int) :
    List Move → Int → Int → Option Move → SearchSt →
      Except EnginePanic (Option (Move × Int × Nat) × SearchSt)
  | [], _, bestScore, best, s =>
      .ok (best.map fun mv => (mv, bestScore, s.nodes), s)
  | mv :: rest, alpha, bestScore, best, s =>
      if stop s.t then .ok (none, { s with t := s.t + 1 })
      else
        let s := { s with t := s.t + 1 }
        match negamax z stop fuel (make_move z board mv) depth MIN_EVALUATION (-alpha) 1 s with
        | .error e => .error e
        | .ok (none, s1) => .ok (none, s1)
        | .ok (some sc, s1) =>
            let score := -sc
            if bestScore < score then
              match save_principal_variation s1.pv mv depth.toNat 0 with
              | none => .error .pvIndex
              | some pv2 =>
                  fbmtLoop z stop fuel board depth rest score score (some mv)
                    { s1 with pv := pv2 }
            else fbmtLoop z stop fuel board depth rest alpha bestScore best s1

/-- `AlphaBetaEngine::find_best_move_with_timeout`; the node counter
is the per-call local of the source, so it starts at zero. -/
def find_best_move_with_timeout (z : ZobristKeys) (stop : Nat → Bool) (fuel : Nat)
    (board : ChessBoard) (depth : Int) (s : SearchSt) :
    Except EnginePanic (Option (Move × Int × Nat) × SearchSt) :=
  let s := { s with nodes := 0 }
  fbmtLoop z stop fuel board depth (generate_legal_moves z board none)
    MIN_EVALUATION I32_MIN none s

/-- Checked read of `principal_variation[0].0[0..principal_variation[0].1]`. -/
def pvPrefix (pv : List (List Move × Nat)) : Option (List Move) :=
  match pv.get? 0 with
  | some e => if e.2 ≤ e.1.length then some (e.1.take e.2) else none
  | none => none

/-- The iterative-deepening loop of `find_best_move_iterative`:
`best` accumulates the deepest fully completed iteration, `total` the
node count of the completed iterations. -/
def fbmiLoop (z : ZobristKeys) (stop : Nat → Bool) (fuelN : Nat) (board : ChessBoard) :
    Nat → Int → Option (List Move × Int × Nat × Int) → Nat → SearchSt →
      Except EnginePanic (Option (List Move × Int × Nat × Int) × SearchSt)
  | 0, _, _, _, _ => .error .fuel
  | fuelD + 1, depth, best, total, s =>
      if stop s.t then .ok (best, { s with t := s.t + 1 })
      else
        let s := { s with t := s.t + 1 }
        match find_best_move_with_timeout z stop fuelN board depth s with
        | .error e => .error e
        | .ok (none, s1) => .ok (best, s1)
        | .ok (some (_mv, score, nodes), s1) =>
            match pvPrefix s1.pv with
            | none => .error .pvIndex
            | some pvm =>
                fbmiLoop z stop fuelN board fuelD (depth + 1)
                  (some (pvm, score, total + nodes, depth)) (total + nodes) s1

/-- `AlphaBetaEngine::find_best_move_iterative`, starting at depth 1
with no completed iteration. -/
def find_best_move_iterative (z : ZobristKeys) (stop : Nat → Bool)
    (fuelN fuelD : Nat) (board : ChessBoard) (s : SearchSt) :
    Except EnginePanic (Option (List Move × Int × Nat × Int) × SearchSt) :=
  fbmiLoop z stop fuelN board fuelD 1 none 0 s

/-- The leftmost search path of `negamax`: mirrors the entry sequence
of every node (clock sample, node count, the unconditional write
`principal_variation[ply].1 = 0`, the repetition check, the hash
insertion) and then descends into the first generated move, exactly as
the move loop does on its first iteration.  `true` means the descent
reaches a node whose entry write indexes the PV buffer out of
bounds. -/
def panicPath (z : ZobristKeys) (stop : Nat → Bool) :
    Nat → ChessBoard → Int → Nat → SearchSt → Bool
  | 0, _, _, _, _ => false
  | fuel + 1, board, depth, ply, s =>
      if stop s.t then false
      else
        let s := { s with t := s.t + 1, nodes := s.nodes + 1 }
        match pvSetLen s.pv ply 0 with
        | none => true
        | some pv1 =>
            let s := { s with pv := pv1 }
            if repGet s.rep board.hash = some 2 then false
            else
              let s := { s with rep := insert_hash s.rep board.hash }
              if depth ≤ 0 ∨ MAX_PLY < ply then false
              else
                match generate_legal_moves z board none with
                | [] => false
                | mv :: _ =>
                    panicPath z stop fuel (make_move z board mv) (depth - 1) (ply + 1) s

theorem claim_C6_witness :
    ∃ b', ChessBoard.from_fen c2_keys (to_fen c2_board) = Except.ok b' ∧
      b'.squares = c2_board.squares ∧
      b'.active_color = c2_board.active_color ∧
      b'.castling_rights = c2_board.castling_rights ∧
      b'.en_passant = c2_board.en_passant ∧
      b'.halfmove_clock = c2_board.halfmove_clock ∧
      b'.fullmove_number = c2_board.fullmove_number ∧
      b'.hash = c2_board.hash :=
  claim_C6 c2_keys c2_board (Reachable.fen c2_fen c2_board (by rfl))

/-! ## C9: the principal-variation buffer overruns at `MAX_PLY` -/

/-- C9 (refuting the bounds claim): whenever the leftmost descent of
the search reaches a node at ply `MAX_PLY` — the entry write
`self.principal_variation[ply].1 = 0` is executed before the
`ply > MAX_PLY` guard, and that guard itself lets `ply == MAX_PLY`
through — `negamax` aborts with the out-of-bounds panic instead of
returning a score.  A root search of depth ≥ 19 reaches ply 20 along
any line of legal moves free of repetition hits. -/
theorem claim_C9 (z : ZobristKeys) (stop : Nat → Bool) (fuel : Nat)
    (board : ChessBoard) (depth : Int) (ply : Nat) (s : SearchSt)
    (alpha beta : Int)
    (h : panicPath z stop fuel board depth ply s = true) :
    negamax z stop fuel board depth alpha beta ply s = .error EnginePanic.pvIndex := by
  induction fuel generalizing board depth ply s alpha beta with
  | zero => rw [panicPath] at h; cases h
  | succ fuel ih =>
      rw [panicPath] at h
      rw [negamax]
      by_cases hstop : stop s.t = true
      · rw [if_pos hstop] at h; cases h
      · rw [if_neg hstop] at h ⊢
        dsimp only at h ⊢
        cases hpv : pvSetLen s.pv ply 0 with
        | none => rfl
        | some pv1 =>
            rw [hpv] at h
            dsimp only at h ⊢
            by_cases hhit : repGet s.rep board.hash = some 2
            · rw [if_pos hhit] at h; cases h
            · rw [if_neg hhit] at h ⊢
              by_cases hdp : depth ≤ 0 ∨ MAX_PLY < ply
              · rw [if_pos hdp] at h; cases h
              · rw [if_neg hdp] at h ⊢
                cases hm : generate_legal_moves z board none with
                | nil => rw [hm] at h; cases h
                | cons mv rest =>
                    rw [hm] at h
                    have h2 : panicPath z stop fuel (make_move z board mv)
                        (depth - 1) (ply + 1)
                        { pv := pv1, rep := insert_hash s.rep board.hash,
                          nodes := s.nodes + 1, t := s.t + 1 } = true := h
                    rw [show (mv :: rest).isEmpty = false from rfl]
                    rw [if_neg (by simp)]
                    rw [negamaxLoop]
                    dsimp only
                    rw [ih _ _ _ _ _ _ h2]

theorem claim_C9_witness :
    negamax c2_keys (fun _ => false) 2 c2_board 1 0 0 19 initSearchSt =
      .error EnginePanic.pvIndex :=
  claim_C9 c2_keys (fun _ => false) 2 c2_board 1 19 initSearchSt 0 0 (by decide)

/-! ## C8: the repetition map across `negamax` -/

theorem repGet_none_iff (m : List (Nat × Nat)) (h : Nat) :
    repGet m h = none ↔ ∀ e ∈ m, e.1 ≠ h := by
  induction m with
  | nil => simp [repGet]
  | cons e tl ih =>
      by_cases he : e.1 = h
      · simp [repGet, he]
      · simp [repGet, he, ih]

theorem repGet_mem (m : List (Nat × Nat)) (h c : Nat)
    (hg : repGet m h = some c) : (h, c) ∈ m := by
  induction m with
  | nil => cases hg
  | cons e tl ih =>
      rw [repGet] at hg
      by_cases he : e.1 = h
      · rw [if_pos he] at hg
        injection hg with hg2
        cases e with
        | mk a b =>
            dsimp only at he hg2
            subst he; subst hg2
            exact List.mem_cons_self _ _
      · rw [if_neg he] at hg
        exact List.mem_cons_of_mem _ (ih hg)

theorem repGet_map_if (m : List (Nat × Nat)) (h : Nat) (g : Nat → Nat) :
    repGet (m.map fun e => if e.1 = h then (e.1, g e.2) else e) h =
      Option.map g (repGet m h) := by
  induction m with
  | nil => rfl
  | cons e tl ih =>
      by_cases he : e.1 = h
      · simp [repGet, he, ih]
      · simp [repGet, he, ih]

theorem map_mem_id {α : Type} (l : List α) (f : α → α)
    (hf : ∀ x ∈ l, f x = x) : l.map f = l := by
  induction l with
  | nil => rfl
  | cons x xs ih =>
      rw [List.map_cons, hf x (List.mem_cons_self _ _),
        ih fun y hy => hf y (List.mem_cons_of_mem _ hy)]

theorem filter_ne_self (m : List (Nat × Nat)) (h : Nat)
    (hm : ∀ e ∈ m, e.1 ≠ h) : (m.filter fun e => e.1 != h) = m := by
  induction m with
  | nil => rfl
  | cons e tl ih =>
      rw [List.filter_cons, if_pos (by simp [bne_iff_ne]; exact hm e (List.mem_cons_self _ _)),
        ih fun y hy => hm y (List.mem_cons_of_mem _ hy)]

theorem repGet_append_none (m l : List (Nat × Nat)) (h : Nat)
    (hm : repGet m h = none) : repGet (m ++ l) h = repGet l h := by
  induction m with
  | nil => rfl
  | cons e tl ih =>
      rw [repGet] at hm
      by_cases he : e.1 = h
      · rw [if_pos he] at hm; cases hm
      · rw [if_neg he] at hm
        rw [List.cons_append, repGet, if_neg he]
        exact ih hm

/-- `remove_hash` exactly undoes `insert_hash` as long as the stored
count of the inserted hash cannot wrap the `u8` increment. -/
theorem remove_insert (m : List (Nat × Nat)) (h : Nat)
    (hm : ∀ e ∈ m, 1 ≤ e.2 ∧ e.2 ≤ 254) :
    remove_hash (insert_hash m h) h = m := by
  unfold insert_hash
  cases hg : repGet m h with
  | none =>
      unfold remove_hash
      rw [repGet_append_none m _ h hg,
        show repGet [(h, 1)] h = some 1 from by simp [repGet]]
      dsimp only
      rw [if_neg (by omega : ¬ 1 < 1), List.filter_append,
        filter_ne_self m h ((repGet_none_iff m h).mp hg),
        show ([(h, 1)].filter fun e => e.1 != h) = [] from by simp [List.filter]]
      exact List.append_nil m
  | some c =>
      have hc := hm _ (repGet_mem m h c hg)
      have hmod : (c + 1) % 256 = c + 1 := Nat.mod_eq_of_lt (by omega)
      unfold remove_hash
      rw [repGet_map_if m h fun x => (x + 1) % 256, hg]
      dsimp only [Option.map]
      rw [hmod, if_pos (by omega : 1 < c + 1), List.map_map]
      refine map_mem_id m _ fun e he => ?_
      by_cases hk : e.1 = h
      · have he2 := hm e he
        have hmod2 : (e.2 + 1) % 256 = e.2 + 1 := Nat.mod_eq_of_lt (by omega)
        simp only [Function.comp, if_pos hk, hmod2]
        rw [show e.2 + 1 - 1 = e.2 from by omega, Prod.mk.eta]
      · simp only [Function.comp, if_neg hk]

/-- Bound on the repetition-map counts that keeps every `u8` increment
along a search of remaining depth `n` from wrapping. -/
def repOK (m : List (Nat × Nat)) (n : Nat) : Prop :=
  n ≤ 255 ∧ ∀ e ∈ m, 1 ≤ e.2 ∧ e.2 + n ≤ 255

instance repOK_decidable (m : List (Nat × Nat)) (n : Nat) : Decidable (repOK m n) := by
  unfold repOK; infer_instance

theorem repOK_insert (m : List (Nat × Nat)) (h n : Nat)
    (hm : repOK m (n + 1)) : repOK (insert_hash m h) n := by
  obtain ⟨hn, hm⟩ := hm
  refine ⟨by omega, ?_⟩
  intro e he
  unfold insert_hash at he
  cases hg : repGet m h with
  | none =>
      rw [hg] at he
      rcases List.mem_append.mp he with h1 | h1
      · have := hm e h1; omega
      · have h2 : e = (h, 1) := by simpa using h1
        subst h2
        exact ⟨by omega, by omega⟩
  | some c =>
      rw [hg] at he
      rcases List.mem_map.mp he with ⟨e0, he0, rfl⟩
      have h2 := hm e0 he0
      by_cases hk : e0.1 = h
      · have hmod : (e0.2 + 1) % 256 = e0.2 + 1 := Nat.mod_eq_of_lt (by omega)
        rw [if_pos hk]
        dsimp only
        rw [hmod]
        omega
      · rw [if_neg hk]
        exact ⟨h2.1, by omega⟩

theorem quiescenceLoop_rep (z : ZobristKeys)
    (f : ChessBoard → Int → Int → SearchSt → Except EnginePanic (Option Int × SearchSt))
    (board : ChessBoard) (beta : Int)
    (hf : ∀ nb a b s0 r0 s1, f nb a b s0 = .ok (r0, s1) → s1.rep = s0.rep) :
    ∀ (moves : List Move) (alpha maxScore : Int) (s : SearchSt)
      (r : Option Int) (s' : SearchSt),
      quiescenceLoop z f board beta moves alpha maxScore s = .ok (r, s') →
      s'.rep = s.rep := by
  intro moves
  induction moves with
  | nil =>
      intro alpha mx s r s' heq
      rw [quiescenceLoop] at heq
      cases heq; rfl
  | cons mv rest ih =>
      intro alpha mx s r s' heq
      rw [quiescenceLoop] at heq
      cases hc : f (make_move z board mv) (-beta) (-alpha) s with
      | error e => rw [hc] at heq; cases heq
      | ok p =>
          obtain ⟨r0, s1⟩ := p
          rw [hc] at heq
          have hs1 : s1.rep = s.rep := hf _ _ _ _ _ _ hc
          cases r0 with
          | none => cases heq; exact hs1
          | some sc =>
              dsimp only at heq
              by_cases hb : beta ≤ max alpha (-sc)
              · rw [if_pos hb] at heq; cases heq; exact hs1
              · rw [if_neg hb] at heq
                exact (ih _ _ _ _ _ heq).trans hs1

theorem quiescence_rep (z : ZobristKeys) (stop : Nat → Bool) :
    ∀ (fuel : Nat) (board : ChessBoard) (alpha beta : Int) (s : SearchSt)
      (r : Option Int) (s' : SearchSt),
      quiescence z stop fuel board alpha beta s = .ok (r, s') → s'.rep = s.rep := by
  intro fuel
  induction fuel with
  | zero => intro board alpha beta s r s' heq; cases heq
  | succ fuel ih =>
      intro board alpha beta s r s' heq
      rw [quiescence] at heq
      by_cases hstop : stop s.t = true
      · rw [if_pos hstop] at heq; cases heq; rfl
      · rw [if_neg hstop] at heq
        dsimp only at heq
        by_cases hb : beta ≤ max alpha (evaluate_board board *
            if board.active_color = Color.White then 1 else -1)
        · rw [if_pos hb] at heq; cases heq; rfl
        · rw [if_neg hb] at heq
          have h3 := quiescenceLoop_rep z _ board beta
            (fun nb a b s0 r0 s1 hc => ih nb a b s0 r0 s1 hc) _ _ _ _ _ _ heq
          exact h3

theorem negamaxLoop_rep (z : ZobristKeys)
    (f : ChessBoard → Int → Int → SearchSt → Except EnginePanic (Option Int × SearchSt))
    (board : ChessBoard) (depth beta : Int) (ply hash : Nat)
    (R : List (Nat × Nat))
    (hf : ∀ nb a b s0 r0 s1, s0.rep = R → f nb a b s0 = .ok (r0, s1) → s1.rep = s0.rep) :
    ∀ (moves : List Move) (alpha maxScore : Int) (s : SearchSt)
      (r : Option Int) (s' : SearchSt), s.rep = R →
      negamaxLoop z f board depth beta ply hash moves alpha maxScore s = .ok (r, s') →
      s'.rep = remove_hash R hash := by
  intro moves
  induction moves with
  | nil =>
      intro alpha mx s r s' hsR heq
      rw [negamaxLoop] at heq
      cases heq
      dsimp only
      rw [hsR]
  | cons mv rest ih =>
      intro alpha mx s r s' hsR heq
      rw [negamaxLoop] at heq
      cases hc : f (make_move z board mv) (-beta) (-alpha) s with
      | error e => rw [hc] at heq; cases heq
      | ok p =>
          obtain ⟨r0, s1⟩ := p
          rw [hc] at heq
          have hs1 : s1.rep = R := (hf _ _ _ _ _ _ hsR hc).trans hsR
          cases r0 with
          | none =>
              cases heq
              dsimp only
              rw [hs1]
          | some sc =>
              dsimp only at heq
              by_cases hmx : mx < -sc
              · rw [if_pos hmx] at heq
                by_cases hal : alpha < -sc
                · rw [if_pos hal] at heq
                  cases hsv : save_principal_variation s1.pv mv depth.toNat ply with
                  | none => rw [hsv] at heq; cases heq
                  | some pv2 =>
                      rw [hsv] at heq
                      dsimp only at heq
                      by_cases hbc : beta ≤ -sc
                      · rw [if_pos hbc] at heq
                        cases heq
                        dsimp only
                        rw [hs1]
                      · rw [if_neg hbc] at heq
                        refine ih _ _ _ _ _ ?_ heq
                        exact hs1
                · rw [if_neg hal] at heq
                  exact ih _ _ _ _ _ hs1 heq
              · rw [if_neg hmx] at heq
                exact ih _ _ _ _ _ hs1 heq


/-- Every `Some`/`None` return of `negamax` restores the repetition
map, given that no `u8` count can wrap along the way. -/
theorem negamax_rep_frame (z : ZobristKeys) (stop : Nat → Bool) :
    ∀ (fuel : Nat) (board : ChessBoard) (depth alpha beta : Int) (ply : Nat)
      (s : SearchSt) (r : Option Int) (s' : SearchSt),
      negamax z stop fuel board depth alpha beta ply s = .ok (r, s') →
      repOK s.rep fuel → s'.rep = s.rep := by
  intro fuel
  induction fuel with
  | zero => intro board depth alpha beta ply s r s' heq; cases heq
  | succ fuel ih =>
      intro board depth alpha beta ply s r s' heq hrep
      rw [negamax] at heq
      by_cases hstop : stop s.t = true
      · rw [if_pos hstop] at heq; cases heq; rfl
      · rw [if_neg hstop] at heq
        dsimp only at heq
        cases hpv : pvSetLen s.pv ply 0 with
        | none => rw [hpv] at heq; cases heq
        | some pv1 =>
            rw [hpv] at heq
            dsimp only at heq
            by_cases hhit : repGet s.rep board.hash = some 2
            · rw [if_pos hhit] at heq; cases heq; rfl
            · rw [if_neg hhit] at heq
              have hri : remove_hash (insert_hash s.rep board.hash) board.hash = s.rep :=
                remove_insert _ _ fun e he =>
                  ⟨(hrep.2 e he).1, by have := hrep.2 e he; omega⟩
              have hins : repOK (insert_hash s.rep board.hash) fuel :=
                repOK_insert _ _ _ hrep
              by_cases hdp : depth ≤ 0 ∨ MAX_PLY < ply
              · rw [if_pos hdp] at heq
                have h2 := quiescence_rep z stop fuel _ _ _ _ _ _ heq
                exact h2.trans hri
              · rw [if_neg hdp] at heq
                have hloop : ∀ (moves : List Move) (alpha0 mx0 : Int) (r0 : Option Int)
                    (s0 : SearchSt), s0.rep = insert_hash s.rep board.hash →
                    negamaxLoop z
                      (fun nb a b s1 => negamax z stop fuel nb (depth - 1) a b (ply + 1) s1)
                      board depth beta ply board.hash moves alpha0 mx0 s0 = .ok (r0, s') →
                    s'.rep = s.rep := by
                  intro moves alpha0 mx0 r0 s0 hs0 hl
                  refine (negamaxLoop_rep z _ board depth beta ply board.hash
                    (insert_hash s.rep board.hash) ?_ moves alpha0 mx0 s0 r0 s' hs0 hl).trans hri
                  intro nb a b s02 r1 s1 hs02 hc
                  exact ih nb (depth - 1) a b (ply + 1) s02 r1 s1 hc (by rw [hs02]; exact hins)
                by_cases hemp : (generate_legal_moves z board none).isEmpty = true
                · rw [if_pos hemp] at heq
                  by_cases hcm : is_checkmate z board = true
                  · rw [if_pos hcm] at heq; cases heq; exact hri
                  · rw [if_neg hcm] at heq
                    by_cases hsm : is_stalemate z board = true
                    · rw [if_pos hsm] at heq; cases heq; exact hri
                    · rw [if_neg hsm] at heq
                      exact hloop _ _ _ _ _ rfl heq
                · rw [if_neg hemp] at heq
                  exact hloop _ _ _ _ _ rfl heq

/-- C8: on every `Some`/`None` return `negamax` leaves the repetition
map exactly as it found it, provided no stored `u8` count can wrap
along the remaining recursion (counts are at least 1 and small enough,
which holds in ordinary play); and a call entering a position whose
stored count is already 2 returns `Some(0)` immediately, with the map
untouched (only the clock sample, the node counter and the
`principal_variation[ply].1 = 0` entry write have happened). -/
theorem claim_C8 :
    (∀ (z : ZobristKeys) (stop : Nat → Bool) (fuel : Nat) (board : ChessBoard)
        (depth alpha beta : Int) (ply : Nat) (s : SearchSt) (r : Option Int)
        (s' : SearchSt),
        negamax z stop fuel board depth alpha beta ply s = .ok (r, s') →
        repOK s.rep fuel → s'.rep = s.rep) ∧
    (∀ (z : ZobristKeys) (stop : Nat → Bool) (fuel : Nat) (board : ChessBoard)
        (depth alpha beta : Int) (ply : Nat) (s : SearchSt)
        (pv1 : List (List Move × Nat)),
        stop s.t = false →
        pvSetLen s.pv ply 0 = some pv1 →
        repGet s.rep board.hash = some 2 →
        negamax z stop (fuel + 1) board depth alpha beta ply s =
          .ok (some 0, { s with t := s.t + 1, nodes := s.nodes + 1, pv := pv1 })) := by
  constructor
  · exact fun z stop fuel board depth alpha beta ply s r s' heq hrep =>
      negamax_rep_frame z stop fuel board depth alpha beta ply s r s' heq hrep
  · intro z stop fuel board depth alpha beta ply s pv1 hstop hpv hhit
    rw [negamax, if_neg (by rw [hstop]; exact Bool.false_ne_true)]
    dsimp only
    rw [hpv]
    dsimp only
    rw [if_pos hhit]

def c8_fen : List Char := ("k7/8/8/8/8/8/8/K7 w - - 0 1").data

def c8_board : ChessBoard := boardOfFen c2_keys c8_fen

/-- C8 (counterexample to the unconditional statement): entering a
position whose stored count is 255 — reachable because the engine's
`make_move` records every game move without a cap — wraps the `u8`
count to 0 on entry, and the exit `remove_hash` then deletes the entry
instead of restoring 255: the map is not left as it was found. -/
theorem claim_C8_counterexample :
    ∃ (r : Option Int) (s' : SearchSt),
      negamax c2_keys (fun _ => false) 3 c8_board 0 0 0 1
        { initSearchSt with rep := [(c8_board.hash, 255)] } = .ok (r, s') ∧
      s'.rep ≠ [(c8_board.hash, 255)] :=
  ⟨some 0, { initSearchSt with nodes := 1, t := 2 }, by decide, by decide⟩

theorem claim_C8_witness :
    (({ initSearchSt with nodes := 1, t := 2 } : SearchSt).rep = initSearchSt.rep) ∧
    negamax c2_keys (fun _ => false) 3 c8_board 0 0 0 1
        { initSearchSt with rep := [(c8_board.hash, 2)] } =
      .ok (some 0, { { initSearchSt with rep := [(c8_board.hash, 2)] } with
        t := 1, nodes := 1, pv := initSearchSt.pv }) := by
  constructor
  · exact claim_C8.1 c2_keys (fun _ => false) 3 c8_board 0 (-100) 100 1 initSearchSt
      (some 0) { initSearchSt with nodes := 1, t := 2 } (by decide) (by decide)
  · exact claim_C8.2 c2_keys (fun _ => false) 2 c8_board 0 0 0 1
      { initSearchSt with rep := [(c8_board.hash, 2)] } initSearchSt.pv
      rfl (by decide) (by decide)

/-! ## C7: timeout/abort propagation and the iterative driver -/

/-- C7: (1) when the deadline/abort gate fires at entry, `negamax`
returns `None` at once — only the clock sample happened, no node
count, no PV write, no map change; (2) `negamax`'s move loop
propagates a child's `None` upward for every value of its
`max_score`/`alpha` accumulators, removing only the entry hash;
(3) `find_best_move_with_timeout`'s loop returns `None` when the gate
fires before a move, and (4) propagates a child's `None` without
consulting its best move or best score; (5) an iteration of
`find_best_move_iterative` that returns `None` leaves the accumulated
best — the deepest fully completed iteration — as the overall result;
(6) a completed iteration becomes the new accumulated best, carrying
its own principal variation, score, cumulative node count and depth;
(7) if already the depth-1 iteration returns `None`, the driver
returns `None`. -/
theorem claim_C7 :
    (∀ (z : ZobristKeys) (stop : Nat → Bool) (fuel : Nat) (board : ChessBoard)
        (depth alpha beta : Int) (ply : Nat) (s : SearchSt),
        stop s.t = true →
        negamax z stop (fuel + 1) board depth alpha beta ply s =
          .ok (none, { s with t := s.t + 1 })) ∧
    (∀ (z : ZobristKeys)
        (f : ChessBoard → Int → Int → SearchSt → Except EnginePanic (Option Int × SearchSt))
        (board : ChessBoard) (depth beta : Int) (ply hash : Nat) (mv : Move)
        (rest : List Move) (alpha maxScore : Int) (s s1 : SearchSt),
        f (make_move z board mv) (-beta) (-alpha) s = .ok (none, s1) →
        negamaxLoop z f board depth beta ply hash (mv :: rest) alpha maxScore s =
          .ok (none, { s1 with rep := remove_hash s1.rep hash })) ∧
    (∀ (z : ZobristKeys) (stop : Nat → Bool) (fuel : Nat) (board : ChessBoard)
        (depth : Int) (mv : Move) (rest : List Move) (alpha bestScore : Int)
        (best : Option Move) (s : SearchSt),
        stop s.t = true →
        fbmtLoop z stop fuel board depth (mv :: rest) alpha bestScore best s =
          .ok (none, { s with t := s.t + 1 })) ∧
    (∀ (z : ZobristKeys) (stop : Nat → Bool) (fuel : Nat) (board : ChessBoard)
        (depth : Int) (mv : Move) (rest : List Move) (alpha bestScore : Int)
        (best : Option Move) (s s1 : SearchSt),
        stop s.t = false →
        negamax z stop fuel (make_move z board mv) depth MIN_EVALUATION (-alpha) 1
          { s with t := s.t + 1 } = .ok (none, s1) →
        fbmtLoop z stop fuel board depth (mv :: rest) alpha bestScore best s =
          .ok (none, s1)) ∧
    (∀ (z : ZobristKeys) (stop : Nat → Bool) (fuelN fuelD : Nat) (board : ChessBoard)
        (depth : Int) (best : Option (List Move × Int × Nat × Int)) (total : Nat)
        (s s1 : SearchSt),
        stop s.t = false →
        find_best_move_with_timeout z stop fuelN board depth { s with t := s.t + 1 } =
          .ok (none, s1) →
        fbmiLoop z stop fuelN board (fuelD + 1) depth best total s = .ok (best, s1)) ∧
    (∀ (z : ZobristKeys) (stop : Nat → Bool) (fuelN fuelD : Nat) (board : ChessBoard)
        (depth : Int) (best : Option (List Move × Int × Nat × Int)) (total : Nat)
        (s s1 : SearchSt) (mv : Move) (score : Int) (nodes : Nat),
        stop s.t = false →
        find_best_move_with_timeout z stop fuelN board depth { s with t := s.t + 1 } =
          .ok (some (mv, score, nodes), s1) →
        fbmiLoop z stop fuelN board (fuelD + 1) depth best total s =
          (match pvPrefix s1.pv with
           | none => .error EnginePanic.pvIndex
           | some pvm =>
               fbmiLoop z stop fuelN board fuelD (depth + 1)
                 (some (pvm, score, total + nodes, depth)) (total + nodes) s1)) ∧
    (∀ (z : ZobristKeys) (stop : Nat → Bool) (fuelN fuelD : Nat) (board : ChessBoard)
        (s s1 : SearchSt),
        stop s.t = false →
        find_best_move_with_timeout z stop fuelN board 1 { s with t := s.t + 1 } =
          .ok (none, s1) →
        find_best_move_iterative z stop fuelN (fuelD + 1) board s = .ok (none, s1)) := by
  refine ⟨?_, ?_, ?_, ?_, ?_, ?_, ?_⟩
  · intro z stop fuel board depth alpha beta ply s h
    rw [negamax, if_pos h]
  · intro z f board depth beta ply hash mv rest alpha maxScore s s1 h
    rw [negamaxLoop, h]
  · intro z stop fuel board depth mv rest alpha bestScore best s h
    rw [fbmtLoop, if_pos h]
  · intro z stop fuel board depth mv rest alpha bestScore best s s1 h hn
    rw [fbmtLoop, if_neg (by rw [h]; exact Bool.false_ne_true)]
    dsimp only
    rw [hn]
  · intro z stop fuelN fuelD board depth best total s s1 h hn
    rw [fbmiLoop, if_neg (by rw [h]; exact Bool.false_ne_true)]
    dsimp only
    rw [hn]
  · intro z stop fuelN fuelD board depth best total s s1 mv score nodes h hn
    rw [fbmiLoop, if_neg (by rw [h]; exact Bool.false_ne_true)]
    dsimp only
    rw [hn]
  · intro z stop fuelN fuelD board s s1 h hn
    rw [find_best_move_iterative, fbmiLoop,
      if_neg (by rw [h]; exact Bool.false_ne_true)]
    dsimp only
    rw [hn]

def c7_stop1 : Nat → Bool := fun t => decide (1 ≤ t)

/-- The depth-0 root search used to witness the completed-iteration
step of C7. -/
def c7run : Except EnginePanic (Option (Move × Int × Nat) × SearchSt) :=
  find_best_move_with_timeout c2_keys (fun _ => false) 2 c8_board 0
    { initSearchSt with t := 1 }

def c7s1 : SearchSt :=
  match c7run with
  | .ok (_, s) => s
  | .error _ => initSearchSt

def c7best : Move × Int × Nat :=
  match c7run with
  | .ok (some p, _) => p
  | _ => (Move.new 0 0 0 0, 0, 0)

theorem claim_C7_witness :
    (negamax c2_keys (fun _ => true) 1 c8_board 0 0 0 1 initSearchSt =
      .ok (none, { initSearchSt with t := 1 })) ∧
    (negamaxLoop c2_keys (fun _ _ _ s => .ok (none, s)) c8_board 1 0 1 5
        [Move.new 0 0 1 0] 0 0 initSearchSt =
      .ok (none, { initSearchSt with rep := remove_hash initSearchSt.rep 5 })) ∧
    (fbmtLoop c2_keys (fun _ => true) 1 c8_board 1 [Move.new 0 0 1 0] 0 0 none
        initSearchSt = .ok (none, { initSearchSt with t := 1 })) ∧
    (fbmtLoop c2_keys c7_stop1 1 c8_board 1 [Move.new 0 0 1 0] 0 0 none
        initSearchSt = .ok (none, { initSearchSt with t := 2 })) ∧
    (fbmiLoop c2_keys c7_stop1 1 c8_board 1 2 (some ([], 7, 3, 1)) 5 initSearchSt =
      .ok (some ([], 7, 3, 1), { initSearchSt with t := 2 })) ∧
    (fbmiLoop c2_keys (fun _ => false) 2 c8_board 1 0 none 0 initSearchSt =
      (match pvPrefix c7s1.pv with
       | none => .error EnginePanic.pvIndex
       | some pvm =>
           fbmiLoop c2_keys (fun _ => false) 2 c8_board 0 1
             (some (pvm, c7best.2.1, 0 + c7best.2.2, 0)) (0 + c7best.2.2) c7s1)) ∧
    (find_best_move_iterative c2_keys c7_stop1 1 1 c8_board initSearchSt =
      .ok (none, { initSearchSt with t := 2 })) := by
  obtain ⟨h1, h2, h3, h4, h5, h6, h7⟩ := claim_C7
  exact ⟨h1 _ _ 0 _ 0 0 0 1 _ rfl,
    h2 _ _ _ 1 0 1 5 _ [] 0 0 _ _ rfl,
    h3 _ _ 1 _ 1 _ [] 0 0 none _ rfl,
    h4 _ _ 1 _ 1 _ [] 0 0 none _ { initSearchSt with t := 2 } rfl (by decide),
    h5 _ _ 1 0 _ 2 (some ([], 7, 3, 1)) 5 _ { initSearchSt with t := 2 } rfl (by decide),
    h6 _ _ 2 0 _ 0 none 0 _ c7s1 c7best.1 c7best.2.1 c7best.2.2 rfl (by decide),
    h7 _ _ 1 0 _ _ { initSearchSt with t := 2 } rfl (by decide)⟩

end Chic
